import Mathlib

/-!
# sciffer/tail — verification development

A shallow embedding of the client (`tail-client`) and server (`tail-server`)
packages, followed by the properties established about it.

Conventions of the embedding
* A Go `string` on the client side is a Lean `String`; `len` is the UTF-8 byte
  size.  A Go `[]byte` on the server side is a `List UInt8`.
* A Go `map[string]interface{}` is an association list read with `List.lookup`
  (the first entry of a key is its entry); a Go `interface{}` holding a decoded
  JSON value is a `JVal`.
* A run-time panic (failed single-value type assertion, slice bounds out of
  range) is the value `none` of an `Option` result.
-/

namespace Tail

/-! ## Values -/

/-- Go `len(s)` of a string: the number of bytes. -/
def goLen (s : String) : Nat := s.utf8ByteSize

/-- Go `s[:n]` for a string: the bytes before offset `n`. -/
def sliceTo (s : String) (n : Nat) : String := s.extract 0 ⟨n⟩

/-- A `time.Time`: an instant (seconds and nanoseconds since the Unix epoch)
presented in a zone (offset in seconds east of UTC, and its abbreviation). -/
structure Time where
  sec : Int
  nsec : Int
  offset : Int
  zone : String
  deriving DecidableEq

/-- The dynamic values a `map[string]interface{}` of the client can hold: what
`json.Unmarshal` produces, plus the `time.Time` that `ConsumeAndPrint` stores
under `@timestamp`.  A number (a `float64`) is `num n` when `json.Marshal`
writes it as the integer literal `n`, and otherwise `real text` with the text
`json.Marshal` writes for it, which has a fraction or an exponent. -/
inductive JVal where
  | null
  | bool (b : Bool)
  | num (n : Int)
  | real (text : String)
  | str (s : String)
  | time (t : Time)
  | arr (xs : List JVal)
  | obj (fields : List (String × JVal))

/-- A `map[string]interface{}`. -/
abbrev JObj := List (String × JVal)

/-- The two-value map read `v, ok := m[k]`: presence. -/
def JObj.has (m : JObj) (k : String) : Bool := (m.lookup k).isSome

/-- The map read `m[k]`: the value, or the nil interface when the key is absent. -/
def JObj.index (m : JObj) (k : String) : JVal := (m.lookup k).getD JVal.null

/-- The single-value assertion `x.(map[string]interface{})`; `none` is the panic. -/
def JVal.assertObj : JVal → Option JObj
  | .obj fs => some fs
  | _ => none

/-- The single-value assertion `x.(string)`; `none` is the panic. -/
def JVal.assertStr : JVal → Option String
  | .str s => some s
  | _ => none

/-- The two-value assertion `v, ok := x.(string)`. -/
def JVal.commaStr : JVal → String × Bool
  | .str s => (s, true)
  | _ => ("", false)

/-! ## tail-client/tailclient -/

/-- A value stored in `esfilters`: a `string` or a `[]string`. -/
inductive EsTerm where
  | one (s : String)
  | many (l : List String)
  deriving DecidableEq

/-- The fields of `ctailclient` that the filter and history logic reads and writes. -/
structure ctailclient where
  podsfilter : List String := []
  clustersfilter : List String := []
  esclusters : List String := []
  esindices : List String := []
  esfilters : List (String × EsTerm) := []
  service : String := ""
  env : String := ""
  podid : String := ""
  rev : String := ""
  timeOffset : String := ""
  history : Bool := false
  maxMessages : Int := 0

/-- `includes(arr, elem)`: linear scan for an equal element. -/
def includes : List String → String → Bool
  | [], _ => false
  | element :: rest, elem => if element = elem then true else includes rest elem

/-- The `matched` flag of the pod-name block of `filterEvent` (lines 199-206). -/
def podNameMatched (c : ctailclient) (jsonmsg : JObj) : Option Bool :=
  if jsonmsg.has "kubernetes" then
    (jsonmsg.index "kubernetes").assertObj.bind fun kube =>
      match kube.lookup "pod_name" with
      | some val => val.assertStr.bind fun s => some (includes c.podsfilter s)
      | none => some false
  else some false

/-- The `matched` flag of a block of `filterEvent` that reads a label
(`environment`, `version`, `kubeCluster`) with a two-value string assertion and
tests it with `test`. -/
def labelMatched (label : String) (test : String → Bool) (jsonmsg : JObj) : Option Bool :=
  if jsonmsg.has "kubernetes" then
    (jsonmsg.index "kubernetes").assertObj.bind fun kube =>
      if kube.has "labels" then
        (kube.index "labels").assertObj.bind fun labels =>
          let r := (labels.index label).commaStr
          some (r.2 && test r.1)
      else some false
  else some false

/-- The `matched` flag of the pod-id block of `filterEvent` (lines 241-246). -/
def podIdMatched (c : ctailclient) (jsonmsg : JObj) : Option Bool :=
  if jsonmsg.has "kubernetes" then
    (jsonmsg.index "kubernetes").assertObj.bind fun kube =>
      let r := (kube.index "pod_id").commaStr
      some (r.2 && decide (c.podid = r.1))
  else some false

/-- One block of `filterEvent`: when the predicate is `active`, compute `matched`
and `return false` unless it holds; otherwise fall through to `rest`. -/
def filterBlock (active : Bool) (matched : Option Bool) (rest : Option Bool) : Option Bool :=
  if active then
    matched.bind fun m => if !m then some false else rest
  else rest

/-- `filterEvent`: the five blocks in source order (pod name, environment,
revision, pod id, cluster), then `return true`. -/
def filterEvent (c : ctailclient) (jsonmsg : JObj) : Option Bool :=
  filterBlock (decide (c.podsfilter.length > 0)) (podNameMatched c jsonmsg) <|
  filterBlock (decide (goLen c.env > 0))
    (labelMatched "environment" (fun val => decide (c.env = val)) jsonmsg) <|
  filterBlock (decide (goLen c.rev > 0))
    (labelMatched "version" (fun val => decide (c.rev = val)) jsonmsg) <|
  filterBlock (decide (goLen c.podid > 0)) (podIdMatched c jsonmsg) <|
  filterBlock (decide (c.clustersfilter.length > 0))
    (labelMatched "kubeCluster" (fun val => includes c.clustersfilter val) jsonmsg) <|
  some true

/-! ## The `time` package, as far as the client uses it -/

/-- A `*time.Location`: the zone offset (seconds east of UTC) and abbreviation
in effect at each instant. -/
structure Location where
  offsetAt : Int → Int
  zoneAt : Int → String

/-- `time.UTC`. -/
def Location.utc : Location := ⟨fun _ => 0, fun _ => "UTC"⟩

/-- The zero `time.Time{}`: January 1, year 1, 00:00:00 UTC. -/
def Time.zero : Time := ⟨-62135596800, 0, 0, "UTC"⟩

/-- `t.Unix()`. -/
def Time.Unix (t : Time) : Int := t.sec

/-- `t.Nanosecond()`. -/
def Time.Nanosecond (t : Time) : Int := t.nsec

/-- `t.In(loc)`: the same instant presented in `loc`. -/
def Time.In (t : Time) (loc : Location) : Time :=
  { t with offset := loc.offsetAt t.sec, zone := loc.zoneAt t.sec }

/-- The value an `int64` holds after an addition whose mathematical result is
`x`: two's-complement wrap-around. -/
def wrapInt64 (x : Int) : Int := (x + 2 ^ 63) % 2 ^ 64 - 2 ^ 63

/-- `time.Unix(sec, nsec)`: `nsec` outside `[0, 999999999]` is carried into the
seconds, an `int64` sum that wraps around; the result is presented in the local
zone. -/
def timeUnix (loc : Location) (sec nsec : Int) : Time :=
  let p : Int × Int :=
    if nsec < 0 ∨ nsec ≥ 1000000000 then
      let n := Int.tdiv nsec 1000000000
      let sec1 := wrapInt64 (sec + n)
      let nsec1 := nsec - n * 1000000000
      if nsec1 < 0 then (wrapInt64 (sec1 - 1), nsec1 + 1000000000) else (sec1, nsec1)
    else (sec, nsec)
  ⟨p.1, p.2, loc.offsetAt p.1, loc.zoneAt p.1⟩

/-- Days since 1970-01-01 of a proleptic Gregorian date. -/
def daysFromCivil (y m d : Int) : Int :=
  let y1 := if m ≤ 2 then y - 1 else y
  let era := y1 / 400
  let yoe := y1 - era * 400
  let mp := if m > 2 then m - 3 else m + 9
  let doy := (153 * mp + 2) / 5 + d - 1
  let doe := yoe * 365 + yoe / 4 - yoe / 100 + doy
  era * 146097 + doe - 719468

/-- The year of the 400-year cycle, counted from March 1, and the day of that
year, of a day of the cycle: centuries of 36524 days (the fourth one day longer),
four-year groups of 1461 days, years of 365 days (the fourth one day longer). -/
def yearOfEra (doe : Int) : Int × Int :=
  let c := min (doe / 36524) 3
  let r1 := doe - c * 36524
  let q := min (r1 / 1461) 24
  let r2 := r1 - q * 1461
  let y1 := min (r2 / 365) 3
  (c * 100 + q * 4 + y1, r2 - y1 * 365)

/-- The month and the day of the month of a day of the year counted from March 1. -/
def monthDay (doy : Int) : Int × Int :=
  let mp := (5 * doy + 2) / 153
  (if mp < 10 then mp + 3 else mp - 9, doy - (153 * mp + 2) / 5 + 1)

/-- The proleptic Gregorian date (year, month, day) of a day number. -/
def civilFromDays (z : Int) : Int × Int × Int :=
  let z1 := z + 719468
  let yd := yearOfEra (z1 % 146097)
  let md := monthDay yd.2
  let y := z1 / 146097 * 400 + yd.1
  (if md.1 ≤ 2 then y + 1 else y, md.1, md.2)

/-- Leap years of the Gregorian calendar. -/
def isLeap (y : Int) : Bool := y % 4 = 0 ∧ (y % 100 ≠ 0 ∨ y % 400 = 0)

/-- The length of a month. -/
def daysIn (m y : Int) : Int :=
  if m = 2 then (if isLeap y then 29 else 28)
  else if m = 4 ∨ m = 6 ∨ m = 9 ∨ m = 11 then 30 else 31

/-- The decimal digit `d % 10` as a character. -/
def digitChar (d : Nat) : Char := Char.ofNat (48 + d % 10)

/-- The value of a decimal digit character. -/
def digitVal (c : Char) : Option Nat :=
  if 48 ≤ c.toNat ∧ c.toNat ≤ 57 then some (c.toNat - 48) else none

/-- The `w` low-order decimal digits of `n`, most significant first. -/
def putDigits : Nat → Nat → List Char
  | 0, _ => []
  | w + 1, n => digitChar (n / 10 ^ w) :: putDigits w n

/-- The `appendInt(b, x, width)` of `time/format.go`: a sign for a negative `x`,
then its decimal digits, zero-padded to at least `width`. -/
def appendInt (x : Int) (width : Nat) : List Char :=
  (if x < 0 then ['-'] else []) ++
    (if x.natAbs < 10 ^ width then putDigits width x.natAbs else Nat.toDigits 10 x.natAbs)

/-- Read exactly `w` decimal digits after the accumulated value `acc`. -/
def getDigits : Nat → Nat → List Char → Option (Nat × List Char)
  | 0, acc, cs => some (acc, cs)
  | _ + 1, _, [] => none
  | w + 1, acc, c :: cs => (digitVal c).bind fun d => getDigits w (acc * 10 + d) cs

/-- Read the literal character `c`. -/
def expect (c : Char) : List Char → Option (List Char)
  | [] => none
  | x :: cs => if x = c then some cs else none

/-- The `getnum(s, fixed)` of `time/format.go`: two digits when two are there,
one digit when only one is and `fixed` is false. -/
def getnum (cs : List Char) (fixed : Bool) : Option (Nat × List Char) :=
  match getDigits 2 0 cs with
  | some r => some r
  | none => if fixed then none else getDigits 1 0 cs

/-- The calendar fields of a time in its own zone. -/
structure Civil where
  year : Int
  month : Int
  day : Int
  hour : Int
  minute : Int
  second : Int
  deriving DecidableEq

/-- `t.Date()` and `t.Clock()`. -/
def Time.civil (t : Time) : Civil :=
  let abs := t.sec + t.offset
  let ymd := civilFromDays (abs / 86400)
  let rem := abs % 86400
  ⟨ymd.1, ymd.2.1, ymd.2.2, rem / 3600, rem % 3600 / 60, rem % 60⟩

/-- The layout element `.999999999`: nothing for a whole second, otherwise the
nanoseconds with trailing zeros removed. -/
def formatFraction (nsec : Int) : List Char :=
  if nsec = 0 then []
  else '.' :: ((putDigits 9 nsec.toNat).reverse.dropWhile (fun c => c = '0')).reverse

/-- The zone as sign, hours and minutes, the seconds of the offset dropped;
`colon` separates hours and minutes. -/
def formatOffset (offset : Int) (colon : Bool) : List Char :=
  let zone := Int.tdiv offset 60
  let sign := if zone < 0 then '-' else '+'
  let z := zone.natAbs
  sign :: (appendInt (z / 60) 2 ++ (if colon then [':'] else []) ++ appendInt (z % 60) 2)

/-- The layout element `Z07:00`: `Z` for a zero offset. -/
def formatZone (offset : Int) : List Char :=
  if offset = 0 then ['Z'] else formatOffset offset true

/-- The date and clock in the layout `2006-01-02?15:04:05` with separator `sep`. -/
def formatDateClock (c : Civil) (sep : Char) : List Char :=
  appendInt c.year 4 ++ '-' :: appendInt c.month 2 ++ '-' :: appendInt c.day 2 ++
    sep :: appendInt c.hour 2 ++ ':' :: appendInt c.minute 2 ++ ':' :: appendInt c.second 2

/-- `t.Format(time.RFC3339Nano)`, layout `2006-01-02T15:04:05.999999999Z07:00`. -/
def Time.formatRFC3339Nano (t : Time) : String :=
  String.mk (formatDateClock t.civil 'T' ++ formatFraction t.nsec ++ formatZone t.offset)

/-- `t.String()`, layout `2006-01-02 15:04:05.999999999 -0700 MST`; a zone
without a name is printed as its numeric offset. -/
def Time_String (t : Time) : String :=
  String.mk (formatDateClock t.civil ' ' ++ formatFraction t.nsec ++
    ' ' :: formatOffset t.offset false ++
    ' ' :: (if t.zone = "" then formatOffset t.offset false else t.zone.data))

/-- The checks of `t.MarshalJSON()` (Go 1.20 and later): the year is within
`[0, 9999]` and the hour of the zone offset within `[0, 23]`. -/
def Time.marshalable (t : Time) : Bool :=
  decide (0 ≤ t.civil.year ∧ t.civil.year < 10000 ∧ (Int.tdiv t.offset 60).natAbs / 60 < 24)

/-- `t.MarshalJSON()`: the quoted RFC 3339 text, or an error. -/
def Time.MarshalJSON (t : Time) : Except String String :=
  if t.marshalable then Except.ok ("\"" ++ t.formatRFC3339Nano ++ "\"")
  else if t.civil.year < 0 ∨ t.civil.year ≥ 10000 then
    Except.error "Time.MarshalJSON: year outside of range [0,9999]"
  else Except.error "Time.MarshalJSON: timezone hour outside of range [0,23]"

/-- The fractional seconds of a parsed time: an optional `.` or `,` followed by
digits, of which nine count; returns the nanoseconds and the remaining text. -/
def parseFraction : List Char → Option (Int × List Char)
  | sepc :: c :: cs =>
    if (sepc = '.' ∨ sepc = ',') ∧ (digitVal c).isSome then
      let ds := (c :: cs).takeWhile fun x => (digitVal x).isSome
      let rest := (c :: cs).dropWhile fun x => (digitVal x).isSome
      let nine := (ds ++ List.replicate 9 '0').take 9
      (getDigits 9 0 nine).map fun r => ((r.1 : Int), rest)
    else some (0, sepc :: c :: cs)
  | cs => some (0, cs)

/-- The zone of a parsed time, which ends the text: `Z`, or sign, two-digit
hours, colon, two-digit minutes, the hours at most 24 and the minutes at most
60 (Go 1.20 and later).  Returns the offset and the zone name; the name of a
numeric zone is left empty (Go names it after `time.Local` when the local
offset is the same; the client reads no name of a parsed time). -/
def parseZone : List Char → Option (Int × String)
  | ['Z'] => some (0, "UTC")
  | sign :: cs =>
    if sign = '+' ∨ sign = '-' then
      (getnum cs true).bind fun hh =>
      (expect ':' hh.2).bind fun cs1 =>
      (getnum cs1 true).bind fun mm =>
        if mm.2 = [] ∧ hh.1 ≤ 24 ∧ mm.1 ≤ 60 then
          let off : Int := ((hh.1 * 60 + mm.1) * 60 : Nat)
          some (if sign = '-' then -off else off, "")
        else none
    else none
  | [] => none

/-- The range checks of `time.Parse` on the parsed fields, and the instant they
denote. -/
def timeOfFields (y mo d h mi s : Nat) (nsec : Int) (z : Int × String) : Option Time :=
  let yi : Int := y
  let moi : Int := mo
  let di : Int := d
  if 1 ≤ mo ∧ mo ≤ 12 ∧ 1 ≤ d ∧ di ≤ daysIn moi yi ∧ h < 24 ∧ mi < 60 ∧ s < 60 then
    let clock : Int := ((h * 3600 + mi * 60 + s : Nat) : Int)
    some ⟨daysFromCivil yi moi di * 86400 + clock - z.1, nsec, z.1, z.2⟩
  else none

/-- The clock part `H[H]:MM:SS[.fraction](Z|±HH:MM)` of an RFC 3339 text, given
the date fields already read; the hour is read by `getnum(value, false)`. -/
def parseClock (y mo d : Nat) (cs : List Char) : Option Time :=
  (getnum cs false).bind fun (h : Nat × List Char) =>
  (expect ':' h.2).bind fun (c4 : List Char) =>
  (getnum c4 true).bind fun (mi : Nat × List Char) =>
  (expect ':' mi.2).bind fun (c5 : List Char) =>
  (getnum c5 true).bind fun (s : Nat × List Char) =>
  (parseFraction s.2).bind fun (fr : Int × List Char) =>
  (parseZone fr.2).bind fun (z : Int × String) =>
    timeOfFields y mo d h.1 mi.1 s.1 fr.1 z

/-- `time.Parse(time.RFC3339, value)`, layout `2006-01-02T15:04:05Z07:00`: a
four-digit year, two-digit month and day, an hour of one or two digits,
two-digit minute and second, an optional fraction, and the zone, with the
range checks of the fields; `none` is the parse error. -/
def parseRFC3339 (value : String) : Option Time :=
  (getDigits 4 0 value.data).bind fun (y : Nat × List Char) =>
  (expect '-' y.2).bind fun (c1 : List Char) =>
  (getnum c1 true).bind fun (mo : Nat × List Char) =>
  (expect '-' mo.2).bind fun (c2 : List Char) =>
  (getnum c2 true).bind fun (d : Nat × List Char) =>
  (expect 'T' d.2).bind fun (c3 : List Char) =>
    parseClock y.1 mo.1 d.1 c3
/-! ## tail-client/domain -/

/-- A Go `map[string]string`, in some iteration order; its keys are distinct. -/
abbrev GoMap := List (String × String)

/-- The map read `m[key]` of a `map[string]string`: `""` for an absent key. -/
def GoMap.index (m : GoMap) (key : String) : String := (m.lookup key).getD ""

structure Instant where
  EpochSecond : Int
  NanoOfSecond : Int
  deriving DecidableEq

structure Kubernetes where
  Container : String
  Host : String
  PodId : String
  Namespace : String
  PodName : String
  Labels : GoMap
  deriving DecidableEq

structure Docker where
  ContainerId : String
  deriving DecidableEq

structure Timestamp where
  Time : Time
  deriving DecidableEq

/-- The struct `Event`; the field `Type` is `Type_` here. -/
structure Event where
  App : String
  Host : String
  Kubernetes : Kubernetes
  LoggerName : String
  Level : String
  Thread : String
  ThreadPriority : Int
  Timestamp : Timestamp
  Instant : Instant
  Docker : Docker
  ContextMap : GoMap
  ThreadId : Int
  Stream : String
  Index : String
  Tags : List String
  Type_ : String
  ObMethod : String
  Message : String
  Exception : String
  deriving DecidableEq

/-- Go `b[lo:hi]` on the bytes of a string. -/
def sliceFromTo (s : String) (lo hi : Nat) : String := s.extract ⟨lo⟩ ⟨hi⟩

/-- `(*Timestamp).UnmarshalJSON`: the time it stores (the returned error is always nil). -/
def Timestamp_UnmarshalJSON (b : String) : Timestamp :=
  if goLen b < 10 then ⟨Time.zero⟩
  else
    match parseRFC3339 (sliceFromTo b 1 (goLen b - 1)) with
    | none => ⟨Time.zero⟩
    | some ts => ⟨ts⟩

/-- `Timestamp.String`, with the package variable `Location` as a parameter. -/
def Timestamp_String (location : Location) (t : Timestamp) : String :=
  if t.Time.Unix ≤ 0 then "missing-timestamp"
  else Time_String (t.Time.In location)

/-- `Level.String`. -/
def Level_String (l : String) : String :=
  if l = "" then "NONE" else l

/-- `Message.String`. -/
def Message_String (m : String) : String :=
  if m = "" then "Missing message field - msg-only requires the message field to work" else m

/-- `Exception.String`. -/
def Exception_String (m : String) : String := m

/-- `Host.String`. -/
def Host_String (h : String) : String :=
  if h = "" then "UNKNOWN" else h

/-- `sort.Strings`: ascending order of the strings (insertion into a sorted
list; the order compares character by character). -/
def sortStrings (keys : List String) : List String :=
  keys.insertionSort (fun a b => a.data ≤ b.data)

/-- `sortKeys`: the keys of the map, collected in iteration order, then sorted. -/
def sortKeys (m : GoMap) : List String :=
  sortStrings (m.map Prod.fst)

/-- The loop shared by `ContextMap.String` and `Labels.String`: for each key,
write the key, `=`, the value and a comma. -/
def writeEntries (m : GoMap) (keys : List String) : String :=
  keys.foldl (fun s key => s ++ key ++ "=" ++ m.index key ++ ",") ""

/-- `ContextMap.String`. -/
def ContextMap_String (c : GoMap) : String :=
  let context := writeEntries c (sortKeys c)
  if goLen context > 2 then sliceTo context (goLen context - 1) else context

/-- `Labels.String`. -/
def Labels_String (l : GoMap) : String :=
  if l.length = 0 then ""
  else
    let labels := writeEntries l (sortKeys l)
    if goLen labels > 2 then sliceTo labels (goLen labels - 1) else labels

/-- `Instant.String`, with the package variable `Location` as a parameter. -/
def Instant_String (location : Location) (t : Instant) : String :=
  if t.EpochSecond ≤ 0 then "missing-timestamp"
  else Time_String ((timeUnix location t.EpochSecond t.NanoOfSecond).In location)

/-! ## `encoding/json`, as far as `FromJsonBlob` uses it -/

/-- The hexadecimal digit of `d % 16`. -/
def hexChar (d : Nat) : Char :=
  if d % 16 < 10 then Char.ofNat (48 + d % 16) else Char.ofNat (87 + d % 16)

/-- The escape of one character inside a JSON string, as `json.Marshal` writes it. -/
def escapeChar (c : Char) : List Char :=
  if c = '"' then ['\\', '"']
  else if c = '\\' then ['\\', '\\']
  else if c = '\n' then ['\\', 'n']
  else if c = '\r' then ['\\', 'r']
  else if c = '\t' then ['\\', 't']
  else if c.toNat < 32 ∨ c = '<' ∨ c = '>' ∨ c = '&' ∨ c.toNat = 8232 ∨ c.toNat = 8233 then
    ['\\', 'u', hexChar (c.toNat / 4096), hexChar (c.toNat / 256), hexChar (c.toNat / 16),
      hexChar c.toNat]
  else [c]

/-- A JSON string literal. -/
def jsonQuote (s : String) : String :=
  String.mk ('"' :: (s.data.flatMap escapeChar ++ ['"']))

/-- Join the encoded members of an array or object with commas. -/
def joinComma : List String → String
  | [] => ""
  | [x] => x
  | x :: y :: rest => x ++ "," ++ joinComma (y :: rest)

mutual
/-- Whether `json.Marshal` succeeds on a value: the only failure is a
`time.Time` that `MarshalJSON` rejects. -/
def JVal.marshalOk : JVal → Bool
  | .time t => t.marshalable
  | .arr xs => marshalOkList xs
  | .obj fs => marshalOkFields fs
  | _ => true
/-- `JVal.marshalOk` on every element. -/
def marshalOkList : List JVal → Bool
  | [] => true
  | x :: xs => x.marshalOk && marshalOkList xs
/-- `JVal.marshalOk` on every member. -/
def marshalOkFields : List (String × JVal) → Bool
  | [] => true
  | (_, v) :: fs => v.marshalOk && marshalOkFields fs
end

mutual
/-- The text `json.Marshal` writes for a value it can marshal; the members of an
object are written in ascending order of their keys. -/
def JVal.encode : JVal → String
  | .null => "null"
  | .bool b => if b then "true" else "false"
  | .num n => String.mk (appendInt n 1)
  | .real text => text
  | .str s => jsonQuote s
  | .time t => "\"" ++ t.formatRFC3339Nano ++ "\""
  | .arr xs => "[" ++ joinComma (encodeList xs) ++ "]"
  | .obj fs =>
    "\x7b" ++ joinComma (((encodeFields fs).insertionSort
      (fun a b => a.1.data ≤ b.1.data)).map fun p => jsonQuote p.1 ++ ":" ++ p.2) ++ "\x7d"
/-- The encoded elements of an array. -/
def encodeList : List JVal → List String
  | [] => []
  | x :: xs => x.encode :: encodeList xs
/-- The keys of an object with their encoded values. -/
def encodeFields : List (String × JVal) → List (String × String)
  | [] => []
  | (k, v) :: fs => (k, v.encode) :: encodeFields fs
end

/-- The single-value assertion `x.(time.Time)`; `none` is the panic. -/
def JVal.assertTime : JVal → Option Time
  | .time t => some t
  | _ => none

/-- The case fold under which `json.Unmarshal` compares a key with the name of
a struct field: ASCII letters without regard to case, the Kelvin sign as `K`
and the long s as `S`; the fold of any other character is not an ASCII
character either. -/
def foldChar (c : Char) : Char :=
  if 97 ≤ c.toNat ∧ c.toNat ≤ 122 then Char.ofNat (c.toNat - 32)
  else if c.toNat = 8490 then 'K'
  else if c.toNat = 383 then 'S'
  else c

/-- The folded form of a key or field name. -/
def foldName (s : String) : String := String.mk (s.data.map foldChar)

/-- Whether the key `key` of a JSON object selects the struct field whose JSON
name is `name`: the name itself or, failing that, a case-insensitive match (no
two fields of a struct of `event.go` have the same folded name). -/
def keyMatches (name key : String) : Bool := decide (foldName key = foldName name)

/-- The members of a map in the order in which `json.Marshal` writes them and
`json.Unmarshal` then meets them: one per key, keys ascending. -/
def JObj.members (m : JObj) : List (String × JVal) :=
  (m.foldr (fun p acc => p :: acc.filter fun q => q.1 ≠ p.1) []).insertionSort
    (fun a b => a.1.data ≤ b.1.data)

/-- The values that `json.Unmarshal` stores, one after the other, into the
struct field of JSON name `name`: those of the matching members, in order. -/
def fieldValues (ms : List (String × JVal)) (name : String) : List JVal :=
  (ms.filter fun p => keyMatches name p.1).map Prod.snd

/-- Storing a JSON value into a Go `string` that holds `old`: a JSON string is
stored (a time was marshalled as one); `null` and a value of another type (an
`UnmarshalTypeError`, after which decoding goes on) leave the string as it is. -/
def storeString (old : String) : JVal → String
  | JVal.str s => s
  | JVal.time t => t.formatRFC3339Nano
  | _ => old

/-- Storing a JSON value into a signed integer of `bits` bits that holds `old`:
an integer literal in range is stored; anything else leaves it as it is. -/
def storeInt (bits : Nat) (old : Int) : JVal → Int
  | JVal.num n => if -(2 ^ (bits - 1) : Int) ≤ n ∧ n < (2 ^ (bits - 1) : Int) then n else old
  | _ => old

/-- `json.Unmarshal` into a `string` field of a struct, from the members `ms` of
the JSON object. -/
def strField (ms : List (String × JVal)) (name : String) : String :=
  (fieldValues ms name).foldl storeString ""

/-- `json.Unmarshal` into a signed integer field of `bits` bits. -/
def intField (bits : Nat) (ms : List (String × JVal)) (name : String) : Int :=
  (fieldValues ms name).foldl (storeInt bits) 0

/-- `json.Unmarshal` into a struct field: the members that are decoded into the
struct, in order, namely those of every matching member that is a JSON object
(another value leaves the struct as it is). -/
def objField (ms : List (String × JVal)) (name : String) : List (String × JVal) :=
  (fieldValues ms name).flatMap fun v =>
    match v with
    | JVal.obj o => JObj.members o
    | _ => []

/-- An element of a map or slice of strings decoded into a fresh element. -/
def asString (v : JVal) : String := storeString "" v

/-- The map write `m[k] = v` of a `map[string]string`. -/
def GoMap.set (m : GoMap) (k v : String) : GoMap := (k, v) :: m.filter fun p => p.1 ≠ k

/-- Storing a JSON value into a `map[string]string` that holds `old`: the
members of an object are written into the map, `null` empties it, anything else
leaves it as it is. -/
def storeMap (old : GoMap) : JVal → GoMap
  | JVal.obj o => (JObj.members o).foldl (fun acc p => acc.set p.1 (asString p.2)) old
  | JVal.null => []
  | _ => old

/-- `json.Unmarshal` into a `map[string]string` field. -/
def mapField (ms : List (String × JVal)) (name : String) : GoMap :=
  (fieldValues ms name).foldl storeMap []

/-- A `[]string` under decoding: the elements of its backing array written so
far, and its length. -/
structure TagSlice where
  backing : List String
  len : Nat

/-- The elements of a JSON array stored one by one over those of the backing
array. -/
def storeElems : List String → List JVal → List String
  | b, [] => b
  | [], x :: xs => storeString "" x :: storeElems [] xs
  | y :: b, x :: xs => storeString y x :: storeElems b xs

/-- Storing a JSON value into a `[]string`: the elements of a non-empty array
are decoded in place and the length set to their number, an empty array and
`null` give a new empty slice, anything else leaves the slice as it is. -/
def storeTags (old : TagSlice) : JVal → TagSlice
  | JVal.arr [] => ⟨[], 0⟩
  | JVal.arr (x :: xs) => ⟨storeElems old.backing (x :: xs), xs.length + 1⟩
  | JVal.null => ⟨[], 0⟩
  | _ => old

/-- `json.Unmarshal` into a `[]string` field. -/
def tagsField (ms : List (String × JVal)) (name : String) : List String :=
  let r := (fieldValues ms name).foldl storeTags ⟨[], 0⟩
  r.backing.take r.len

/-- `json.Unmarshal` into the `Timestamp` field: `UnmarshalJSON` runs on the
bytes of the value of every matching member, in order; with no such member the
field keeps the zero value. -/
def timestampField (ms : List (String × JVal)) : Timestamp :=
  (fieldValues ms "@timestamp").foldl (fun _ v => Timestamp_UnmarshalJSON v.encode) ⟨Time.zero⟩

/-- `json.Unmarshal(b, &e)` after `json.Marshal(jsonMsg)`: the members of the
object are met in ascending order of their keys, and each is stored into the
field of `Event` that its key matches; so every field ends as the result of
storing, in order, the values of the members that match its JSON name. -/
def decodeEvent (m : JObj) : Event :=
  let ms := JObj.members m
  let k := objField ms "Kubernetes"
  { App := strField ms "App"
    Host := strField ms "host"
    Kubernetes :=
      { Container := strField k "container_name"
        Host := strField k "Host"
        PodId := strField k "pod_id"
        Namespace := strField k "namespace_name"
        PodName := strField k "pod_name"
        Labels := mapField k "Labels" }
    LoggerName := strField ms "loggerName"
    Level := strField ms "Level"
    Thread := strField ms "Thread"
    ThreadPriority := intField 64 ms "ThreadPriority"
    Timestamp := timestampField ms
    Instant :=
      { EpochSecond := intField 64 (objField ms "instant") "EpochSecond"
        NanoOfSecond := intField 64 (objField ms "instant") "NanoOfSecond" }
    Docker := { ContainerId := strField (objField ms "docker") "container_id" }
    ContextMap := mapField ms "contextMap"
    ThreadId := intField 16 ms "ThreadId"
    Stream := strField ms "Stream"
    Index := strField ms "Index"
    Tags := tagsField ms "Tags"
    Type_ := strField ms "Type"
    ObMethod := strField ms "ObMethod"
    Message := strField ms "Message"
    Exception := strField ms "Exception" }

/-- `FromJsonBlob`, with `time.Local` as the parameter `loc`.  `none` is a
run-time panic, `some (Except.error _)` the returned error, `some (Except.ok e)`
the returned event. -/
def FromJsonBlob (loc : Location) (jsonMsg : JObj) : Option (Except String Event) :=
  if !marshalOkFields jsonMsg then
    some (Except.error "json: error calling MarshalJSON for type time.Time")
  else
    let e := decodeEvent jsonMsg
    (jsonMsg.index "host").assertStr.bind fun (host : String) =>
      let e1 : Event :=
        { e with Host := host, Kubernetes := { e.Kubernetes with PodName := Host_String host } }
      if e1.Instant.EpochSecond ≠ 0 then
        some (Except.ok { e1 with
          Timestamp := ⟨timeUnix loc e1.Instant.EpochSecond e1.Instant.NanoOfSecond⟩ })
      else
        (jsonMsg.index "@timestamp").assertTime.bind fun (t : Time) =>
          some (Except.ok { e1 with Instant := ⟨t.Unix, t.Nanosecond⟩ })

/-- The map write `m[k] = v`. -/
def JObj.set (m : JObj) (k : String) (v : JVal) : JObj :=
  (k, v) :: m.filter fun p => p.1 ≠ k

/-- The step "Align timestamp to local" of `ConsumeAndPrint` (lines 175-181),
with `time.Now()` as the parameter `now`; `none` is the panic of
`timestamp.(string)`. -/
def alignTimestamp (now : Time) (location : Location) (jsonmsg : JObj) : Option JObj :=
  match jsonmsg.lookup "@timestamp" with
  | some timestamp =>
    timestamp.assertStr.bind fun (s : String) =>
      match parseRFC3339 s with
      | some parsed => some (jsonmsg.set "@timestamp" (JVal.time (parsed.In location)))
      | none => some jsonmsg
  | none => some (jsonmsg.set "@timestamp" (JVal.time (now.In location)))

/-! ## tail-client/template -/

/-- `validFields`: the whitelist of field names and their projections. -/
def validFields : List (String × String) :=
  [ ("timestamp", ".Timestamp"),
    ("level", ".Level"),
    ("host", ".Host"),
    ("message", ".Message"),
    ("app", ".App"),
    ("loggerName", ".LoggerName"),
    ("thread", ".Thread"),
    ("threadId", ".ThreadId"),
    ("owner", "index .Kubernetes.Labels \"owner\""),
    ("obMethod", ".ObMethod"),
    ("exception", ".Exception"),
    ("containerId", ".Docker.ContainerId"),
    ("containerHost", ".Kubernetes.Host"),
    ("containerName", ".Kubernetes.Container"),
    ("podId", ".Kubernetes.PodId"),
    ("pod", ".Kubernetes.PodName"),
    ("env", "index .Kubernetes.Labels \"environment\""),
    ("version", "index .Kubernetes.Labels \"version\""),
    ("cluster", "index .Kubernetes.Labels \"kubeCluster\"") ]

/-- A compiled `*template.Template`, identified by its name and source text. -/
structure Template where
  name : String
  text : String
  deriving DecidableEq

/-- `template.New(name).Parse(text)` on the texts `CreateTemplate` builds: a
sequence of actions, each a field chain or an `index` call of `validFields`,
separated by tabs, which the template parser accepts. -/
def templateParse (name text : String) : Except String Template :=
  Except.ok ⟨name, text⟩

/-- The loop of `CreateTemplate` over the fields, with the builder's content
`acc`: the first unknown field returns the error, otherwise its action and a tab
are appended. -/
def writeFields : List String → String → Except String String
  | [], acc => Except.ok acc
  | field :: rest, acc =>
    match validFields.lookup field with
    | none => Except.error ("field (" ++ field ++ ") is not a valid field")
    | some proj => writeFields rest (acc ++ ("\x7b\x7b" ++ proj ++ "\x7d\x7d\t"))

/-- `CreateTemplate`: `Except.error` is the result `(nil, err)`. -/
def CreateTemplate (fields : List String) : Except String Template :=
  if fields.length = 0 then Except.error "No fields provided"
  else
    match writeFields fields "" with
    | Except.error e => Except.error e
    | Except.ok tmp => templateParse "ctail-client" (sliceTo tmp (goLen tmp - 1) ++ "\n")

/-! ## tail-client/tailclient: configuration and the consume loop -/

/-- The pieces of `strings.Split(s, ",")` read from the characters `cs`, with
the piece in progress `cur` (reversed). -/
def splitAux : List Char → List Char → List String
  | [], cur => [String.mk cur.reverse]
  | c :: cs, cur => if c = ',' then String.mk cur.reverse :: splitAux cs [] else splitAux cs (c :: cur)

/-- `strings.Split(s, ",")`: the substrings between the commas. -/
def splitCommas (s : String) : List String := splitAux s.data []

/-- The map write `c.esfilters[k] = v`. -/
def esSet (m : List (String × EsTerm)) (k : String) (v : EsTerm) : List (String × EsTerm) :=
  (k, v) :: m.filter fun p => p.1 ≠ k

/-- The fields that `NewCtailClient` gives the filter and history logic: the
service, the mode, an empty `esfilters`, and zero values elsewhere. -/
def NewCtailClient (service : String) (history : Bool) : ctailclient :=
  { service := service, history := history, esfilters := [] }

/-- `SetFilters`. -/
def SetFilters (c : ctailclient) (pods clusters podid env rev : String) : ctailclient :=
  let c1 : ctailclient := { c with env := env, podid := podid, rev := rev }
  let c2 : ctailclient :=
    if pods ≠ "" then
      if c1.history then
        let fs := esSet c1.esfilters "kubernetes.pod_name.keyword" (EsTerm.many (splitCommas pods))
        { c1 with esfilters := fs }
      else { c1 with podsfilter := splitCommas pods }
    else c1
  if clusters ≠ "" then
    if c2.history then
      let fs := esSet c2.esfilters "kubernetes.labels.kubeCluster.keyword"
        (EsTerm.many (splitCommas clusters))
      { c2 with esfilters := fs }
    else { c2 with clustersfilter := splitCommas clusters }
  else c2

/-- `SetHistoryParams` (the channel `c.done` it creates is part of the
transition system below). -/
def SetHistoryParams (c : ctailclient) (elasticClusters indices : String) (maxMessages : Int)
    (timeOffset : String) : ctailclient :=
  let c1 : ctailclient := { c with esclusters := splitCommas elasticClusters }
  let c2 : ctailclient :=
    if goLen c1.env > 0 then
      let fs := esSet c1.esfilters "kubernetes.labels.environment.keyword" (EsTerm.one c1.env)
      { c1 with esfilters := fs, env := "" }
    else c1
  let c3 : ctailclient :=
    if goLen c2.rev > 0 then
      let fs := esSet c2.esfilters "kubernetes.labels.version.keyword" (EsTerm.one c2.rev)
      { c2 with esfilters := fs, rev := "" }
    else c2
  let c4 : ctailclient :=
    if goLen c3.podid > 0 then
      let fs := esSet c3.esfilters "kubernetes.pod_id.keyword" (EsTerm.one c3.podid)
      { c3 with esfilters := fs, podid := "" }
    else c3
  { c4 with esindices := splitCommas indices, timeOffset := timeOffset, maxMessages := maxMessages }

/-- The single-value assertion `x.([]interface{})`; `none` is the panic. -/
def JVal.assertArr : JVal → Option (List JVal)
  | .arr xs => some xs
  | _ => none

/-- `strInterfaceIncluded`: each element up to the first match is asserted to
be a string. -/
def strInterfaceIncluded : List JVal → String → Option Bool
  | [], _ => some false
  | val :: values, value2match =>
    val.assertStr.bind fun (s : String) =>
      if s = value2match then some true else strInterfaceIncluded values value2match

/-- `IsEvent`. -/
def IsEvent (jsonmsg : JObj) : Option Bool :=
  match jsonmsg.lookup "tags" with
  | some tags => tags.assertArr.bind fun (values : List JVal) => strInterfaceIncluded values "EVENT"
  | none => some false

/-- The filter of the loop of `ConsumeAndPrint` (line 170) on the result of
`json.Unmarshal` (`none` is the nil map): whether the record goes on to be
printed, the three tests being made in source order and only as far as needed;
`none` is a panic. -/
def retained (c : ctailclient) (isEvents : Bool) (jsonmsg : Option JObj) : Option Bool :=
  match jsonmsg with
  | none => some false
  | some m =>
    (if !c.history then (IsEvent m).map fun (ev : Bool) => isEvents != ev else some false).bind
      fun (wrongType : Bool) =>
        if wrongType then some false
        else (filterEvent c m).map fun (accepted : Bool) => accepted

/-- The defaults `messagePrint` gives a message-only record before it calls
`FromJsonBlob` (lines 384-400): level, message and host; `none` is a panic. -/
def messagePrintDefaults (jsonmsg : JObj) : Option JObj :=
  let m1 := if jsonmsg.has "level" then jsonmsg else JObj.set jsonmsg "level" (JVal.str "NONE")
  let m2 :=
    if m1.has "message" then m1
    else JObj.set m1 "message"
      (JVal.str "Missing message field - msg-only requires the message field to work")
  if m2.has "host" then some m2
  else if !m2.has "kubernetes" then some (JObj.set m2 "host" (JVal.str "UNKNOWN"))
  else
    (m2.index "kubernetes").assertObj.bind fun (kube : JObj) =>
      if !kube.has "pod_name" then some (JObj.set m2 "host" (JVal.str "UNKNOWN_POD_NAME"))
      else (kube.index "pod_name").assertStr.bind fun (pod : String) =>
        some (JObj.set m2 "host" (JVal.str pod))

/-! ## tail-server/tailserver -/

/-- A Go `[]byte`, and a Go `string` of the server, which holds arbitrary bytes. -/
abbrev Bytes := List UInt8

/-- The bytes of a string constant: `[]byte(s)`. -/
def utf8 (s : String) : Bytes := s.data.flatMap String.utf8EncodeChar

/-- Whether `sep` is a prefix of `s`. -/
def hasPrefix : Bytes → Bytes → Bool
  | _, [] => true
  | [], _ :: _ => false
  | a :: s, b :: sep => a = b && hasPrefix s sep

/-- `bytes.Index(s, sep)`: the index of the first instance of `sep` in `s`, or -1. -/
def bytesIndex : Bytes → Bytes → Int
  | [], sep => if sep = [] then 0 else -1
  | a :: s, sep =>
    if hasPrefix (a :: s) sep then 0
    else
      let r := bytesIndex s sep
      if r = -1 then -1 else r + 1

/-- `bytes.IndexByte(b, c)`: the index of the first instance of `c` in `b`, or -1. -/
def indexByte : Bytes → UInt8 → Int
  | [], _ => -1
  | a :: b, c =>
    if a = c then 0
    else
      let r := indexByte b c
      if r = -1 then -1 else r + 1

/-- The slice expression `b[lo:hi]`; `none` is the panic "slice bounds out of range". -/
def goSlice (b : Bytes) (lo hi : Int) : Option Bytes :=
  if 0 ≤ lo ∧ lo ≤ hi ∧ hi ≤ b.length then some ((b.drop lo.toNat).take (hi - lo).toNat)
  else none

/-- `LocateString`. -/
def LocateString (field : String) (byteArr : Bytes) : Int :=
  bytesIndex byteArr (utf8 field)

/-- `ExtractString`; `none` is the panic of the final slice expression. -/
def ExtractString (field : String) (byteArr : Bytes) : Option Bytes :=
  let field1 := utf8 ("\"" ++ field ++ "\":\"")
  let ind := bytesIndex byteArr field1
  if ind = -1 then some []
  else
    let ind1 := ind + field1.length
    (goSlice byteArr ind1 byteArr.length).bind fun (tail : Bytes) =>
      let toIdx := indexByte tail 34
      goSlice byteArr ind1 (ind1 + toIdx)

/-- `StringExists`. -/
def StringExists (s : Bytes) : List Bytes → Bool
  | [] => false
  | val :: slice => if s = val then true else StringExists s slice

/-- The state of the loop of `StartConsuming`: the registry `s.services`, the
loop variable `etype`, and the observable effects so far, namely the calls of
`s.server.Publish` and the label sets `(service, owner, type)` under which
`s.ingested` was incremented. -/
structure ServerState where
  services : List Bytes
  etype : String
  published : List (Bytes × Bytes)
  ingested : List (Bytes × Bytes × String)
  deriving DecidableEq

/-- The state on entry to the loop (`NewCtailServer`, then `etype := "event"`). -/
def ServerState.init : ServerState := ⟨[], "event", [], []⟩

/-- The owner label of a record: `owner`, else `obowner`, else `"none"`. -/
def extractOwner (value : Bytes) : Option Bytes :=
  (ExtractString "owner" value).bind fun (owner : Bytes) =>
    if owner = [] then
      (ExtractString "obowner" value).bind fun (owner1 : Bytes) =>
        if owner1 = [] then some (utf8 "none") else some owner1
    else some owner

/-- One iteration of the loop of `StartConsuming` on a record received from
`s.consumer.Messages()` (lines 82-107); `none` is a panic. -/
def consumeMessage (s : ServerState) (value : Bytes) : Option ServerState :=
  (ExtractString "app" value).bind fun (service : Bytes) =>
  (extractOwner value).bind fun (owner : Bytes) =>
    if service ≠ [] then
      let services :=
        if !StringExists service s.services then s.services ++ [service] else s.services
      let etype := if LocateString "EVENT" value = -1 then "log" else "event"
      some
        { services := services
          etype := etype
          published := s.published ++ [(service, value)]
          ingested := s.ingested ++ [(service, owner, etype)] }
    else
      some
        { s with
          published := s.published ++ [(utf8 "none", value)]
          ingested := s.ingested ++ [(utf8 "none", owner, s.etype)] }

/-- The loop of `StartConsuming` over the records received, in order; it stops
at the first record on which an iteration panics.  Returns the state reached and
whether the loop ended by a panic. -/
def consumeAll : ServerState → List Bytes → ServerState × Bool
  | s, [] => (s, false)
  | s, value :: rest =>
    match consumeMessage s value with
    | none => (s, true)
    | some s1 => consumeAll s1 rest

/-! ## `Subscribe2Elasticsearch` and `Query2sse` as a transition system -/

/-- What the search of one cluster returns in `Query2sse`: an error, or a result
with its `TotalHits` and, for each hit, the bytes of `Source.MarshalJSON`
(`none` when that call fails). -/
inductive QueryResult where
  | failed (err : String)
  | hits (totalHits : Int) (sources : List (Option Bytes))
  deriving DecidableEq

/-- The records `Query2sse` writes to the output stream for a search result
(lines 53-61). -/
def QueryResult.records : QueryResult → List Bytes
  | .failed _ => []
  | .hits totalHits sources => if totalHits > 0 then sources.filterMap id else []

/-- Where a `subscribeReport` goroutine stands: before the search returns, in
the forwarding loop with the records still to send, at `c.done <- true`, or past it. -/
inductive ProducerPc where
  | querying
  | forwarding (rest : List Bytes)
  | reporting
  | finished
  deriving DecidableEq

/-- A `subscribeReport` goroutine: the result its search returns, its position,
the records it has sent to `c.messages`, and the number of values it has sent
on `c.done`. -/
structure Producer where
  result : QueryResult
  pc : ProducerPc
  sent : List Bytes
  signalled : Nat
  deriving DecidableEq

/-- The state of the goroutines started by `Subscribe2Elasticsearch` and of the
channels they share. -/
structure FanIn where
  /-- `len(c.esclusters)` -/
  clusters : Nat
  /-- the capacity of `c.messages` -/
  capacity : Nat
  producers : List Producer
  /-- the local `counter` of the closer -/
  counter : Nat
  /-- whether the closer has left its loop and executed `close(c.messages)` -/
  closerDone : Bool
  /-- the records buffered in `c.messages` -/
  buffer : List Bytes
  /-- how many times `close(c.messages)` was executed -/
  closes : Nat
  /-- the records received by the loop of `ConsumeAndPrint` -/
  delivered : List Bytes
  /-- a send on the closed `c.messages` happened -/
  panicked : Bool
  deriving DecidableEq

/-- The state after `Subscribe2Elasticsearch` has started one goroutine per
cluster and the closer. -/
def FanIn.init (capacity : Nat) (results : List QueryResult) : FanIn :=
  { clusters := results.length
    capacity := capacity
    producers := results.map fun r => ⟨r, ProducerPc.querying, [], 0⟩
    counter := 0
    closerDone := false
    buffer := []
    closes := 0
    delivered := []
    panicked := false }

/-- The atomic steps of the system. -/
inductive Action where
  /-- the search of producer `i` returns -/
  | search (i : Nat)
  /-- producer `i` sends its next record into the buffer of `c.messages` -/
  | forward (i : Nat)
  /-- producer `i` hands its next record directly to the waiting receiver -/
  | handoff (i : Nat)
  /-- `Query2sse` of producer `i` returns, the producer reaches `c.done <- true` -/
  | finish (i : Nat)
  /-- producer `i` sends on `c.done` and the closer receives: `counter++` -/
  | signal (i : Nat)
  /-- the closer leaves its loop and executes `close(c.messages)` -/
  | close
  /-- the loop of `ConsumeAndPrint` receives a buffered record -/
  | receive
  deriving DecidableEq

/-- Replace producer `i`. -/
def FanIn.setProducer (s : FanIn) (i : Nat) (p : Producer) : FanIn :=
  { s with producers := s.producers.set i p }

/-- One step; `none` when the action is not enabled in the state. -/
def FanIn.step (s : FanIn) : Action → Option FanIn
  | .search i =>
    if s.panicked then none else
    match s.producers.get? i with
    | some p =>
      if p.pc = ProducerPc.querying then
        some (s.setProducer i { p with pc := ProducerPc.forwarding p.result.records })
      else none
    | none => none
  | .forward i =>
    if s.panicked then none else
    match s.producers.get? i with
    | some p =>
      match p.pc with
      | ProducerPc.forwarding (x :: rest) =>
        if s.closes > 0 then some { s with panicked := true }
        else if s.buffer.length < s.capacity then
          some { s.setProducer i { p with pc := ProducerPc.forwarding rest, sent := p.sent ++ [x] }
                 with buffer := s.buffer ++ [x] }
        else none
      | _ => none
    | none => none
  | .handoff i =>
    if s.panicked then none else
    match s.producers.get? i with
    | some p =>
      match p.pc with
      | ProducerPc.forwarding (x :: rest) =>
        if s.closes > 0 then some { s with panicked := true }
        else if s.buffer = [] then
          some { s.setProducer i { p with pc := ProducerPc.forwarding rest, sent := p.sent ++ [x] }
                 with delivered := s.delivered ++ [x] }
        else none
      | _ => none
    | none => none
  | .finish i =>
    if s.panicked then none else
    match s.producers.get? i with
    | some p =>
      if p.pc = ProducerPc.forwarding [] then
        some (s.setProducer i { p with pc := ProducerPc.reporting })
      else none
    | none => none
  | .signal i =>
    if s.panicked then none else
    match s.producers.get? i with
    | some p =>
      if p.pc = ProducerPc.reporting ∧ s.closerDone = false ∧ s.counter < s.clusters then
        some { s.setProducer i { p with pc := ProducerPc.finished, signalled := p.signalled + 1 }
               with counter := s.counter + 1 }
      else none
    | none => none
  | .close =>
    if s.panicked then none else
    if s.closerDone = false ∧ ¬ s.counter < s.clusters then
      some { s with closerDone := true, closes := s.closes + 1 }
    else none
  | .receive =>
    if s.panicked then none else
    match s.buffer with
    | x :: rest => some { s with buffer := rest, delivered := s.delivered ++ [x] }
    | [] => none

/-- A run: each action in turn, every one enabled when it is taken. -/
def FanIn.run : FanIn → List Action → Option FanIn
  | s, [] => some s
  | s, a :: rest => (s.step a).bind fun s1 => s1.run rest

/-! ## Vocabulary of the statements -/

/-- A record that satisfies the shape assumed of pod-name filtering: the
`kubernetes` value, when present, is an object whose `pod_name`, when present,
is a string. -/
def PodShape (m : JObj) : Prop :=
  ∀ v, m.lookup "kubernetes" = some v →
    ∃ kube, v = JVal.obj kube ∧ ∀ p, kube.lookup "pod_name" = some p → ∃ s, p = JVal.str s

/-- The pod name a record carries: `kubernetes.pod_name`. -/
def HasPodName (m : JObj) (s : String) : Prop :=
  ∃ kube, m.lookup "kubernetes" = some (JVal.obj kube) ∧ kube.lookup "pod_name" = some (JVal.str s)

/-- A record whose `kubernetes` value, when present, is an object, and whose
`kubernetes.labels` value, when present, is an object. -/
def ObjShape (m : JObj) : Prop :=
  ∀ v, m.lookup "kubernetes" = some v →
    ∃ kube, v = JVal.obj kube ∧ ∀ w, kube.lookup "labels" = some w → ∃ labels, w = JVal.obj labels

/-- The field `kubernetes.<field>` of a record, when the record has it. -/
def kubeField (m : JObj) (field : String) : Option JVal :=
  match m.lookup "kubernetes" with
  | some (JVal.obj kube) => kube.lookup field
  | _ => none

/-- The field `kubernetes.labels.<label>` of a record, when the record has it. -/
def labelField (m : JObj) (label : String) : Option JVal :=
  match kubeField m "labels" with
  | some (JVal.obj labels) => labels.lookup label
  | _ => none

/-- Every predicate of the filter that is set matches the record; an unset
predicate (empty list, empty string) imposes nothing, and an absent field is a
non-match. -/
def AllSetPredicatesMatch (c : ctailclient) (m : JObj) : Prop :=
  (c.podsfilter ≠ [] → ∃ s, kubeField m "pod_name" = some (JVal.str s) ∧ s ∈ c.podsfilter) ∧
  (c.clustersfilter ≠ [] →
    ∃ s, labelField m "kubeCluster" = some (JVal.str s) ∧ s ∈ c.clustersfilter) ∧
  (c.env ≠ "" → labelField m "environment" = some (JVal.str c.env)) ∧
  (c.rev ≠ "" → labelField m "version" = some (JVal.str c.rev)) ∧
  (c.podid ≠ "" → kubeField m "pod_id" = some (JVal.str c.podid))

/-- The 19 names of the whitelist, as the specification lists them. -/
def whitelist : List String :=
  ["timestamp", "level", "host", "message", "app", "loggerName", "thread", "threadId", "owner",
    "obMethod", "exception", "containerId", "containerHost", "containerName", "podId", "pod",
    "env", "version", "cluster"]

/-- The distinct elements of a list, in order of first occurrence. -/
def firstSightings : List Bytes → List Bytes
  | [] => []
  | x :: xs => x :: (firstSightings xs).filter fun y => y ≠ x

/-- Whether the loop iteration on a record panics. -/
def iterationPanics (value : Bytes) : Bool :=
  (ExtractString "app" value).isNone || (extractOwner value).isNone

/-- The records the loop processes: those before the first one on which an
iteration panics. -/
def processed (recs : List Bytes) : List Bytes :=
  recs.takeWhile fun value => !iterationPanics value

/-- The non-empty service name extracted from a record, when there is one. -/
def serviceName (value : Bytes) : Option Bytes :=
  (ExtractString "app" value).bind fun service => if service = [] then none else some service

/-- The registry after sighting a service name (none: the record has none). -/
def register (services : List Bytes) : Option Bytes → List Bytes
  | none => services
  | some service => if service ∈ services then services else services ++ [service]

/-- A record that carries a host and an instant. -/
def instantRecord (host : String) (epochSecond nanoOfSecond : Int) : JObj :=
  [("host", JVal.str host),
    ("instant", JVal.obj [("epochSecond", JVal.num epochSecond),
      ("nanoOfSecond", JVal.num nanoOfSecond)])]

/-- A record that carries a host, no instant, and a text under `@timestamp`. -/
def stringRecord (host text : String) : JObj :=
  [("host", JVal.str host), ("@timestamp", JVal.str text)]

/-- A record that carries a host, no instant, and an already-parsed time under
`@timestamp`. -/
def timeRecord (host : String) (t : Time) : JObj :=
  [("host", JVal.str host), ("@timestamp", JVal.time t)]

/-- The RFC 3339 text, in UTC, that denotes the second `s` after the Unix epoch. -/
def rfc3339 (s : Int) : String := (Time.mk s 0 0 "UTC").formatRFC3339Nano

/-- What the position of a producer says about what it has done: it has sent
exactly the records before its position, and it has sent on `c.done` once when
it is past that statement and never before. -/
def Producer.consistent (p : Producer) : Prop :=
  match p.pc with
  | ProducerPc.querying => p.sent = [] ∧ p.signalled = 0
  | ProducerPc.forwarding rest => p.sent ++ rest = p.result.records ∧ p.signalled = 0
  | ProducerPc.reporting => p.sent = p.result.records ∧ p.signalled = 0
  | ProducerPc.finished => p.sent = p.result.records ∧ p.signalled = 1

/-- The number of steps a producer can still take, counting two for a record
still to send (the send and its receipt). -/
def Producer.weight (p : Producer) : Nat :=
  match p.pc with
  | ProducerPc.querying => 2 * p.result.records.length + 3
  | ProducerPc.forwarding rest => 2 * rest.length + 2
  | ProducerPc.reporting => 1
  | ProducerPc.finished => 0

/-- A bound on the number of steps the system can still take. -/
def FanIn.measure (s : FanIn) : Nat :=
  (s.producers.map Producer.weight).sum + s.buffer.length + (if s.closerDone then 0 else 1)

/-- The number of completion signals sent on `c.done` so far. -/
def FanIn.signals (s : FanIn) : Nat := (s.producers.map fun p => p.signalled).sum

/-- The invariant of the system. -/
def FanIn.Inv (s : FanIn) : Prop :=
  s.panicked = false ∧ s.producers.length = s.clusters ∧
  (∀ p ∈ s.producers, p.consistent) ∧ s.counter = s.signals ∧
  (s.closerDone = false → s.closes = 0) ∧
  (s.closerDone = true → s.closes = 1 ∧ s.counter = s.clusters)


/-- The byte pattern `"f":"` that `ExtractString` looks for. -/
def keyPattern (f : String) : Bytes := utf8 ("\"" ++ f ++ "\":\"")

/-- The pattern `sep` occurs in `b`. -/
def Occurs (sep b : Bytes) : Prop := ∃ pre post, b = pre ++ sep ++ post

/-- The first occurrence of `sep` in `b` is the one after the bytes `pre`: `b`
is `pre ++ sep ++ post`, and no occurrence starts earlier. -/
def FirstAt (sep b pre post : Bytes) : Prop :=
  b = pre ++ sep ++ post ∧ ∀ p q, b = p ++ sep ++ q → pre.length ≤ p.length

/-- The client configured for historical mode: `NewCtailClient` with
`history = true`, then `SetFilters`, then `SetHistoryParams`. -/
def historyClient (service pods clusters podid env rev elasticClusters indices : String)
    (maxMessages : Int) (timeOffset : String) : ctailclient :=
  SetHistoryParams (SetFilters (NewCtailClient service true) pods clusters podid env rev)
    elasticClusters indices maxMessages timeOffset

/-- The client configured for live mode: `NewCtailClient` with
`history = false`, then `SetFilters`. -/
def liveClient (service pods clusters podid env rev : String) : ctailclient :=
  SetFilters (NewCtailClient service false) pods clusters podid env rev

/-- The entry of a pushed-down filter for the argument `arg`: none for the
empty argument. -/
def esEntry (arg : String) (term : EsTerm) : Option EsTerm :=
  if arg = "" then none else some term

/-- A record whose `tags` value, when present, is a list of strings. -/
def TagsShape (m : JObj) : Prop :=
  ∀ v, m.lookup "tags" = some v → ∃ xs : List String, v = JVal.arr (xs.map JVal.str)

/-- The record has a `tags` list that contains the string `"EVENT"`. -/
def HasEventTag (m : JObj) : Prop :=
  ∃ xs, m.lookup "tags" = some (JVal.arr xs) ∧ JVal.str "EVENT" ∈ xs

/-- Every element of the list that no `v` precedes is a string: the elements
`strInterfaceIncluded` asserts before it returns. -/
def StringsUpTo (v : String) (xs : List JVal) : Prop :=
  ∀ pre x post, xs = pre ++ x :: post → (∀ y ∈ pre, y ≠ JVal.str v) → ∃ s, x = JVal.str s

/-- The `tags` value of the record, when present, is a list in which every
element that no `"EVENT"` precedes is a string. -/
def TagsOk (m : JObj) : Prop :=
  ∀ v, m.lookup "tags" = some v → ∃ xs, v = JVal.arr xs ∧ StringsUpTo "EVENT" xs

/-- The `kubernetes.pod_name` of the record, when `kubernetes` is an object that
has one, is a string. -/
def PodNameStr (m : JObj) : Prop :=
  ∀ kube p, m.lookup "kubernetes" = some (JVal.obj kube) → kube.lookup "pod_name" = some p →
    ∃ s, p = JVal.str s

/-- The record has a `kubernetes` value that is not an object. -/
def KubeNotObject (m : JObj) : Prop :=
  ∃ v, m.lookup "kubernetes" = some v ∧ ∀ kube, v ≠ JVal.obj kube

/-- The record has a `kubernetes` object whose `labels` value is not an object. -/
def LabelsNotObject (m : JObj) : Prop :=
  ∃ kube w, m.lookup "kubernetes" = some (JVal.obj kube) ∧ kube.lookup "labels" = some w ∧
    ∀ labels, w ≠ JVal.obj labels

/-- Some client-side predicate is set. -/
def AnySet (c : ctailclient) : Prop :=
  c.podsfilter ≠ [] ∨ c.env ≠ "" ∨ c.rev ≠ "" ∨ c.podid ≠ "" ∨ c.clustersfilter ≠ []

/-- The pod-name predicate, when set, matches the record. -/
def PodPass (c : ctailclient) (m : JObj) : Prop :=
  c.podsfilter ≠ [] → ∃ s, kubeField m "pod_name" = some (JVal.str s) ∧ s ∈ c.podsfilter

/-- The pod-id predicate, when set, matches the record. -/
def PodIdPass (c : ctailclient) (m : JObj) : Prop :=
  c.podid ≠ "" → kubeField m "pod_id" = some (JVal.str c.podid)

/-- The records on which `filterEvent` fails: a predicate is set and
`kubernetes` is not an object; or `kubernetes.labels` is not an object, the
pod-name predicate does not reject the record, and a predicate that reads a
label is reached (environment or revision set, or cluster set with the pod-id
predicate not rejecting the record). -/
def FilterFails (c : ctailclient) (m : JObj) : Prop :=
  (AnySet c ∧ KubeNotObject m) ∨
  (LabelsNotObject m ∧ PodPass c m ∧
    (c.env ≠ "" ∨ c.rev ≠ "" ∨ (c.clustersfilter ≠ [] ∧ PodIdPass c m)))
/-! # Properties -/

theorem includes_iff (arr : List String) (elem : String) :
    includes arr elem = true ↔ elem ∈ arr := by
  induction arr with
  | nil => simp [includes]
  | cons a rest ih =>
    unfold includes
    by_cases h : a = elem
    · simp [h]
    · simp only [h, if_false, ih, List.mem_cons]
      constructor
      · exact fun h1 => Or.inr h1
      · rintro (h1 | h1)
        · exact absurd h1.symm h
        · exact h1

theorem goLen_pos_iff (s : String) : goLen s > 0 ↔ s ≠ "" := by
  obtain ⟨cs⟩ := s
  cases cs with
  | nil => simp [goLen, String.utf8ByteSize, String.utf8ByteSize.go]
  | cons c rest =>
    have h : (String.mk (c :: rest)) ≠ "" := by
      intro h; have h2 := congrArg String.data h; simp at h2
    simp only [goLen, String.utf8ByteSize, String.utf8ByteSize.go, h, ne_eq, not_false_eq_true,
      iff_true]
    have := Char.utf8Size_pos c
    omega

theorem podNameMatched_of_shape (c : ctailclient) (m : JObj) (hm : PodShape m) :
    ∃ b, podNameMatched c m = some b ∧ (b = true ↔ ∃ s, HasPodName m s ∧ s ∈ c.podsfilter) := by
  unfold podNameMatched JObj.has JObj.index
  cases hk : m.lookup "kubernetes" with
  | none =>
    refine ⟨false, by simp, ?_⟩
    simp only [Bool.false_eq_true, false_iff, not_exists, not_and]
    rintro s ⟨kube, h1, _⟩
    rw [hk] at h1; cases h1
  | some v =>
    obtain ⟨kube, rfl, hp⟩ := hm v hk
    cases hq : kube.lookup "pod_name" with
    | none =>
      refine ⟨false, by simp [JVal.assertObj, hq], ?_⟩
      simp only [Bool.false_eq_true, false_iff, not_exists, not_and]
      rintro s ⟨kube2, h1, h2⟩
      rw [hk] at h1; cases h1
      rw [hq] at h2; cases h2
    | some p =>
      obtain ⟨s, rfl⟩ := hp p hq
      refine ⟨includes c.podsfilter s, by simp [JVal.assertObj, JVal.assertStr, hq], ?_⟩
      rw [includes_iff]
      constructor
      · exact fun h => ⟨s, ⟨kube, hk, hq⟩, h⟩
      · rintro ⟨s2, ⟨kube2, h1, h2⟩, h3⟩
        rw [hk] at h1; cases h1
        rw [hq] at h2; cases h2
        exact h3

/-- C1. With only the pod-name set configured as `["a","b"]`, and on every
record whose `kubernetes` value (when present) is an object with a string
`pod_name` (when present), `filterEvent` returns, and returns true exactly when
the record has a `kubernetes.pod_name` that is `"a"` or `"b"`; it returns false
for pod name `"c"`, for a `kubernetes` object lacking `pod_name`, and for a
record with no `kubernetes` key. -/
theorem filterEvent_podsfilter_only (m : JObj) (hm : PodShape m) :
    (∃ b, filterEvent { podsfilter := ["a", "b"] } m = some b ∧
      (b = true ↔ ∃ s, HasPodName m s ∧ (s = "a" ∨ s = "b"))) ∧
    (HasPodName m "c" → filterEvent { podsfilter := ["a", "b"] } m = some false) ∧
    (∀ kube, m.lookup "kubernetes" = some (JVal.obj kube) → kube.lookup "pod_name" = none →
      filterEvent { podsfilter := ["a", "b"] } m = some false) ∧
    (m.lookup "kubernetes" = none → filterEvent { podsfilter := ["a", "b"] } m = some false) := by
  have key : ∃ b, filterEvent { podsfilter := ["a", "b"] } m = some b ∧
      (b = true ↔ ∃ s, HasPodName m s ∧ (s = "a" ∨ s = "b")) := by
    obtain ⟨b, hb, hiff⟩ := podNameMatched_of_shape { podsfilter := ["a", "b"] } m hm
    refine ⟨b, ?_, ?_⟩
    · have e : goLen "" = 0 := by decide
      simp only [filterEvent, filterBlock, hb, e, List.length_cons, List.length_nil]
      cases b <;> simp
    · rw [hiff]
      simp
  have rej : (¬ ∃ s, HasPodName m s ∧ (s = "a" ∨ s = "b")) →
      filterEvent { podsfilter := ["a", "b"] } m = some false := by
    intro hno
    obtain ⟨b, hb, hiff⟩ := key
    cases b with
    | false => exact hb
    | true => exact absurd (hiff.mp rfl) hno
  refine ⟨key, ?_, ?_, ?_⟩
  · rintro ⟨kube, h1, h2⟩
    apply rej
    rintro ⟨s, ⟨kube2, h3, h4⟩, hs⟩
    rw [h1] at h3; cases h3
    rw [h2] at h4; cases h4
    revert hs; decide
  · intro kube h1 h2
    apply rej
    rintro ⟨s, ⟨kube2, h3, h4⟩, _⟩
    rw [h1] at h3; cases h3
    rw [h2] at h4; cases h4
  · intro h1
    apply rej
    rintro ⟨s, ⟨kube2, h3, _⟩, _⟩
    rw [h1] at h3; cases h3

theorem filterEvent_podsfilter_only_witness :
    (∃ b, filterEvent { podsfilter := ["a", "b"] }
        [("kubernetes", JVal.obj [("pod_name", JVal.str "b")])] = some b ∧
      (b = true ↔ ∃ s, HasPodName [("kubernetes", JVal.obj [("pod_name", JVal.str "b")])] s ∧
        (s = "a" ∨ s = "b"))) :=
  (filterEvent_podsfilter_only [("kubernetes", JVal.obj [("pod_name", JVal.str "b")])]
    (by
      intro v hv
      have e : v = JVal.obj [("pod_name", JVal.str "b")] := by
        simpa [List.lookup] using hv.symm
      subst e
      refine ⟨_, rfl, ?_⟩
      intro p hp
      exact ⟨"b", by simpa [List.lookup] using hp.symm⟩)).1

theorem commaStr_iff (v : Option JVal) (test : String → Bool) :
    (((v.getD JVal.null).commaStr).2 && test ((v.getD JVal.null).commaStr).1) = true ↔
      ∃ s, v = some (JVal.str s) ∧ test s = true := by
  cases v with
  | none => simp [JVal.commaStr]
  | some w => cases w <;> simp [JVal.commaStr]

theorem kubeField_of_lookup (m : JObj) (kube : JObj) (field : String)
    (hk : m.lookup "kubernetes" = some (JVal.obj kube)) :
    kubeField m field = kube.lookup field := by
  simp [kubeField, hk]

theorem kubeField_of_none (m : JObj) (field : String) (hk : m.lookup "kubernetes" = none) :
    kubeField m field = none := by
  simp [kubeField, hk]

theorem labelMatched_of_shape (label : String) (test : String → Bool) (m : JObj)
    (hm : ObjShape m) :
    ∃ b, labelMatched label test m = some b ∧
      (b = true ↔ ∃ s, labelField m label = some (JVal.str s) ∧ test s = true) := by
  cases hk : m.lookup "kubernetes" with
  | none =>
    refine ⟨false, by simp [labelMatched, JObj.has, hk], ?_⟩
    simp [labelField, kubeField_of_none m "labels" hk]
  | some v =>
    obtain ⟨kube, rfl, hl⟩ := hm v hk
    cases hq : kube.lookup "labels" with
    | none =>
      refine ⟨false, by simp [labelMatched, JObj.has, JObj.index, hk, JVal.assertObj, hq], ?_⟩
      simp [labelField, kubeField_of_lookup m kube "labels" hk, hq]
    | some w =>
      obtain ⟨labels, rfl⟩ := hl w hq
      refine ⟨((labels.lookup label).getD JVal.null).commaStr.2 &&
        test ((labels.lookup label).getD JVal.null).commaStr.1, ?_, ?_⟩
      · simp [labelMatched, JObj.has, JObj.index, hk, JVal.assertObj, hq]
      · have e : labelField m label = labels.lookup label := by
          simp [labelField, kubeField_of_lookup m kube "labels" hk, hq]
        rw [e]
        exact commaStr_iff (labels.lookup label) test

theorem podIdMatched_of_shape (c : ctailclient) (m : JObj) (hm : ObjShape m) :
    ∃ b, podIdMatched c m = some b ∧
      (b = true ↔ kubeField m "pod_id" = some (JVal.str c.podid)) := by
  cases hk : m.lookup "kubernetes" with
  | none =>
    refine ⟨false, by simp [podIdMatched, JObj.has, hk], ?_⟩
    simp [kubeField_of_none m "pod_id" hk]
  | some v =>
    obtain ⟨kube, rfl, _⟩ := hm v hk
    refine ⟨((kube.lookup "pod_id").getD JVal.null).commaStr.2 &&
      decide (c.podid = ((kube.lookup "pod_id").getD JVal.null).commaStr.1), ?_, ?_⟩
    · simp [podIdMatched, JObj.has, JObj.index, hk, JVal.assertObj]
    · rw [kubeField_of_lookup m kube "pod_id" hk,
        commaStr_iff (kube.lookup "pod_id") (fun s => decide (c.podid = s))]
      constructor
      · rintro ⟨s, h1, h2⟩
        have : c.podid = s := by simpa using h2
        rw [this]; exact h1
      · intro h; exact ⟨c.podid, h, by simp⟩

theorem podNameMatched_of_str (c : ctailclient) (m : JObj) (hm : PodShape m) :
    ∃ b, podNameMatched c m = some b ∧
      (b = true ↔ ∃ s, kubeField m "pod_name" = some (JVal.str s) ∧ s ∈ c.podsfilter) := by
  obtain ⟨b, hb, hiff⟩ := podNameMatched_of_shape c m hm
  refine ⟨b, hb, hiff.trans ?_⟩
  unfold HasPodName kubeField
  constructor
  · rintro ⟨s, ⟨kube, h1, h2⟩, h3⟩
    exact ⟨s, by rw [h1]; exact h2, h3⟩
  · rintro ⟨s, h1, h3⟩
    refine ⟨s, ?_, h3⟩
    cases hk : m.lookup "kubernetes" with
    | none => rw [hk] at h1; cases h1
    | some v =>
      rw [hk] at h1
      cases v <;> first | exact ⟨_, rfl, h1⟩ | cases h1

theorem filterBlock_some (a b r : Bool) :
    filterBlock a (some b) (some r) = some ((!a || b) && r) := by
  cases a <;> cases b <;> cases r <;> rfl

theorem filterBlock_inactive (mt : Option Bool) (r : Option Bool) :
    filterBlock false mt r = r := rfl

theorem filterBlock_iff (a b r : Bool) (A B R : Prop) (ha : a = true ↔ A) (hb : b = true ↔ B)
    (hr : r = true ↔ R) : ((!a || b) && r) = true ↔ (A → B) ∧ R := by
  rw [← ha, ← hb, ← hr]
  cases a <;> cases b <;> cases r <;> simp

/-- Support for C2: on records of the stated shape whose `pod_name`, when
present, is moreover a string whenever the pod-name set is configured,
`filterEvent` returns, and returns true exactly when every set predicate matches. -/
theorem filterEvent_iff_all_set_predicates_match (c : ctailclient) (m : JObj)
    (hm : ObjShape m) (hp : c.podsfilter ≠ [] → PodShape m) :
    ∃ b, filterEvent c m = some b ∧ (b = true ↔ AllSetPredicatesMatch c m) := by
  obtain ⟨b2, h2, i2⟩ := labelMatched_of_shape "environment" (fun val => decide (c.env = val)) m hm
  obtain ⟨b3, h3, i3⟩ := labelMatched_of_shape "version" (fun val => decide (c.rev = val)) m hm
  obtain ⟨b4, h4, i4⟩ := podIdMatched_of_shape c m hm
  obtain ⟨b5, h5, i5⟩ :=
    labelMatched_of_shape "kubeCluster" (fun val => includes c.clustersfilter val) m hm
  have e2 : (b2 = true ↔ labelField m "environment" = some (JVal.str c.env)) := by
    rw [i2]
    constructor
    · rintro ⟨s, h, h'⟩
      have : c.env = s := by simpa using h'
      rw [this]; exact h
    · intro h; exact ⟨c.env, h, by simp⟩
  have e3 : (b3 = true ↔ labelField m "version" = some (JVal.str c.rev)) := by
    rw [i3]
    constructor
    · rintro ⟨s, h, h'⟩
      have : c.rev = s := by simpa using h'
      rw [this]; exact h
    · intro h; exact ⟨c.rev, h, by simp⟩
  have e5 : (b5 = true ↔
      ∃ s, labelField m "kubeCluster" = some (JVal.str s) ∧ s ∈ c.clustersfilter) := by
    rw [i5]; simp only [includes_iff]
  have a1 : (decide (c.podsfilter.length > 0) = true ↔ c.podsfilter ≠ []) := by
    simp [List.length_pos]
  have a2 : (decide (goLen c.env > 0) = true ↔ c.env ≠ "") := by
    simp only [decide_eq_true_eq]; exact goLen_pos_iff _
  have a3 : (decide (goLen c.rev > 0) = true ↔ c.rev ≠ "") := by
    simp only [decide_eq_true_eq]; exact goLen_pos_iff _
  have a4 : (decide (goLen c.podid > 0) = true ↔ c.podid ≠ "") := by
    simp only [decide_eq_true_eq]; exact goLen_pos_iff _
  have a5 : (decide (c.clustersfilter.length > 0) = true ↔ c.clustersfilter ≠ []) := by
    simp [List.length_pos]
  have t0 : (true = true ↔ True) := by simp
  have t5 := filterBlock_iff _ _ _ _ _ _ a5 e5 t0
  have t4 := filterBlock_iff _ _ _ _ _ _ a4 i4 t5
  have t3 := filterBlock_iff _ _ _ _ _ _ a3 e3 t4
  have t2 := filterBlock_iff _ _ _ _ _ _ a2 e2 t3
  by_cases hpods : c.podsfilter = []
  · refine ⟨_, ?_, t2.trans ?_⟩
    · unfold filterEvent
      have : decide (c.podsfilter.length > 0) = false := by simp [hpods]
      rw [this, filterBlock_inactive, h2, h3, h4, h5]
      simp only [filterBlock_some]
    · unfold AllSetPredicatesMatch
      constructor
      · rintro ⟨p2, p3, p4, p5, _⟩
        exact ⟨fun h => absurd hpods h, p5, p2, p3, p4⟩
      · rintro ⟨_, p5, p2, p3, p4⟩
        exact ⟨p2, p3, p4, p5, trivial⟩
  · obtain ⟨b1, h1, i1⟩ := podNameMatched_of_str c m (hp hpods)
    have t1 := filterBlock_iff _ _ _ _ _ _ a1 i1 t2
    refine ⟨_, ?_, t1.trans ?_⟩
    · unfold filterEvent
      rw [h1, h2, h3, h4, h5]
      simp only [filterBlock_some]
    · unfold AllSetPredicatesMatch
      constructor
      · rintro ⟨p1, p2, p3, p4, p5, _⟩
        exact ⟨p1, p5, p2, p3, p4⟩
      · rintro ⟨p1, p5, p2, p3, p4⟩
        exact ⟨p1, p2, p3, p4, p5, trivial⟩

theorem filterEvent_iff_all_set_predicates_match_witness :
    ∃ b, filterEvent { env := "prod" }
        [("kubernetes", JVal.obj [("labels", JVal.obj [("environment", JVal.str "prod")])])]
        = some b ∧
      (b = true ↔ AllSetPredicatesMatch { env := "prod" }
        [("kubernetes", JVal.obj [("labels", JVal.obj [("environment", JVal.str "prod")])])]) :=
  filterEvent_iff_all_set_predicates_match { env := "prod" }
    [("kubernetes", JVal.obj [("labels", JVal.obj [("environment", JVal.str "prod")])])]
    (by
      intro v hv
      have e : v = JVal.obj [("labels", JVal.obj [("environment", JVal.str "prod")])] := by
        simpa [List.lookup] using hv.symm
      subst e
      refine ⟨_, rfl, ?_⟩
      intro w hw
      exact ⟨[("environment", JVal.str "prod")], by simpa [List.lookup] using hw.symm⟩)
    (by intro h; exact absurd rfl h)

/-- C2 (failing input). The pod-name block asserts `val.(string)` with the
single-value form: on a record of the claimed shape (`kubernetes` is an object,
no `labels`) whose `pod_name` is the number 5, with the pod-name set configured,
`filterEvent` does not return a boolean at all (run-time panic), whereas the
sibling pod-id block, which uses the two-value form, returns false on the same
kind of record. -/
theorem filterEvent_pod_name_not_string :
    ObjShape [("kubernetes", JVal.obj [("pod_name", JVal.num 5)])] ∧
    filterEvent { podsfilter := ["a"] } [("kubernetes", JVal.obj [("pod_name", JVal.num 5)])]
      = none ∧
    filterEvent { podid := "a" } [("kubernetes", JVal.obj [("pod_id", JVal.num 5)])]
      = some false := by
  refine ⟨?_, by decide, by decide⟩
  intro v hv
  have e : v = JVal.obj [("pod_name", JVal.num 5)] := by
    simpa [List.lookup] using hv.symm
  subst e
  refine ⟨_, rfl, ?_⟩
  intro w hw
  simp [List.lookup] at hw

/-! ## The members of a record and the values a field is decoded from -/

theorem lookup_cons_ite {β : Type} (k : String) (q : String × β) (m : List (String × β)) :
    List.lookup k (q :: m) = if k = q.1 then some q.2 else List.lookup k m := by
  obtain ⟨a, b⟩ := q
  by_cases h : k = a
  · simp [List.lookup, h]
  · have hb : (k == a) = false := by simpa using h
    simp [List.lookup, hb, h]

theorem mem_of_lookup {β : Type} (m : List (String × β)) (k : String) (v : β)
    (h : m.lookup k = some v) : (k, v) ∈ m := by
  induction m with
  | nil => cases h
  | cons q m ih =>
    rw [lookup_cons_ite] at h
    split at h
    · next hk =>
      have hv : q.2 = v := Option.some.inj h
      exact List.mem_cons.2 (Or.inl (Prod.ext hk hv.symm))
    · exact List.mem_cons_of_mem _ (ih h)

/-- One entry per key, the first one: the list that `JObj.members` sorts. -/
theorem mem_firsts_iff (m : JObj) (p : String × JVal) :
    p ∈ m.foldr (fun p acc => p :: acc.filter fun q => q.1 ≠ p.1) [] ↔
      m.lookup p.1 = some p.2 := by
  induction m with
  | nil => simp
  | cons q m ih =>
    rw [lookup_cons_ite]
    simp only [List.foldr_cons, List.mem_cons, List.mem_filter, decide_eq_true_eq]
    by_cases hk : p.1 = q.1
    · rw [if_pos hk]
      constructor
      · rintro (h | ⟨_, h⟩)
        · rw [h]
        · exact absurd hk h
      · intro h
        exact Or.inl (Prod.ext hk (Option.some.inj h).symm)
    · rw [if_neg hk]
      constructor
      · rintro (h | ⟨h, _⟩)
        · exact absurd (congrArg Prod.fst h) hk
        · exact ih.1 h
      · intro h
        exact Or.inr ⟨ih.2 h, hk⟩

theorem nodup_firsts (m : JObj) :
    (m.foldr (fun p acc => p :: acc.filter fun q => q.1 ≠ p.1) []).Nodup := by
  induction m with
  | nil => simp
  | cons q m ih =>
    simp only [List.foldr_cons, List.nodup_cons, List.mem_filter, decide_eq_true_eq]
    exact ⟨fun h => h.2 rfl, ih.filter _⟩

/-- The members of a record are its entries: `(k, v)` is a member exactly when
`v` is the value of the key `k`. -/
theorem mem_members_iff (m : JObj) (p : String × JVal) :
    p ∈ JObj.members m ↔ m.lookup p.1 = some p.2 := by
  unfold JObj.members
  rw [(List.perm_insertionSort _ _).mem_iff]
  exact mem_firsts_iff m p

theorem nodup_members (m : JObj) : (JObj.members m).Nodup := by
  unfold JObj.members
  exact (List.perm_insertionSort _ _).nodup_iff.2 (nodup_firsts m)

theorem mem_of_mem_members (m : JObj) (p : String × JVal) (h : p ∈ JObj.members m) : p ∈ m := by
  exact mem_of_lookup m p.1 p.2 ((mem_members_iff m p).1 h)

/-- No key of the record matches the field: nothing is stored into it. -/
theorem fieldValues_of_no_match (m : JObj) (name : String)
    (h : ∀ p ∈ m, keyMatches name p.1 = false) : fieldValues (JObj.members m) name = [] := by
  unfold fieldValues
  rw [List.map_eq_nil_iff, List.filter_eq_nil_iff]
  intro p hp
  rw [h p (mem_of_mem_members m p hp)]
  simp

theorem eq_singleton_of_nodup {α : Type} (l : List α) (x : α) (hn : l.Nodup) (hx : x ∈ l)
    (hall : ∀ y ∈ l, y = x) : l = [x] := by
  cases l with
  | nil => cases hx
  | cons a rest =>
    have ha : a = x := hall a (List.mem_cons_self _ _)
    subst ha
    cases rest with
    | nil => rfl
    | cons b rest2 =>
      have hb : b = a := hall b (List.mem_cons_of_mem _ (List.mem_cons_self _ _))
      subst hb
      simp at hn

/-- The key `k` is the only key of the record that matches the field: the one
value stored into the field is the value of `k`. -/
theorem fieldValues_of_unique (m : JObj) (name k : String) (v : JVal)
    (hk : keyMatches name k = true) (hl : m.lookup k = some v)
    (hu : ∀ p ∈ m, keyMatches name p.1 = true → p.1 = k) :
    fieldValues (JObj.members m) name = [v] := by
  have hf : (JObj.members m).filter (fun p => keyMatches name p.1) = [(k, v)] := by
    apply eq_singleton_of_nodup
    · exact (nodup_members m).filter _
    · rw [List.mem_filter]
      exact ⟨(mem_members_iff m (k, v)).2 hl, hk⟩
    · intro p hp
      rw [List.mem_filter] at hp
      have hpk : p.1 = k := hu p (mem_of_mem_members m p hp.1) hp.2
      have hv := (mem_members_iff m p).1 hp.1
      rw [hpk, hl] at hv
      exact Prod.ext hpk (Option.some.inj hv).symm
  unfold fieldValues
  rw [hf]
  rfl

/-- A field that every store overwrites ends with what the last value gives. -/
theorem foldl_overwrite {α β : Type} (f : β → α) (init : α) (l : List β) :
    l.foldl (fun _ v => f v) init = (l.getLast?.map f).getD init := by
  induction l generalizing init with
  | nil => rfl
  | cons a rest ih =>
    rw [List.foldl_cons, ih]
    cases rest with
    | nil => rfl
    | cons b rest2 =>
      rw [List.getLast?_cons_cons]
      cases hlast : (b :: rest2).getLast? with
      | none => simp at hlast
      | some v => rfl
/-! ## Rendering of `ContextMap` and `Labels` on the degenerate map -/

/-- C3 (failing input). On the map whose single entry has the empty key and the
empty value both `ContextMap.String` and `Labels.String` return `"=,"`: the
text built is two bytes long, the guard `len > 2` does not hold, and the
trailing comma stays; on the one-entry map `a ↦ ""` the comma is removed. -/
theorem String_keeps_comma_on_empty_entry :
    ContextMap_String [("", "")] = "=," ∧ Labels_String [("", "")] = "=," ∧
    ContextMap_String [("a", "")] = "a=" ∧ Labels_String [("a", "")] = "a=" := by
  decide

/-! ## The type label of the ingestion counter -/

/-- C8 (failing input). A first record without an `app` key and without the
bytes `EVENT` is counted under the type `event` (the value `etype` had on entry
to the loop), and the same bytes are counted under `log` when a log record with
an `app` key was processed just before: the branch for a missing service does
not classify the record, it reuses `etype` from the previous iteration. -/
theorem etype_not_classified_without_service :
    LocateString "EVENT" (utf8 "\x7b\"message\":\"x\"\x7d") = -1 ∧
    (consumeAll ServerState.init [utf8 "\x7b\"message\":\"x\"\x7d"]).1.ingested
      = [(utf8 "none", utf8 "none", "event")] ∧
    (consumeAll ServerState.init
        [utf8 "\x7b\"app\":\"svc\",\"message\":\"y\"\x7d", utf8 "\x7b\"message\":\"x\"\x7d"]).1.ingested
      = [(utf8 "svc", utf8 "none", "log"), (utf8 "none", utf8 "none", "log")] ∧
    (consumeAll ServerState.init
        [utf8 "\x7b\"app\":\"svc\",\"tags\":[\"EVENT\"]\x7d", utf8 "\x7b\"message\":\"x\"\x7d"]).1.ingested
      = [(utf8 "svc", utf8 "none", "event"), (utf8 "none", utf8 "none", "event")] := by
  decide

/-! ## Sentinels of the rendered fields -/

theorem strField_of_no_match (m : JObj) (name : String)
    (h : ∀ p ∈ m, keyMatches name p.1 = false) : strField (JObj.members m) name = "" := by
  unfold strField
  rw [fieldValues_of_no_match m name h]
  rfl

theorem strField_of_unique (m : JObj) (name k s : String) (hk : keyMatches name k = true)
    (hl : m.lookup k = some (JVal.str s))
    (hu : ∀ p ∈ m, keyMatches name p.1 = true → p.1 = k) :
    strField (JObj.members m) name = s := by
  unfold strField
  rw [fieldValues_of_unique m name k _ hk hl hu]
  rfl

theorem FromJsonBlob_fields (loc : Location) (m : JObj) (e : Event)
    (h : FromJsonBlob loc m = some (Except.ok e)) :
    e.Level = strField (JObj.members m) "Level" ∧
      e.Message = strField (JObj.members m) "Message" ∧
      e.Exception = strField (JObj.members m) "Exception" ∧
      (m.index "host").assertStr = some e.Host := by
  unfold FromJsonBlob at h
  split at h
  · cases h
  · cases hh : (m.index "host").assertStr with
    | none => rw [hh] at h; cases h
    | some host =>
      rw [hh] at h
      simp only [Option.some_bind] at h
      split at h
      · injection h with h; injection h with h; subst h
        exact ⟨rfl, rfl, rfl, rfl⟩
      · cases ht : (m.index "@timestamp").assertTime with
        | none => rw [ht] at h; cases h
        | some t =>
          rw [ht] at h
          simp only [Option.some_bind] at h
          injection h with h; injection h with h; subst h
          exact ⟨rfl, rfl, rfl, rfl⟩

theorem lookup_of_index_assertStr (m : JObj) (k s : String)
    (h : (m.index k).assertStr = some s) : m.lookup k = some (JVal.str s) := by
  unfold JObj.index at h
  cases hv : m.lookup k with
  | none => rw [hv] at h; cases h
  | some v =>
    rw [hv] at h
    cases v <;> cases h
    rfl

/-- C9. For every event: `Level.String` is `"NONE"` for the empty level and the
level itself otherwise; `Message.String` is the fixed placeholder for the empty
message and the message itself otherwise; `Host.String` is `"UNKNOWN"` for the
empty host and the host itself otherwise; `Exception.String` is the exception
unchanged.  When the event is the one a record normalises to: its host is the
string under the key `host`; a record none of whose keys is `level`, `message`
or `exception` in any letter case (the keys `json.Unmarshal` matches with the
field) gives the field empty, hence rendered by the sentinel; and a record whose
only such key is `level` (or `message`), holding a string, gives that string. -/
theorem sentinels_of_rendered_fields (e : Event) :
    Level_String e.Level = (if e.Level = "" then "NONE" else e.Level) ∧
    Message_String e.Message =
      (if e.Message = "" then
        "Missing message field - msg-only requires the message field to work"
      else e.Message) ∧
    Host_String e.Host = (if e.Host = "" then "UNKNOWN" else e.Host) ∧
    Exception_String e.Exception = e.Exception ∧
    (∀ (loc : Location) (m : JObj), FromJsonBlob loc m = some (Except.ok e) →
      m.lookup "host" = some (JVal.str e.Host) ∧
      ((∀ p ∈ m, keyMatches "Level" p.1 = false) → Level_String e.Level = "NONE") ∧
      ((∀ p ∈ m, keyMatches "Message" p.1 = false) → Message_String e.Message =
        "Missing message field - msg-only requires the message field to work") ∧
      ((∀ p ∈ m, keyMatches "Exception" p.1 = false) → Exception_String e.Exception = "") ∧
      (∀ s, m.lookup "level" = some (JVal.str s) →
        (∀ p ∈ m, keyMatches "Level" p.1 = true → p.1 = "level") →
        Level_String e.Level = (if s = "" then "NONE" else s)) ∧
      (∀ s, m.lookup "message" = some (JVal.str s) →
        (∀ p ∈ m, keyMatches "Message" p.1 = true → p.1 = "message") →
        Message_String e.Message =
          (if s = "" then "Missing message field - msg-only requires the message field to work"
          else s))) := by
  refine ⟨rfl, rfl, rfl, rfl, ?_⟩
  intro loc m h
  obtain ⟨h1, h2, h3, h4⟩ := FromJsonBlob_fields loc m e h
  refine ⟨lookup_of_index_assertStr m "host" e.Host h4, ?_, ?_, ?_, ?_, ?_⟩
  · intro hk; rw [h1, strField_of_no_match m "Level" hk]; rfl
  · intro hk; rw [h2, strField_of_no_match m "Message" hk]; rfl
  · intro hk; rw [h3, strField_of_no_match m "Exception" hk]; rfl
  · intro s hl hu
    rw [h1, strField_of_unique m "Level" "level" s (by decide) hl hu]
    rfl
  · intro s hl hu
    rw [h2, strField_of_unique m "Message" "message" s (by decide) hl hu]
    rfl

/-! ## `CreateTemplate` -/

theorem lookup_eq_none_iff_not_mem_keys {β : Type} (l : List (String × β)) (k : String) :
    l.lookup k = none ↔ k ∉ l.map Prod.fst := by
  induction l with
  | nil => simp
  | cons p rest ih =>
    obtain ⟨a, b⟩ := p
    by_cases h : k = a
    · subst h; simp [List.lookup]
    · have h1 : (k == a) = false := by simpa using h
      simp [List.lookup, h1, ih, h]

theorem validFields_keys : validFields.map Prod.fst = whitelist := by decide

theorem validFields_lookup_none_iff (f : String) :
    validFields.lookup f = none ↔ f ∉ whitelist := by
  rw [lookup_eq_none_iff_not_mem_keys, validFields_keys]

theorem writeFields_error_iff (fields : List String) (acc : String) :
    (∃ e, writeFields fields acc = Except.error e) ↔ ∃ f ∈ fields, f ∉ whitelist := by
  induction fields generalizing acc with
  | nil => simp [writeFields]
  | cons f rest ih =>
    unfold writeFields
    cases hf : validFields.lookup f with
    | none =>
      have := (validFields_lookup_none_iff f).mp hf
      simp only [List.mem_cons, exists_eq_or_imp]
      exact ⟨fun _ => Or.inl this, fun _ => ⟨_, rfl⟩⟩
    | some proj =>
      have hin : ¬ f ∉ whitelist := by
        intro h
        rw [(validFields_lookup_none_iff f).mpr h] at hf
        cases hf
      simp only [List.mem_cons, exists_eq_or_imp, hin, false_or]
      exact ih _

theorem writeFields_first_invalid (pre : List String) (f : String) (post : List String)
    (acc : String) (hpre : ∀ g ∈ pre, g ∈ whitelist) (hf : f ∉ whitelist) :
    writeFields (pre ++ f :: post) acc = Except.error ("field (" ++ f ++ ") is not a valid field") := by
  induction pre generalizing acc with
  | nil =>
    simp only [List.nil_append, writeFields, (validFields_lookup_none_iff f).mpr hf]
  | cons g rest ih =>
    have hg : g ∈ whitelist := hpre g (List.mem_cons_self _ _)
    cases hl : validFields.lookup g with
    | none => exact absurd hg ((validFields_lookup_none_iff g).mp hl)
    | some proj =>
      simp only [List.cons_append, writeFields, hl]
      exact ih _ (fun x hx => hpre x (List.mem_cons_of_mem _ hx))

/-- C5. `CreateTemplate` returns an error (and with it no template) exactly when
the list is empty or holds a name outside the 19 whitelisted projections, which
are the keys of `validFields`; the error of a list with an unknown name carries
the first such name; on `["timestamp","bogus"]` it is the error naming `bogus`;
and in every other case a template is returned. -/
theorem CreateTemplate_error_iff (fields : List String) :
    validFields.map Prod.fst = whitelist ∧
    ((∃ e, CreateTemplate fields = Except.error e) ↔
      fields = [] ∨ ∃ f ∈ fields, f ∉ whitelist) ∧
    ((∃ t, CreateTemplate fields = Except.ok t) ↔
      fields ≠ [] ∧ ∀ f ∈ fields, f ∈ whitelist) ∧
    (∀ pre f post, fields = pre ++ f :: post → (∀ g ∈ pre, g ∈ whitelist) → f ∉ whitelist →
      CreateTemplate fields = Except.error ("field (" ++ f ++ ") is not a valid field")) ∧
    CreateTemplate ["timestamp", "bogus"] = Except.error "field (bogus) is not a valid field" := by
  have herr : (∃ e, CreateTemplate fields = Except.error e) ↔
      fields = [] ∨ ∃ f ∈ fields, f ∉ whitelist := by
    unfold CreateTemplate
    by_cases h0 : fields = []
    · subst h0; simp
    · have hl : ¬ fields.length = 0 := by simpa using h0
      simp only [hl, if_false, h0, false_or]
      rw [← writeFields_error_iff fields ""]
      cases hw : writeFields fields "" with
      | error e => simp
      | ok tmp => simp [templateParse]
  refine ⟨validFields_keys, herr, ?_, ?_, by rfl⟩
  · have hcases : (∃ t, CreateTemplate fields = Except.ok t) ↔
        ¬ ∃ e, CreateTemplate fields = Except.error e := by
      cases hc : CreateTemplate fields with
      | error e => simp
      | ok t => simp
    rw [hcases, herr]
    push_neg
    rfl
  · intro pre f post hfields hpre hf
    subst hfields
    unfold CreateTemplate
    have hl : ¬ (pre ++ f :: post).length = 0 := by simp
    simp only [hl, if_false, writeFields_first_invalid pre f post "" hpre hf]

/-! ## `sortKeys` and the rendering of maps -/

theorem lookup_eq_of_perm {β : Type} {l1 l2 : List (String × β)} (hp : l1.Perm l2)
    (hn : (l1.map Prod.fst).Nodup) (k : String) : l1.lookup k = l2.lookup k := by
  induction hp with
  | nil => rfl
  | cons x _ ih =>
    obtain ⟨a, b⟩ := x
    simp only [List.map_cons, List.nodup_cons] at hn
    simp only [List.lookup]
    split
    · rfl
    · exact ih hn.2
  | swap x y l =>
    obtain ⟨a, b⟩ := x
    obtain ⟨c, d⟩ := y
    simp only [List.map_cons, List.nodup_cons, List.mem_cons, not_or] at hn
    have hne : c ≠ a := hn.1.1
    by_cases h1 : k = a
    · subst h1
      have h2 : (k == c) = false := by simpa using fun h => hne h.symm
      simp [List.lookup, h2]
    · have h1' : (k == a) = false := by simpa using h1
      simp [List.lookup, h1']
  | trans h1 _ ih1 ih2 =>
    have hn2 := (h1.map Prod.fst).nodup_iff.mp hn
    exact (ih1 hn).trans (ih2 hn2)

theorem sortStrings_perm (keys : List String) : (sortStrings keys).Perm keys :=
  List.perm_insertionSort _ keys

theorem dataLE_total (a b : String) : a.data ≤ b.data ∨ b.data ≤ a.data := le_total _ _

theorem sortStrings_sorted (keys : List String) :
    (sortStrings keys).Sorted (fun a b => a.data ≤ b.data) := by
  haveI : IsTotal String (fun a b => a.data ≤ b.data) := ⟨dataLE_total⟩
  haveI : IsTrans String (fun a b => a.data ≤ b.data) := ⟨fun _ _ _ h1 h2 => le_trans h1 h2⟩
  exact List.sorted_insertionSort _ keys

theorem sortStrings_eq_of_perm {k1 k2 : List String} (hp : k1.Perm k2) :
    sortStrings k1 = sortStrings k2 := by
  haveI : IsAntisymm String (fun a b => a.data ≤ b.data) :=
    ⟨fun a b h1 h2 => String.ext (le_antisymm h1 h2)⟩
  apply List.eq_of_perm_of_sorted _ (sortStrings_sorted k1) (sortStrings_sorted k2)
  exact (sortStrings_perm k1).trans (hp.trans (sortStrings_perm k2).symm)

theorem writeEntries_congr (m1 m2 : GoMap) (keys : List String)
    (h : ∀ k, m1.lookup k = m2.lookup k) : writeEntries m1 keys = writeEntries m2 keys := by
  unfold writeEntries
  have hf : (fun s key => s ++ key ++ "=" ++ GoMap.index m1 key ++ ",") =
      (fun s key => s ++ key ++ "=" ++ GoMap.index m2 key ++ ",") := by
    funext s key
    simp [GoMap.index, h key]
  rw [hf]

theorem writeEntries_eq_join_aux (m : GoMap) (keys : List String) (acc : String) :
    keys.foldl (fun s key => s ++ key ++ "=" ++ m.index key ++ ",") acc =
      acc ++ String.join (keys.map fun key => key ++ "=" ++ m.index key ++ ",") := by
  induction keys generalizing acc with
  | nil => simp [String.join]
  | cons k rest ih =>
    simp only [List.foldl_cons, List.map_cons]
    rw [ih]
    have hj : ∀ (x : String) (l : List String), String.join (x :: l) = x ++ String.join l := by
      intro x l
      simp only [String.join, List.foldl_cons]
      have aux : ∀ (l : List String) (a b : String),
          List.foldl (fun r s => r ++ s) (a ++ b) l = a ++ List.foldl (fun r s => r ++ s) b l := by
        intro l
        induction l with
        | nil => intro a b; rfl
        | cons y l ih2 => intro a b; simp only [List.foldl_cons, String.append_assoc, ih2]
      have := aux l x ""
      simpa using this
    rw [hj]
    simp only [String.append_assoc]

/-- C4. For two enumerations of the same entries with distinct keys (two
iteration orders of one map), `ContextMap.String` and `Labels.String` produce
the same text; `sortKeys` returns the same list for both, a permutation of the
keys that is sorted ascending; and the text written before the final trim is
the concatenation of `key=value,` over that sorted list, so the keys appear in
it in ascending order. -/
theorem String_invariant_under_iteration_order (m1 m2 : GoMap) (hp : m1.Perm m2)
    (hn : (m1.map Prod.fst).Nodup) :
    ContextMap_String m1 = ContextMap_String m2 ∧
    Labels_String m1 = Labels_String m2 ∧
    sortKeys m1 = sortKeys m2 ∧
    (sortKeys m1).Perm (m1.map Prod.fst) ∧
    (sortKeys m1).Sorted (fun a b => a ≤ b) ∧
    writeEntries m1 (sortKeys m1) =
      String.join ((sortKeys m1).map fun key => key ++ "=" ++ m1.index key ++ ",") := by
  have hk : sortKeys m1 = sortKeys m2 := sortStrings_eq_of_perm (hp.map Prod.fst)
  have hw : writeEntries m1 (sortKeys m1) = writeEntries m2 (sortKeys m2) := by
    rw [← hk]
    exact writeEntries_congr m1 m2 _ (lookup_eq_of_perm hp hn)
  refine ⟨?_, ?_, hk, sortStrings_perm _, ?_, ?_⟩
  · simp only [ContextMap_String, hw]
  · simp only [Labels_String, hw, hp.length_eq]
  · have hs := sortStrings_sorted (m1.map Prod.fst)
    unfold sortKeys
    refine List.Pairwise.imp ?_ hs
    intro a b hab
    exact String.le_iff_toList_le.mpr hab
  · unfold writeEntries
    rw [writeEntries_eq_join_aux]
    simp

theorem String_invariant_under_iteration_order_witness :
    ContextMap_String [("b", "2"), ("a", "1")] = ContextMap_String [("a", "1"), ("b", "2")] ∧
    Labels_String [("b", "2"), ("a", "1")] = Labels_String [("a", "1"), ("b", "2")] ∧
    sortKeys [("b", "2"), ("a", "1")] = sortKeys [("a", "1"), ("b", "2")] :=
  have h := String_invariant_under_iteration_order [("b", "2"), ("a", "1")]
    [("a", "1"), ("b", "2")] (List.Perm.swap _ _ _) (by decide)
  ⟨h.1, h.2.1, h.2.2.1⟩

/-! ## The service registry of `StartConsuming` -/

theorem StringExists_iff (s : Bytes) (slice : List Bytes) :
    StringExists s slice = true ↔ s ∈ slice := by
  induction slice with
  | nil => simp [StringExists]
  | cons val rest ih =>
    unfold StringExists
    by_cases h : s = val
    · simp [h]
    · simp [h, ih]

theorem consumeMessage_of_panics (s : ServerState) (value : Bytes)
    (h : iterationPanics value = true) : consumeMessage s value = none := by
  unfold iterationPanics at h
  unfold consumeMessage
  cases ha : ExtractString "app" value with
  | none => rfl
  | some service =>
    cases ho : extractOwner value with
    | none => rfl
    | some owner => simp [ha, ho] at h

theorem consumeMessage_services (s : ServerState) (value : Bytes)
    (h : iterationPanics value = false) :
    ∃ s1, consumeMessage s value = some s1 ∧
      s1.services = register s.services (serviceName value) := by
  unfold iterationPanics at h
  cases ha : ExtractString "app" value with
  | none => simp [ha] at h
  | some service =>
    cases ho : extractOwner value with
    | none => simp [ho] at h
    | some owner =>
      unfold consumeMessage serviceName
      simp only [ha, ho, Option.some_bind]
      by_cases hs : service = []
      · simp [hs, register]
      · simp only [ne_eq, hs, not_false_eq_true, if_true, if_false]
        refine ⟨_, rfl, ?_⟩
        by_cases hx : service ∈ s.services
        · simp [register, hx, (StringExists_iff service s.services).mpr hx]
        · have hx' : StringExists service s.services = false := by
            cases hb : StringExists service s.services with
            | false => rfl
            | true => exact absurd ((StringExists_iff _ _).mp hb) hx
          simp [register, hx, hx']

theorem consumeAll_services (s : ServerState) (recs : List Bytes) :
    (consumeAll s recs).1.services =
      ((processed recs).map serviceName).foldl register s.services := by
  induction recs generalizing s with
  | nil => rfl
  | cons value rest ih =>
    unfold consumeAll processed
    cases hp : iterationPanics value with
    | true =>
      rw [consumeMessage_of_panics s value hp]
      simp [List.takeWhile, hp]
    | false =>
      obtain ⟨s1, h1, h2⟩ := consumeMessage_services s value hp
      rw [h1]
      simp only [List.takeWhile, hp, Bool.not_false, List.map_cons, List.foldl_cons]
      rw [ih s1, h2]
      rfl

theorem register_extends (services : List Bytes) (o : Option Bytes) :
    services <+: register services o := by
  cases o with
  | none => exact List.prefix_refl _
  | some service =>
    by_cases h : service ∈ services
    · simp only [register, if_pos h]; exact List.prefix_refl _
    · simp only [register, if_neg h]; exact List.prefix_append _ _

theorem foldl_register_extends (names : List (Option Bytes)) (services : List Bytes) :
    services <+: names.foldl register services := by
  induction names generalizing services with
  | nil => exact List.prefix_refl _
  | cons o rest ih =>
    exact (register_extends services o).trans (ih _)

theorem firstSightings_nodup (xs : List Bytes) : (firstSightings xs).Nodup := by
  induction xs with
  | nil => exact List.nodup_nil
  | cons x rest ih =>
    unfold firstSightings
    rw [List.nodup_cons]
    exact ⟨by simp [List.mem_filter], ih.filter _⟩

theorem foldl_register_eq (names : List (Option Bytes)) (acc : List Bytes) :
    names.foldl register acc =
      acc ++ (firstSightings (names.filterMap id)).filter (fun y => decide (y ∉ acc)) := by
  induction names generalizing acc with
  | nil => simp [firstSightings]
  | cons o rest ih =>
    cases o with
    | none =>
      simp only [List.foldl_cons, register, List.filterMap_cons, id]
      exact ih acc
    | some x =>
      simp only [List.foldl_cons, List.filterMap_cons, id, firstSightings]
      by_cases hx : x ∈ acc
      · simp only [register, hx, if_true]
        rw [ih acc]
        congr 1
        rw [List.filter_cons]
        simp only [hx, not_true_eq_false, decide_False, Bool.false_eq_true, if_false,
          List.filter_filter]
        apply List.filter_congr
        intro y _
        by_cases hy : y ∈ acc
        · simp [hy]
        · have : y ≠ x := fun h => hy (h ▸ hx)
          simp [hy, this]
      · simp only [register, hx, if_false]
        rw [ih (acc ++ [x])]
        rw [List.filter_cons]
        simp only [hx, not_false_eq_true, decide_True, if_true, List.filter_filter,
          List.append_assoc, List.singleton_append]
        congr 2
        apply List.filter_congr
        intro y _
        by_cases hy : y ∈ acc
        · simp [hy]
        · by_cases hyx : y = x
          · simp [hyx]
          · simp [hy, hyx]

theorem processed_append (recs more : List Bytes) :
    ∃ extra, processed (recs ++ more) = processed recs ++ extra := by
  unfold processed
  induction recs with
  | nil => exact ⟨List.takeWhile (fun value => !iterationPanics value) more, by simp⟩
  | cons value rest ih =>
    obtain ⟨extra, he⟩ := ih
    by_cases hp : iterationPanics value = true
    · exact ⟨[], by simp [List.takeWhile_cons, hp]⟩
    · have hp' : iterationPanics value = false := by simpa using hp
      refine ⟨extra, ?_⟩
      simp only [List.cons_append, List.takeWhile_cons, hp', Bool.not_false, if_true]
      rw [he]

/-- C7. Starting from the empty registry, after the loop of `StartConsuming` has
run on any sequence of records (up to its end, or up to the record on which an
iteration panics), `s.services` has no duplicates and is the list of distinct
non-empty service names extracted from the records processed, in order of first
sighting; the registry only grows by appending, both over a longer input and in
every single iteration, and an iteration on a record whose service is already
registered leaves it unchanged. -/
theorem registry_append_only_without_duplicates (recs : List Bytes) :
    (consumeAll ServerState.init recs).1.services.Nodup ∧
    (consumeAll ServerState.init recs).1.services =
      firstSightings ((processed recs).filterMap serviceName) ∧
    (∀ more : List Bytes, (consumeAll ServerState.init recs).1.services <+:
      (consumeAll ServerState.init (recs ++ more)).1.services) ∧
    (∀ (s s1 : ServerState) (value : Bytes), consumeMessage s value = some s1 →
      s.services <+: s1.services ∧
      (∀ service, serviceName value = some service → service ∈ s.services →
        s1.services = s.services)) := by
  have heq : (consumeAll ServerState.init recs).1.services =
      firstSightings ((processed recs).filterMap serviceName) := by
    rw [consumeAll_services, foldl_register_eq]
    simp [ServerState.init, List.filterMap_map]
  refine ⟨?_, heq, ?_, ?_⟩
  · rw [heq]; exact firstSightings_nodup _
  · intro more
    obtain ⟨extra, he⟩ := processed_append recs more
    rw [consumeAll_services, consumeAll_services, he, List.map_append, List.foldl_append]
    exact foldl_register_extends _ _
  · intro s s1 value hstep
    have hp : iterationPanics value = false := by
      cases hb : iterationPanics value with
      | false => rfl
      | true => rw [consumeMessage_of_panics s value hb] at hstep; cases hstep
    obtain ⟨s2, h1, h2⟩ := consumeMessage_services s value hp
    rw [hstep] at h1
    injection h1 with h1
    subst h1
    rw [h2]
    refine ⟨register_extends _ _, ?_⟩
    intro service hsvc hmem
    rw [hsvc]
    simp [register, hmem]

/-! ## Calendar arithmetic -/

theorem yearOfEra_spec (doe : Int) (h0 : 0 ≤ doe) (h1 : doe ≤ 146096) :
    0 ≤ (yearOfEra doe).1 ∧ (yearOfEra doe).1 ≤ 399 ∧
    0 ≤ (yearOfEra doe).2 ∧ (yearOfEra doe).2 ≤ 365 ∧
    doe = (yearOfEra doe).1 * 365 + (yearOfEra doe).1 / 4 - (yearOfEra doe).1 / 100 +
      (yearOfEra doe).2 ∧
    ((yearOfEra doe).2 = 365 →
      ((yearOfEra doe).1 + 1) % 4 = 0 ∧
        (((yearOfEra doe).1 + 1) % 100 ≠ 0 ∨ ((yearOfEra doe).1 + 1) % 400 = 0)) ∧
    ((yearOfEra doe).1 = 399 → doe ≤ 146036 → (yearOfEra doe).2 ≤ 305) := by
  simp only [yearOfEra]
  obtain ⟨c, hc⟩ : ∃ c, c = min (doe / 36524) 3 := ⟨_, rfl⟩
  rw [← hc]
  have hcb : 0 ≤ c ∧ c ≤ 3 ∧ c * 36524 ≤ doe ∧ doe - c * 36524 ≤ 36524 ∧
      (c < 3 → doe - c * 36524 ≤ 36523) := by omega
  obtain ⟨r1, hr1⟩ : ∃ r1, r1 = doe - c * 36524 := ⟨_, rfl⟩
  rw [← hr1]
  obtain ⟨q, hq⟩ : ∃ q, q = min (r1 / 1461) 24 := ⟨_, rfl⟩
  rw [← hq]
  have hqb : 0 ≤ q ∧ q ≤ 24 ∧ q * 1461 ≤ r1 ∧ r1 - q * 1461 ≤ 1460 ∧
      (q = 24 → c < 3 → r1 - q * 1461 ≤ 1459) := by omega
  obtain ⟨r2, hr2⟩ : ∃ r2, r2 = r1 - q * 1461 := ⟨_, rfl⟩
  rw [← hr2]
  obtain ⟨y1, hy1⟩ : ∃ y1, y1 = min (r2 / 365) 3 := ⟨_, rfl⟩
  rw [← hy1]
  have hyb : 0 ≤ y1 ∧ y1 ≤ 3 ∧ y1 * 365 ≤ r2 ∧ r2 - y1 * 365 ≤ 365 ∧
      (y1 < 3 → r2 - y1 * 365 ≤ 364) := by omega
  have h4 : (c * 100 + q * 4 + y1) / 4 = c * 25 + q := by omega
  have h100 : (c * 100 + q * 4 + y1) / 100 = c := by omega
  rw [h4, h100]
  refine ⟨by omega, by omega, by omega, by omega, by omega, ?_, by omega⟩
  intro h365
  have e1 : y1 = 3 := by omega
  have e2 : r2 = 1460 := by omega
  have e3 : q = 24 → c = 3 := by omega
  omega

theorem monthDay_spec (doy : Int) (h0 : 0 ≤ doy) (h1 : doy ≤ 365) :
    1 ≤ (monthDay doy).1 ∧ (monthDay doy).1 ≤ 12 ∧ 1 ≤ (monthDay doy).2 ∧
    ((monthDay doy).1 ≤ 2 ↔ 306 ≤ doy) ∧
    (153 * (if (monthDay doy).1 > 2 then (monthDay doy).1 - 3 else (monthDay doy).1 + 9) + 2) / 5 +
      (monthDay doy).2 - 1 = doy ∧
    ((monthDay doy).1 = 2 → (monthDay doy).2 ≤ 29 ∧ ((monthDay doy).2 = 29 → doy = 365)) ∧
    ((monthDay doy).1 = 4 ∨ (monthDay doy).1 = 6 ∨ (monthDay doy).1 = 9 ∨ (monthDay doy).1 = 11 →
      (monthDay doy).2 ≤ 30) ∧
    (monthDay doy).2 ≤ 31 := by
  simp only [monthDay]
  have hmp : 0 ≤ (5 * doy + 2) / 153 ∧ (5 * doy + 2) / 153 ≤ 11 := by omega
  obtain ⟨m0, m11⟩ := hmp
  generalize hmpd : (5 * doy + 2) / 153 = mp at *
  interval_cases mp <;> simp <;> omega

theorem civil_spec (z : Int) :
    1 ≤ (civilFromDays z).2.1 ∧ (civilFromDays z).2.1 ≤ 12 ∧ 1 ≤ (civilFromDays z).2.2 ∧
    (civilFromDays z).2.2 ≤ 31 ∧
    (civilFromDays z).2.2 ≤ daysIn (civilFromDays z).2.1 (civilFromDays z).1 ∧
    daysFromCivil (civilFromDays z).1 (civilFromDays z).2.1 (civilFromDays z).2.2 = z ∧
    (-719528 ≤ z → 0 ≤ (civilFromDays z).1) ∧ (z < 2932897 → (civilFromDays z).1 ≤ 9999) := by
  have hd0 : 0 ≤ (z + 719468) % 146097 := by omega
  have hd1 : (z + 719468) % 146097 ≤ 146096 := by omega
  obtain ⟨a1, a2, a3, a4, a5, a6, a7⟩ := yearOfEra_spec _ hd0 hd1
  obtain ⟨b1, b2, b3, b4, b5, b6, b7, b8⟩ := monthDay_spec _ a3 a4
  simp only [civilFromDays]
  generalize hyd : yearOfEra ((z + 719468) % 146097) = yd at *
  obtain ⟨yoe, doy⟩ := yd
  generalize hmd : monthDay doy = md at *
  obtain ⟨m, d⟩ := md
  simp only at a1 a2 a3 a4 a5 a6 a7 b1 b2 b3 b4 b5 b6 b7 b8 ⊢
  generalize hera : (z + 719468) / 146097 = era
  have hz : z + 719468 = era * 146097 + (z + 719468) % 146097 := by omega
  generalize hdoe : (z + 719468) % 146097 = doe at *
  refine ⟨b1, b2, b3, b8, ?_, ?_, ?_, ?_⟩
  · unfold daysIn isLeap
    by_cases hm2 : m = 2
    · have hle : m ≤ 2 := by omega
      simp only [hm2, if_true, hle]
      obtain ⟨c1, c2⟩ := b6 hm2
      by_cases h29 : d = 29
      · have hdoy := c2 h29
        obtain ⟨l1, l2⟩ := a6 hdoy
        have hl : (decide ((era * 400 + yoe + 1) % 4 = 0 ∧
            ((era * 400 + yoe + 1) % 100 ≠ 0 ∨ (era * 400 + yoe + 1) % 400 = 0))) = true := by
          rw [decide_eq_true_eq]
          omega
        simp only [show (2 : Int) ≤ 2 by norm_num, if_true, hl]
        omega
      · have : d ≤ 28 := by omega
        simp only [show (2 : Int) ≤ 2 by norm_num, if_true]
        split <;> omega
    · simp only [hm2, if_false]
      by_cases h30 : m = 4 ∨ m = 6 ∨ m = 9 ∨ m = 11
      · simp only [h30, if_true]; exact b7 h30
      · simp only [h30, if_false]; exact b8
  · unfold daysFromCivil
    have hdiv : (era * 400 + yoe) / 400 = era := by omega
    by_cases hle : m ≤ 2
    · have hgt : ¬ m > 2 := by omega
      have hy : era * 400 + yoe + 1 - 1 = era * 400 + yoe := by ring
      simp only [hle, hgt, if_true, if_false, hy, hdiv] at b5 ⊢
      have hyoe : era * 400 + yoe - era * 400 = yoe := by ring
      rw [hyoe]
      omega
    · have hgt : m > 2 := by omega
      simp only [hle, hgt, if_true, if_false, hdiv] at b5 ⊢
      have hyoe : era * 400 + yoe - era * 400 = yoe := by ring
      rw [hyoe]
      omega
  · intro hlo
    have hera : -1 ≤ era := by omega
    by_cases hle : m ≤ 2
    · simp only [hle, if_true]
      by_cases he : era = -1
      · have hdoe : 146037 ≤ doe := by omega
        have hyoe : yoe = 399 := by
          by_contra hne
          have : yoe ≤ 398 := by omega
          omega
        omega
      · omega
    · simp only [hle, if_false]
      by_cases he : era = -1
      · exfalso
        have hdoe : 146037 ≤ doe := by omega
        have hyoe : yoe = 399 := by
          by_contra hne
          have : yoe ≤ 398 := by omega
          omega
        have : 306 ≤ doy := by subst hyoe; omega
        exact hle (b4.mpr this)
      · omega
  · intro hhi
    by_cases hle : m ≤ 2
    · simp only [hle, if_true]
      have := b4.mp hle
      omega
    · simp only [hle, if_false]; omega

/-! ## Digits -/

theorem digitVal_digitChar (d : Nat) : digitVal (digitChar d) = some (d % 10) := by
  unfold digitChar
  have h : d % 10 < 10 := Nat.mod_lt _ (by norm_num)
  generalize d % 10 = k at h
  interval_cases k <;> rfl

theorem getDigits_putDigits (w n acc : Nat) (rest : List Char) :
    getDigits w acc (putDigits w n ++ rest) = some (acc * 10 ^ w + n % 10 ^ w, rest) := by
  induction w generalizing acc with
  | zero => simp [getDigits, putDigits, Nat.mod_one]
  | succ w ih =>
    have e : getDigits (w + 1) acc (putDigits (w + 1) n ++ rest) =
        getDigits w (acc * 10 + n / 10 ^ w % 10) (putDigits w n ++ rest) := by
      simp only [putDigits, List.cons_append, getDigits, digitVal_digitChar, Option.some_bind]
      rfl
    rw [e, ih]
    have h := Nat.mod_pow_succ (x := n) (b := 10) (k := w)
    rw [h, pow_succ]
    congr 2
    ring

theorem getDigits_putDigits_lt (w n : Nat) (rest : List Char) (h : n < 10 ^ w) :
    getDigits w 0 (putDigits w n ++ rest) = some (n, rest) := by
  rw [getDigits_putDigits, Nat.mod_eq_of_lt h]
  simp

theorem appendInt_of_nonneg (x : Int) (w : Nat) (h0 : 0 ≤ x) (h1 : x < 10 ^ w) :
    appendInt x w = putDigits w x.toNat := by
  unfold appendInt
  have hn : ¬ x < 0 := by omega
  have hnat : x.natAbs = x.toNat := by omega
  have hlt : x.toNat < 10 ^ w := by
    have : ((x.toNat : Nat) : Int) < ((10 ^ w : Nat) : Int) := by
      rw [Int.toNat_of_nonneg h0]; exact_mod_cast h1
    exact_mod_cast this
  simp only [hn, if_false, hnat, hlt, if_true, List.nil_append]

theorem getnum_putDigits (n : Nat) (rest : List Char) (fixed : Bool) (h : n < 10 ^ 2) :
    getnum (putDigits 2 n ++ rest) fixed = some (n, rest) := by
  simp only [getnum, getDigits_putDigits_lt 2 n rest h]

theorem getnum_true (cs : List Char) : getnum cs true = getDigits 2 0 cs := by
  unfold getnum
  cases getDigits 2 0 cs <;> simp

theorem expect_cons (c : Char) (rest : List Char) : expect c (c :: rest) = some rest := by
  simp [expect]

theorem parse_of_fields (Y Mo D H Mi S : Nat) (hY : Y < 10 ^ 4) (hMo : Mo < 10 ^ 2)
    (hD : D < 10 ^ 2) (hH : H < 10 ^ 2) (hMi : Mi < 10 ^ 2) (hS : S < 10 ^ 2)
    (zoneText : List Char) (z : Int × String)
    (hfr : parseFraction zoneText = some (0, zoneText)) (hz : parseZone zoneText = some z) :
    parseRFC3339 (String.mk (putDigits 4 Y ++ '-' :: (putDigits 2 Mo ++ '-' :: (putDigits 2 D ++
      'T' :: (putDigits 2 H ++ ':' :: (putDigits 2 Mi ++ ':' :: (putDigits 2 S ++ zoneText)))))))
      = timeOfFields Y Mo D H Mi S 0 z := by
  unfold parseRFC3339 parseClock
  simp only [getDigits_putDigits_lt _ _ _ hY, getnum_putDigits _ _ _ hMo,
    getnum_putDigits _ _ _ hD, getnum_putDigits _ _ _ hH,
    getnum_putDigits _ _ _ hMi, getnum_putDigits _ _ _ hS, expect_cons,
    Option.some_bind, hfr, hz]

/-! ## Formatting, then parsing, a time -/

theorem getDigits_putDigits_nil (w n : Nat) (h : n < 10 ^ w) :
    getDigits w 0 (putDigits w n) = some (n, []) := by
  have := getDigits_putDigits_lt w n [] h
  simpa using this

theorem appendInt_natCast_div (n : Nat) (h : n < 1440) :
    appendInt ((n : Int) / 60) 2 = putDigits 2 (n / 60) := by
  rw [appendInt_of_nonneg _ 2 (by omega) (by norm_num; omega)]
  congr 1

theorem appendInt_natCast_mod (n : Nat) :
    appendInt ((n : Int) % 60) 2 = putDigits 2 (n % 60) := by
  rw [appendInt_of_nonneg _ 2 (by omega) (by norm_num; omega)]
  congr 1

theorem formatOffset_colon (k : Int) (hlo : -1440 < k) (hhi : k < 1440) :
    formatOffset (60 * k) true =
      (if k < 0 then '-' else '+') ::
        (putDigits 2 (k.natAbs / 60) ++ ':' :: (putDigits 2 (k.natAbs % 60) ++ [])) := by
  unfold formatOffset
  have ht : Int.tdiv (60 * k) 60 = k := Int.mul_tdiv_cancel_left k (by norm_num)
  simp only [ht, if_true]
  rw [appendInt_natCast_div _ (by omega), appendInt_natCast_mod]
  simp only [List.append_assoc, List.singleton_append, List.append_nil]

theorem parseZone_signed (sign : Char) (hs : sign = '+' ∨ sign = '-') (a b : Nat)
    (ha : a < 24) (hb : b < 60) :
    parseZone (sign :: (putDigits 2 a ++ ':' :: (putDigits 2 b ++ []))) =
      some (if sign = '-' then -(((a * 60 + b) * 60 : Nat) : Int) else (((a * 60 + b) * 60 : Nat) : Int),
        "") := by
  have ha' : a < 10 ^ 2 := by norm_num; omega
  have hb' : b < 10 ^ 2 := by norm_num; omega
  have hb2 : getnum (putDigits 2 b) true = some (b, []) := by
    have := getnum_putDigits b [] true hb'
    simpa using this
  have ha2 : a ≤ 24 := by omega
  have hb3 : b ≤ 60 := by omega
  rcases hs with hs | hs <;> subst hs <;>
    simp [parseZone, getnum_putDigits _ _ _ ha', hb2, expect_cons, ha2, hb3]

theorem parseZone_formatZone (off : Int) (h60 : off % 60 = 0) (hlo : -86400 < off)
    (hhi : off < 86400) :
    parseZone (formatZone off) = some (off, if off = 0 then "UTC" else "") ∧
    parseFraction (formatZone off) = some (0, formatZone off) := by
  unfold formatZone
  by_cases h0 : off = 0
  · subst h0
    simp [parseZone, parseFraction]
  · simp only [h0, if_false]
    obtain ⟨k, hk⟩ : ∃ k, off = 60 * k := ⟨off / 60, by omega⟩
    subst hk
    have hk0 : k ≠ 0 := by omega
    rw [formatOffset_colon k (by omega) (by omega)]
    constructor
    · rw [parseZone_signed _ (by by_cases h : k < 0 <;> simp [h]) _ _ (by omega)
        (Nat.mod_lt _ (by norm_num))]
      congr 2
      by_cases h : k < 0
      · simp only [h, if_true]
        omega
      · simp only [h, if_false]
        have : ('+' : Char) ≠ '-' := by decide
        simp only [this, if_false]
        omega
    · by_cases h : k < 0
      · simp only [h, if_true]
        cases hp : putDigits 2 (k.natAbs / 60) with
        | nil => simp [putDigits] at hp
        | cons c cs => simp [parseFraction]
      · simp only [h, if_false]
        cases hp : putDigits 2 (k.natAbs / 60) with
        | nil => simp [putDigits] at hp
        | cons c cs => simp [parseFraction]

theorem timeOfFields_civil (y m d h mi s : Int) (z : Int × String)
    (hy : 0 ≤ y) (hm1 : 1 ≤ m) (hm2 : m ≤ 12) (hd1 : 1 ≤ d) (hd2 : d ≤ daysIn m y)
    (hh0 : 0 ≤ h) (hh : h < 24) (hmi0 : 0 ≤ mi) (hmi : mi < 60) (hs0 : 0 ≤ s) (hs : s < 60) :
    timeOfFields y.toNat m.toNat d.toNat h.toNat mi.toNat s.toNat 0 z =
      some ⟨daysFromCivil y m d * 86400 + (h * 3600 + mi * 60 + s) - z.1, 0, z.1, z.2⟩ := by
  unfold timeOfFields
  have e1 : ((y.toNat : Nat) : Int) = y := Int.toNat_of_nonneg hy
  have e2 : ((m.toNat : Nat) : Int) = m := Int.toNat_of_nonneg (by omega)
  have e3 : ((d.toNat : Nat) : Int) = d := Int.toNat_of_nonneg (by omega)
  have c : 1 ≤ m.toNat ∧ m.toNat ≤ 12 ∧ 1 ≤ d.toNat ∧ ((d.toNat : Nat) : Int) ≤ daysIn m y ∧
      h.toNat < 24 ∧ mi.toNat < 60 ∧ s.toNat < 60 := by
    refine ⟨by omega, by omega, by omega, by rw [e3]; exact hd2, by omega, by omega, by omega⟩
  simp only [e1, e2, e3] at c ⊢
  rw [if_pos c]
  have e4 : ((h.toNat * 3600 + mi.toNat * 60 + s.toNat : Nat) : Int) = h * 3600 + mi * 60 + s := by
    omega
  rw [e4]

theorem parse_format (s off : Int) (zone : String) (h60 : off % 60 = 0) (hlo : -86400 < off)
    (hhi : off < 86400) (h0 : -62167219200 ≤ s + off) (h1 : s + off < 253402300800) :
    parseRFC3339 (Time.mk s 0 off zone).formatRFC3339Nano =
      some ⟨s, 0, off, if off = 0 then "UTC" else ""⟩ := by
  obtain ⟨z1, z2⟩ := parseZone_formatZone off h60 hlo hhi
  obtain ⟨c1, c2, c3, c4, c5, c6, c7, c8⟩ := civil_spec ((s + off) / 86400)
  have hy0 := c7 (by omega)
  have hy1 := c8 (by omega)
  unfold Time.formatRFC3339Nano formatDateClock Time.civil
  simp only
  generalize hciv : civilFromDays ((s + off) / 86400) = civ at *
  obtain ⟨y, m, d⟩ := civ
  simp only at c1 c2 c3 c4 c5 c6 hy0 hy1 ⊢
  have hrem0 : 0 ≤ (s + off) % 86400 := by omega
  have hrem1 : (s + off) % 86400 < 86400 := by omega
  rw [appendInt_of_nonneg y 4 hy0 (by norm_num; omega),
    appendInt_of_nonneg m 2 (by omega) (by norm_num; omega),
    appendInt_of_nonneg d 2 (by omega) (by norm_num; omega),
    appendInt_of_nonneg ((s + off) % 86400 / 3600) 2 (by omega) (by norm_num; omega),
    appendInt_of_nonneg ((s + off) % 86400 % 3600 / 60) 2 (by omega) (by norm_num; omega),
    appendInt_of_nonneg ((s + off) % 86400 % 60) 2 (by omega) (by norm_num; omega)]
  have hfr : formatFraction 0 = [] := by simp [formatFraction]
  simp only [hfr, List.append_nil, List.append_assoc, List.cons_append]
  have hlt : ∀ (x : Int) (w : Nat), 0 ≤ x → x < 10 ^ w → x.toNat < 10 ^ w := by
    intro x w hx0 hx1
    have : ((x.toNat : Nat) : Int) < ((10 ^ w : Nat) : Int) := by
      rw [Int.toNat_of_nonneg hx0]; exact_mod_cast hx1
    exact_mod_cast this
  rw [parse_of_fields _ _ _ _ _ _ (hlt y 4 hy0 (by norm_num; omega))
    (hlt m 2 (by omega) (by norm_num; omega)) (hlt d 2 (by omega) (by norm_num; omega))
    (hlt _ 2 (by omega) (by norm_num; omega)) (hlt _ 2 (by omega) (by norm_num; omega))
    (hlt _ 2 (by omega) (by norm_num; omega)) _ _ z2 z1]
  rw [timeOfFields_civil y m d _ _ _ _ hy0 c1 c2 c3 c5 (by omega) (by omega) (by omega)
    (by omega) (by omega) (by omega)]
  simp only [c6]
  congr 2
  omega

/-! ## Instant and RFC 3339 text normalise to the same `Timestamp` -/

theorem getDigits_length (w acc : Nat) (cs : List Char) (r : Nat × List Char)
    (h : getDigits w acc cs = some r) : cs.length = w + r.2.length := by
  induction w generalizing acc cs with
  | zero =>
    simp only [getDigits, Option.some.injEq] at h
    subst h; simp
  | succ w ih =>
    cases cs with
    | nil => simp [getDigits] at h
    | cons c cs =>
      simp only [getDigits] at h
      cases hd : digitVal c with
      | none => rw [hd] at h; simp at h
      | some d =>
        rw [hd] at h
        simp only [Option.some_bind] at h
        have := ih _ _ h
        simp only [List.length_cons, this]
        omega

theorem expect_length (c : Char) (cs rest : List Char) (h : expect c cs = some rest) :
    cs.length = rest.length + 1 := by
  cases cs with
  | nil => simp [expect] at h
  | cons x xs =>
    simp only [expect] at h
    split at h
    · injection h with h; subst h; simp
    · cases h

theorem parse_length_ge (value : String) (t : Time) (h : parseRFC3339 value = some t) :
    10 ≤ value.data.length := by
  unfold parseRFC3339 at h
  simp only [getnum_true] at h
  cases h1 : getDigits 4 0 value.data with
  | none => rw [h1] at h; simp at h
  | some y =>
    rw [h1] at h; simp only [Option.some_bind] at h
    cases h2 : expect '-' y.2 with
    | none => rw [h2] at h; simp at h
    | some c1 =>
      rw [h2] at h; simp only [Option.some_bind] at h
      cases h3 : getDigits 2 0 c1 with
      | none => rw [h3] at h; simp at h
      | some mo =>
        rw [h3] at h; simp only [Option.some_bind] at h
        cases h4 : expect '-' mo.2 with
        | none => rw [h4] at h; simp at h
        | some c2 =>
          rw [h4] at h; simp only [Option.some_bind] at h
          cases h5 : getDigits 2 0 c2 with
          | none => rw [h5] at h; simp at h
          | some d =>
            have l1 := getDigits_length _ _ _ _ h1
            have l2 := expect_length _ _ _ h2
            have l3 := getDigits_length _ _ _ _ h3
            have l4 := expect_length _ _ _ h4
            have l5 := getDigits_length _ _ _ _ h5
            omega

theorem utf8Len_ge_length (cs : List Char) : cs.length ≤ String.utf8Len cs := by
  induction cs with
  | nil => simp
  | cons c cs ih =>
    have := Char.utf8Size_pos c
    simp only [List.length_cons, String.utf8Len_cons]
    omega

theorem unquote (text : String) :
    sliceFromTo ("\"" ++ text ++ "\"") 1 (goLen ("\"" ++ text ++ "\"") - 1) = text := by
  obtain ⟨cs⟩ := text
  have e : ("\"" ++ String.mk cs ++ "\"") = String.mk (['"'] ++ cs ++ ['"']) := rfl
  rw [e]
  unfold sliceFromTo goLen
  have hlen : String.utf8ByteSize (String.mk (['"'] ++ cs ++ ['"'])) - 1 =
      String.utf8Len ['"'] + String.utf8Len cs := by
    simp only [String.utf8ByteSize_mk, String.utf8Len_append]
    have h1 : String.utf8Len ['"'] = 1 := rfl
    omega
  rw [hlen]
  have h1 : (1 : Nat) = String.utf8Len ['"'] := rfl
  conv_lhs => rw [h1]
  exact String.extract_of_valid ['"'] cs ['"']

theorem Timestamp_UnmarshalJSON_quoted (text : String) (t : Time)
    (h : parseRFC3339 text = some t) :
    Timestamp_UnmarshalJSON ("\"" ++ text ++ "\"") = ⟨t⟩ := by
  unfold Timestamp_UnmarshalJSON
  have hlen : ¬ goLen ("\"" ++ text ++ "\"") < 10 := by
    have h10 := parse_length_ge text t h
    have hge := utf8Len_ge_length text.data
    obtain ⟨cs⟩ := text
    have e : ("\"" ++ String.mk cs ++ "\"") = String.mk (['"'] ++ cs ++ ['"']) := rfl
    rw [e]
    have hq : String.utf8Len ['"'] = 1 := rfl
    simp only [goLen, String.utf8ByteSize_mk, String.utf8Len_append, hq] at hge h10 ⊢
    omega
  rw [if_neg hlen, unquote, h]

theorem Timestamp_String_congr (location : Location) (t1 t2 : Timestamp)
    (hs : t1.Time.sec = t2.Time.sec) (hn : t1.Time.nsec = t2.Time.nsec) :
    Timestamp_String location t1 = Timestamp_String location t2 := by
  unfold Timestamp_String Time.Unix Time.In
  rw [hs, hn]

theorem FromJsonBlob_of_instant (loc : Location) (m : JObj) (host : String)
    (hm : marshalOkFields m = true) (hh : (m.index "host").assertStr = some host)
    (hz : (decodeEvent m).Instant.EpochSecond ≠ 0) :
    ∃ e, FromJsonBlob loc m = some (Except.ok e) ∧
      e.Timestamp = ⟨timeUnix loc (decodeEvent m).Instant.EpochSecond
        (decodeEvent m).Instant.NanoOfSecond⟩ ∧
      e.Instant = (decodeEvent m).Instant ∧ e.Host = host := by
  unfold FromJsonBlob
  simp only [hm, Bool.not_true, Bool.false_eq_true, if_false, hh, Option.some_bind]
  split
  · exact ⟨_, rfl, rfl, rfl, rfl⟩
  · next hne => exact absurd hz hne

theorem FromJsonBlob_of_time (loc : Location) (m : JObj) (host : String) (t : Time)
    (hm : marshalOkFields m = true) (hh : (m.index "host").assertStr = some host)
    (hz : (decodeEvent m).Instant.EpochSecond = 0)
    (ht : (m.index "@timestamp").assertTime = some t) :
    ∃ e, FromJsonBlob loc m = some (Except.ok e) ∧
      e.Timestamp = (decodeEvent m).Timestamp ∧
      e.Instant = ⟨t.Unix, t.Nanosecond⟩ ∧ e.Host = host := by
  unfold FromJsonBlob
  simp only [hm, Bool.not_true, Bool.false_eq_true, if_false, hh, Option.some_bind]
  split
  · next hne => exact absurd hz hne
  · rw [ht]
    exact ⟨_, rfl, rfl, rfl, rfl⟩

theorem marshalable_of_range (t : Time) (hy0 : 0 ≤ t.civil.year) (hy1 : t.civil.year < 10000)
    (hlo : -86400 < t.offset) (hhi : t.offset < 86400) : t.marshalable = true := by
  have h : (Int.tdiv t.offset 60).natAbs / 60 < 24 := by
    rw [Int.natAbs_tdiv]
    have : t.offset.natAbs < 86400 := by omega
    have e : (t.offset.natAbs).div (60 : Int).natAbs = t.offset.natAbs / 60 := rfl
    rw [e]
    omega
  unfold Time.marshalable
  exact decide_eq_true ⟨hy0, hy1, h⟩

theorem encode_time (t : Time) :
    (JVal.time t).encode = "\"" ++ t.formatRFC3339Nano ++ "\"" := by
  simp only [JVal.encode]

theorem FromJsonBlob_instantRecord (loc : Location) (host : String) (s n : Int) (hs : s ≠ 0)
    (hs0 : -(2 ^ 63 : Int) ≤ s) (hs1 : s < (2 ^ 63 : Int)) (hn0 : -(2 ^ 63 : Int) ≤ n)
    (hn1 : n < (2 ^ 63 : Int)) :
    ∃ e, FromJsonBlob loc (instantRecord host s n) = some (Except.ok e) ∧
      e.Timestamp = ⟨timeUnix loc s n⟩ ∧ e.Instant = ⟨s, n⟩ ∧ e.Host = host := by
  have he : (decodeEvent (instantRecord host s n)).Instant = ⟨s, n⟩ := by
    have hc1 : -(2 ^ (64 - 1) : Int) ≤ s ∧ s < (2 ^ (64 - 1) : Int) := ⟨hs0, hs1⟩
    have hc2 : -(2 ^ (64 - 1) : Int) ≤ n ∧ n < (2 ^ (64 - 1) : Int) := ⟨hn0, hn1⟩
    have h1 : (decodeEvent (instantRecord host s n)).Instant =
        ⟨if -(2 ^ (64 - 1) : Int) ≤ s ∧ s < (2 ^ (64 - 1) : Int) then s else 0,
          if -(2 ^ (64 - 1) : Int) ≤ n ∧ n < (2 ^ (64 - 1) : Int) then n else 0⟩ := rfl
    rw [h1, if_pos hc1, if_pos hc2]
  obtain ⟨e, h1, h2, h3, h4⟩ := FromJsonBlob_of_instant loc (instantRecord host s n) host rfl rfl
    (by rw [he]; exact hs)
  rw [he] at h2 h3
  exact ⟨e, h1, h2, h3, h4⟩

theorem FromJsonBlob_timeRecord (loc : Location) (host : String) (t : Time)
    (hmar : t.marshalable = true) :
    ∃ e, FromJsonBlob loc (timeRecord host t) = some (Except.ok e) ∧
      e.Timestamp = Timestamp_UnmarshalJSON ("\"" ++ t.formatRFC3339Nano ++ "\"") ∧
      e.Instant = ⟨t.sec, t.nsec⟩ ∧ e.Host = host := by
  have hm0 : marshalOkFields (timeRecord host t) = (true && (t.marshalable && true)) := rfl
  have hm : marshalOkFields (timeRecord host t) = true := by
    rw [hm0, hmar]; rfl
  have he : (decodeEvent (timeRecord host t)).Instant = ⟨0, 0⟩ := rfl
  have hts : (decodeEvent (timeRecord host t)).Timestamp =
      Timestamp_UnmarshalJSON ("\"" ++ t.formatRFC3339Nano ++ "\"") := by
    have hfv : fieldValues (timeRecord host t).members "@timestamp" = [JVal.time t] := rfl
    simp only [decodeEvent, timestampField, hfv, List.foldl_cons, List.foldl_nil, encode_time]
  obtain ⟨e, h1, h2, h3, h4⟩ := FromJsonBlob_of_time loc (timeRecord host t) host t hm rfl
    (by rw [he]) rfl
  rw [hts] at h2
  exact ⟨e, h1, h2, h3, h4⟩

theorem alignTimestamp_stringRecord (now : Time) (display : Location) (host text : String)
    (t : Time) (h : parseRFC3339 text = some t) :
    alignTimestamp now display (stringRecord host text) =
      some (("@timestamp", JVal.time (t.In display)) :: [("host", JVal.str host)]) := by
  have h1 : (stringRecord host text).lookup "@timestamp" = some (JVal.str text) := rfl
  have h2 : (stringRecord host text).set "@timestamp" (JVal.time (t.In display)) =
      ("@timestamp", JVal.time (t.In display)) :: [("host", JVal.str host)] := rfl
  simp only [alignTimestamp, h1, JVal.assertStr, Option.some_bind, h, h2]

theorem civil_year_range (t : Time) (h0 : -62167219200 ≤ t.sec + t.offset)
    (h1 : t.sec + t.offset < 253402300800) : 0 ≤ t.civil.year ∧ t.civil.year < 10000 := by
  obtain ⟨_, _, _, _, _, _, c7, c8⟩ := civil_spec ((t.sec + t.offset) / 86400)
  have hy0 := c7 (by omega)
  have hy1 := c8 (by omega)
  unfold Time.civil
  simp only
  omega

theorem FromJsonBlob_alignedRecord (loc : Location) (host : String) (t : Time)
    (hmar : t.marshalable = true) :
    ∃ e, FromJsonBlob loc (("@timestamp", JVal.time t) :: [("host", JVal.str host)])
        = some (Except.ok e) ∧
      e.Timestamp = Timestamp_UnmarshalJSON ("\"" ++ t.formatRFC3339Nano ++ "\"") ∧
      e.Instant = ⟨t.sec, t.nsec⟩ ∧ e.Host = host := by
  have hm0 : marshalOkFields (("@timestamp", JVal.time t) :: [("host", JVal.str host)]) =
      (t.marshalable && (true && true)) := rfl
  have hm : marshalOkFields (("@timestamp", JVal.time t) :: [("host", JVal.str host)]) = true := by
    rw [hm0, hmar]; rfl
  have he : (decodeEvent (("@timestamp", JVal.time t) :: [("host", JVal.str host)])).Instant
      = ⟨0, 0⟩ := rfl
  have hts : (decodeEvent (("@timestamp", JVal.time t) :: [("host", JVal.str host)])).Timestamp =
      Timestamp_UnmarshalJSON ("\"" ++ t.formatRFC3339Nano ++ "\"") := by
    have hfv : fieldValues (JObj.members (("@timestamp", JVal.time t) :: [("host", JVal.str host)]))
        "@timestamp" = [JVal.time t] := rfl
    simp only [decodeEvent, timestampField, hfv, List.foldl_cons, List.foldl_nil, encode_time]
  obtain ⟨e, h1, h2, h3, h4⟩ := FromJsonBlob_of_time loc _ host t hm rfl (by rw [he]) rfl
  rw [hts] at h2
  exact ⟨e, h1, h2, h3, h4⟩

theorem timeUnix_whole (loc : Location) (s : Int) :
    (timeUnix loc s 0).sec = s ∧ (timeUnix loc s 0).nsec = 0 := by
  unfold timeUnix
  simp

/-- C10. Normalising a record that carries the instant `{s, 0}` and normalising
a record that carries no instant but the RFC 3339 text denoting the second `s`
yield the same `Timestamp` (the same second and nanosecond, hence the same
rendered text in every display location), for every `s > 0` that RFC 3339 can
denote; the text for `s = 1700000000` is `2023-11-14T22:13:20Z`.  The second
record is taken both as `FromJsonBlob` needs it (the text already parsed to a
time) and as the client receives it (the text, then the alignment step of
`ConsumeAndPrint` in a display location whose offset at `s` is a whole number of
minutes within a day, as RFC 3339 writes offsets). -/
theorem instant_and_rfc3339_same_Timestamp (loc : Location) (host : String) (s : Int)
    (hs : 0 < s) (hmax : s < 253402300800) :
    rfc3339 1700000000 = "2023-11-14T22:13:20Z" ∧
    (∃ t eA eB, parseRFC3339 (rfc3339 s) = some t ∧
      FromJsonBlob loc (instantRecord host s 0) = some (Except.ok eA) ∧
      FromJsonBlob loc (timeRecord host t) = some (Except.ok eB) ∧
      eA.Timestamp.Time.sec = s ∧ eA.Timestamp.Time.nsec = 0 ∧
      eB.Timestamp.Time.sec = s ∧ eB.Timestamp.Time.nsec = 0 ∧
      eA.Instant = eB.Instant ∧
      ∀ L : Location, Timestamp_String L eA.Timestamp = Timestamp_String L eB.Timestamp) ∧
    (∀ (now : Time) (display : Location), display.offsetAt s % 60 = 0 →
      -86400 < display.offsetAt s → display.offsetAt s < 86400 →
      s + display.offsetAt s < 253402300800 →
      ∃ m eA eB, alignTimestamp now display (stringRecord host (rfc3339 s)) = some m ∧
        FromJsonBlob loc (instantRecord host s 0) = some (Except.ok eA) ∧
        FromJsonBlob loc m = some (Except.ok eB) ∧
        eA.Timestamp.Time.sec = s ∧ eA.Timestamp.Time.nsec = 0 ∧
        eB.Timestamp.Time.sec = s ∧ eB.Timestamp.Time.nsec = 0 ∧
        eA.Instant = eB.Instant ∧
        ∀ L : Location, Timestamp_String L eA.Timestamp = Timestamp_String L eB.Timestamp) := by
  have hparse : parseRFC3339 (rfc3339 s) = some ⟨s, 0, 0, "UTC"⟩ := by
    have := parse_format s 0 "UTC" (by norm_num) (by norm_num) (by norm_num) (by omega) (by omega)
    simpa [rfc3339] using this
  obtain ⟨eA, a1, a2, a3, _⟩ := FromJsonBlob_instantRecord loc host s 0 (by omega)
    (by norm_num; omega) (by norm_num; omega) (by norm_num) (by norm_num)
  obtain ⟨u1, u2⟩ := timeUnix_whole loc s
  have hAs : eA.Timestamp.Time.sec = s := by rw [a2]; exact u1
  have hAn : eA.Timestamp.Time.nsec = 0 := by rw [a2]; exact u2
  refine ⟨by decide, ?_, ?_⟩
  · obtain ⟨hy0, hy1⟩ := civil_year_range ⟨s, 0, 0, "UTC"⟩ (by simp; omega) (by simp; omega)
    obtain ⟨eB, b1, b2, b3, _⟩ := FromJsonBlob_timeRecord loc host ⟨s, 0, 0, "UTC"⟩
      (marshalable_of_range _ hy0 hy1 (by norm_num) (by norm_num))
    have hB : eB.Timestamp = ⟨⟨s, 0, 0, "UTC"⟩⟩ := by
      rw [b2]
      exact Timestamp_UnmarshalJSON_quoted _ _ hparse
    refine ⟨_, eA, eB, hparse, a1, b1, hAs, hAn, by rw [hB], by rw [hB], by rw [a3, b3], ?_⟩
    intro L
    exact Timestamp_String_congr L _ _ (by rw [hAs, hB]) (by rw [hAn, hB])
  · intro now display h60 hlo hhi hyear
    have hal := alignTimestamp_stringRecord now display host (rfc3339 s) _ hparse
    have hIn : (Time.mk s 0 0 "UTC").In display =
        ⟨s, 0, display.offsetAt s, display.zoneAt s⟩ := rfl
    rw [hIn] at hal
    obtain ⟨hy0, hy1⟩ := civil_year_range ⟨s, 0, display.offsetAt s, display.zoneAt s⟩
      (by simp; omega) (by simp; omega)
    obtain ⟨eB, b1, b2, b3, _⟩ := FromJsonBlob_alignedRecord loc host
      ⟨s, 0, display.offsetAt s, display.zoneAt s⟩ (marshalable_of_range _ hy0 hy1 hlo hhi)
    have hp2 := parse_format s (display.offsetAt s) (display.zoneAt s) h60 hlo hhi (by omega)
      hyear
    have hB : eB.Timestamp =
        ⟨⟨s, 0, display.offsetAt s, if display.offsetAt s = 0 then "UTC" else ""⟩⟩ := by
      rw [b2]
      exact Timestamp_UnmarshalJSON_quoted _ _ hp2
    refine ⟨_, eA, eB, hal, a1, b1, hAs, hAn, by rw [hB], by rw [hB], by rw [a3, b3], ?_⟩
    intro L
    exact Timestamp_String_congr L _ _ (by rw [hAs, hB]) (by rw [hAn, hB])

theorem instant_and_rfc3339_same_Timestamp_witness :
    (0 : Int) < 1700000000 ∧ (1700000000 : Int) < 253402300800 ∧
    ∃ t eA eB, parseRFC3339 (rfc3339 1700000000) = some t ∧
      FromJsonBlob Location.utc (instantRecord "h" 1700000000 0) = some (Except.ok eA) ∧
      FromJsonBlob Location.utc (timeRecord "h" t) = some (Except.ok eB) ∧
      eA.Timestamp.Time.sec = 1700000000 ∧ eA.Timestamp.Time.nsec = 0 ∧
      eB.Timestamp.Time.sec = 1700000000 ∧ eB.Timestamp.Time.nsec = 0 ∧
      eA.Instant = eB.Instant ∧
      ∀ L : Location, Timestamp_String L eA.Timestamp = Timestamp_String L eB.Timestamp :=
  ⟨by decide, by decide,
    (instant_and_rfc3339_same_Timestamp Location.utc "h" 1700000000 (by decide) (by decide)).2.1⟩

/-! ## Completion signals and the close of the merged channel -/

theorem sum_map_set (f : Producer → Nat) (l : List Producer) (i : Nat) (p q : Producer)
    (h : l.get? i = some p) : ((l.set i q).map f).sum + f p = (l.map f).sum + f q := by
  induction l generalizing i with
  | nil => simp at h
  | cons x xs ih =>
    cases i with
    | zero =>
      simp only [List.get?_cons_zero, Option.some.injEq] at h
      subst h
      simp only [List.set_cons_zero, List.map_cons, List.sum_cons]
      omega
    | succ i =>
      simp only [List.get?_cons_succ] at h
      have := ih i h
      simp only [List.set_cons_succ, List.map_cons, List.sum_cons]
      omega

theorem map_result_set (l : List Producer) (i : Nat) (p q : Producer)
    (h : l.get? i = some p) (hr : q.result = p.result) :
    (l.set i q).map (fun x => x.result) = l.map (fun x => x.result) := by
  induction l generalizing i with
  | nil => simp at h
  | cons x xs ih =>
    cases i with
    | zero =>
      simp only [List.get?_cons_zero, Option.some.injEq] at h
      subst h
      simp [hr]
    | succ i =>
      simp only [List.get?_cons_succ] at h
      simp [ih i h]

theorem all_signalled_of_sum (l : List Producer) (hc : ∀ p ∈ l, p.consistent)
    (hs : (l.map fun p => p.signalled).sum = l.length) :
    ∀ p ∈ l, p.pc = ProducerPc.finished := by
  have hle : ∀ p : Producer, p.consistent → p.signalled ≤ 1 ∧
      (p.signalled = 1 → p.pc = ProducerPc.finished) := by
    intro p hp
    unfold Producer.consistent at hp
    cases hpc : p.pc with
    | querying => rw [hpc] at hp; simp only at hp; exact ⟨by omega, fun h => by omega⟩
    | forwarding rest => rw [hpc] at hp; simp only at hp; exact ⟨by omega, fun h => by omega⟩
    | reporting => rw [hpc] at hp; simp only at hp; exact ⟨by omega, fun h => by omega⟩
    | finished => rw [hpc] at hp; simp only at hp; exact ⟨by omega, fun _ => rfl⟩
  induction l with
  | nil => intro p hp; cases hp
  | cons x xs ih =>
    have hx := hle x (hc x (List.mem_cons_self _ _))
    have hsum : (xs.map fun p => p.signalled).sum ≤ xs.length := by
      clear ih hs
      induction xs with
      | nil => simp
      | cons y ys ih2 =>
        have hy := hle y (hc y (List.mem_cons_of_mem _ (List.mem_cons_self _ _)))
        have := ih2 (fun p hp => hc p (by
          rcases List.mem_cons.mp hp with h | h
          · exact h ▸ List.mem_cons_self _ _
          · exact List.mem_cons_of_mem _ (List.mem_cons_of_mem _ h)))
        simp only [List.map_cons, List.sum_cons, List.length_cons]
        omega
    simp only [List.map_cons, List.sum_cons, List.length_cons] at hs
    intro p hp
    rcases List.mem_cons.mp hp with h | h
    · subst h; exact hx.2 (by omega)
    · exact ih (fun q hq => hc q (List.mem_cons_of_mem _ hq)) (by omega) p h

theorem FanIn.Inv_init (capacity : Nat) (results : List QueryResult) :
    (FanIn.init capacity results).Inv := by
  refine ⟨rfl, by simp [FanIn.init], ?_, ?_, fun _ => rfl, fun h => by simp [FanIn.init] at h⟩
  · intro p hp
    simp only [FanIn.init, List.mem_map] at hp
    obtain ⟨r, _, rfl⟩ := hp
    exact ⟨rfl, rfl⟩
  · simp only [FanIn.init, FanIn.signals, List.map_map]
    induction results with
    | nil => rfl
    | cons r rs ih => simpa using ih

theorem consistent_set (l : List Producer) (i : Nat) (q : Producer)
    (hc : ∀ x ∈ l, x.consistent) (hq : q.consistent) : ∀ x ∈ l.set i q, x.consistent := by
  intro x hx
  rcases List.mem_or_eq_of_mem_set hx with h | h
  · exact hc x h
  · rw [h]; exact hq

theorem Inv_search (s s1 : FanIn) (i : Nat) (hinv : s.Inv)
    (h : s.step (Action.search i) = some s1) :
    s1.Inv ∧ s1.measure < s.measure ∧ s1.clusters = s.clusters ∧
      s1.producers.map (fun x => x.result) = s.producers.map (fun x => x.result) := by
  obtain ⟨i1, i2, i3, i4, i5, i6⟩ := hinv
  simp only [FanIn.step, i1, Bool.false_eq_true, if_false] at h
  cases hg : s.producers.get? i with
  | none => rw [hg] at h; cases h
  | some p =>
    rw [hg] at h
    simp only at h
    by_cases hpc : p.pc = ProducerPc.querying
    · rw [if_pos hpc] at h
      injection h with h
      subst h
      have hp := i3 p (List.get?_mem hg)
      unfold Producer.consistent at hp
      rw [hpc] at hp
      simp only at hp
      have hq : ({ p with pc := ProducerPc.forwarding p.result.records } : Producer).consistent := by
        unfold Producer.consistent
        simp only [hp.1, List.nil_append, hp.2, and_self]
      have hsig := sum_map_set (fun x => x.signalled) s.producers i p
        { p with pc := ProducerPc.forwarding p.result.records } hg
      have hw := sum_map_set Producer.weight s.producers i p
        { p with pc := ProducerPc.forwarding p.result.records } hg
      have hwp : p.weight = 2 * p.result.records.length + 3 := by
        unfold Producer.weight; rw [hpc]
      have hwq : ({ p with pc := ProducerPc.forwarding p.result.records } : Producer).weight
          = 2 * p.result.records.length + 2 := rfl
      refine ⟨⟨i1, ?_, consistent_set _ _ _ i3 hq, ?_, i5, i6⟩, ?_, rfl,
        map_result_set _ _ _ _ hg rfl⟩
      · simp only [FanIn.setProducer, List.length_set]; exact i2
      · simp only [FanIn.signals, FanIn.setProducer] at hsig ⊢
        simp only [FanIn.signals] at i4
        omega
      · simp only [FanIn.measure, FanIn.setProducer]
        omega
    · rw [if_neg hpc] at h; cases h

theorem all_finished_of_closed (s : FanIn) (hinv : s.Inv) (hc : s.closes > 0) :
    ∀ p ∈ s.producers, p.pc = ProducerPc.finished := by
  obtain ⟨_, i2, i3, i4, i5, i6⟩ := hinv
  have hd : s.closerDone = true := by
    cases hcd : s.closerDone with
    | true => rfl
    | false => have := i5 hcd; omega
  obtain ⟨_, h2⟩ := i6 hd
  apply all_signalled_of_sum s.producers i3
  simp only [FanIn.signals] at i4
  omega

theorem Inv_send (s : FanIn) (i : Nat) (p : Producer) (x : Bytes) (rest : List Bytes)
    (hinv : s.Inv) (hg : s.producers.get? i = some p)
    (hpc : p.pc = ProducerPc.forwarding (x :: rest)) :
    ¬ s.closes > 0 ∧
    ({ p with pc := ProducerPc.forwarding rest, sent := p.sent ++ [x] } : Producer).consistent ∧
    ((s.producers.set i { p with pc := ProducerPc.forwarding rest, sent := p.sent ++ [x] }).map
      Producer.weight).sum + 2 = (s.producers.map Producer.weight).sum ∧
    ((s.producers.set i { p with pc := ProducerPc.forwarding rest, sent := p.sent ++ [x] }).map
      fun q => q.signalled).sum = (s.producers.map fun q => q.signalled).sum := by
  have hmem := List.get?_mem hg
  refine ⟨?_, ?_, ?_, ?_⟩
  · intro hc
    have := all_finished_of_closed s hinv hc p hmem
    rw [hpc] at this
    cases this
  · have hp := hinv.2.2.1 p hmem
    unfold Producer.consistent at hp ⊢
    rw [hpc] at hp
    simp only at hp ⊢
    refine ⟨?_, hp.2⟩
    rw [← hp.1]
    simp
  · have hw := sum_map_set Producer.weight s.producers i p
      { p with pc := ProducerPc.forwarding rest, sent := p.sent ++ [x] } hg
    have hwp : p.weight = 2 * (x :: rest).length + 2 := by
      unfold Producer.weight; rw [hpc]
    have hwq : ({ p with pc := ProducerPc.forwarding rest, sent := p.sent ++ [x] } :
        Producer).weight = 2 * rest.length + 2 := rfl
    simp only [List.length_cons] at hwp
    omega
  · have hs := sum_map_set (fun q => q.signalled) s.producers i p
      { p with pc := ProducerPc.forwarding rest, sent := p.sent ++ [x] } hg
    simp only at hs
    omega

theorem Inv_forward (s s1 : FanIn) (i : Nat) (hinv : s.Inv)
    (h : s.step (Action.forward i) = some s1) :
    s1.Inv ∧ s1.measure < s.measure ∧ s1.clusters = s.clusters ∧
      s1.producers.map (fun x => x.result) = s.producers.map (fun x => x.result) := by
  have hinv0 := hinv
  obtain ⟨i1, i2, i3, i4, i5, i6⟩ := hinv
  simp only [FanIn.step, i1, Bool.false_eq_true, if_false] at h
  cases hg : s.producers.get? i with
  | none => rw [hg] at h; cases h
  | some p =>
    rw [hg] at h
    simp only at h
    cases hpc : p.pc with
    | querying => rw [hpc] at h; cases h
    | reporting => rw [hpc] at h; cases h
    | finished => rw [hpc] at h; cases h
    | forwarding l =>
      rw [hpc] at h
      cases l with
      | nil => cases h
      | cons x rest =>
        simp only at h
        obtain ⟨hnc, hq, hw, hsg⟩ := Inv_send s i p x rest hinv0 hg hpc
        rw [if_neg hnc] at h
        by_cases hcap : s.buffer.length < s.capacity
        · rw [if_pos hcap] at h
          injection h with h
          subst h
          refine ⟨⟨i1, ?_, consistent_set _ _ _ i3 hq, ?_, i5, i6⟩, ?_, rfl,
            map_result_set _ _ _ _ hg rfl⟩
          · simp only [FanIn.setProducer, List.length_set]; exact i2
          · simp only [FanIn.signals, FanIn.setProducer] at i4 ⊢
            omega
          · simp only [FanIn.measure, FanIn.setProducer, List.length_append, List.length_singleton]
            omega
        · rw [if_neg hcap] at h; cases h

theorem Inv_handoff (s s1 : FanIn) (i : Nat) (hinv : s.Inv)
    (h : s.step (Action.handoff i) = some s1) :
    s1.Inv ∧ s1.measure < s.measure ∧ s1.clusters = s.clusters ∧
      s1.producers.map (fun x => x.result) = s.producers.map (fun x => x.result) := by
  have hinv0 := hinv
  obtain ⟨i1, i2, i3, i4, i5, i6⟩ := hinv
  simp only [FanIn.step, i1, Bool.false_eq_true, if_false] at h
  cases hg : s.producers.get? i with
  | none => rw [hg] at h; cases h
  | some p =>
    rw [hg] at h
    simp only at h
    cases hpc : p.pc with
    | querying => rw [hpc] at h; cases h
    | reporting => rw [hpc] at h; cases h
    | finished => rw [hpc] at h; cases h
    | forwarding l =>
      rw [hpc] at h
      cases l with
      | nil => cases h
      | cons x rest =>
        simp only at h
        obtain ⟨hnc, hq, hw, hsg⟩ := Inv_send s i p x rest hinv0 hg hpc
        rw [if_neg hnc] at h
        by_cases hb : s.buffer = []
        · rw [if_pos hb] at h
          injection h with h
          subst h
          refine ⟨⟨i1, ?_, consistent_set _ _ _ i3 hq, ?_, i5, i6⟩, ?_, rfl,
            map_result_set _ _ _ _ hg rfl⟩
          · simp only [FanIn.setProducer, List.length_set]; exact i2
          · simp only [FanIn.signals, FanIn.setProducer] at i4 ⊢
            omega
          · simp only [FanIn.measure, FanIn.setProducer]
            omega
        · rw [if_neg hb] at h; cases h

theorem Inv_finish (s s1 : FanIn) (i : Nat) (hinv : s.Inv)
    (h : s.step (Action.finish i) = some s1) :
    s1.Inv ∧ s1.measure < s.measure ∧ s1.clusters = s.clusters ∧
      s1.producers.map (fun x => x.result) = s.producers.map (fun x => x.result) := by
  obtain ⟨i1, i2, i3, i4, i5, i6⟩ := hinv
  simp only [FanIn.step, i1, Bool.false_eq_true, if_false] at h
  cases hg : s.producers.get? i with
  | none => rw [hg] at h; cases h
  | some p =>
    rw [hg] at h
    simp only at h
    by_cases hpc : p.pc = ProducerPc.forwarding []
    · rw [if_pos hpc] at h
      injection h with h
      subst h
      have hp := i3 p (List.get?_mem hg)
      unfold Producer.consistent at hp
      rw [hpc] at hp
      simp only [List.append_nil] at hp
      have hq : ({ p with pc := ProducerPc.reporting } : Producer).consistent := by
        unfold Producer.consistent
        exact hp
      have hsig := sum_map_set (fun x => x.signalled) s.producers i p
        { p with pc := ProducerPc.reporting } hg
      have hw := sum_map_set Producer.weight s.producers i p
        { p with pc := ProducerPc.reporting } hg
      have hwp : p.weight = 2 := by
        unfold Producer.weight; rw [hpc]; rfl
      have hwq : ({ p with pc := ProducerPc.reporting } : Producer).weight = 1 := rfl
      refine ⟨⟨i1, ?_, consistent_set _ _ _ i3 hq, ?_, i5, i6⟩, ?_, rfl,
        map_result_set _ _ _ _ hg rfl⟩
      · simp only [FanIn.setProducer, List.length_set]; exact i2
      · simp only [FanIn.signals, FanIn.setProducer] at hsig i4 ⊢
        omega
      · simp only [FanIn.measure, FanIn.setProducer]
        omega
    · rw [if_neg hpc] at h; cases h

theorem Inv_signal (s s1 : FanIn) (i : Nat) (hinv : s.Inv)
    (h : s.step (Action.signal i) = some s1) :
    s1.Inv ∧ s1.measure < s.measure ∧ s1.clusters = s.clusters ∧
      s1.producers.map (fun x => x.result) = s.producers.map (fun x => x.result) := by
  obtain ⟨i1, i2, i3, i4, i5, i6⟩ := hinv
  simp only [FanIn.step, i1, Bool.false_eq_true, if_false] at h
  cases hg : s.producers.get? i with
  | none => rw [hg] at h; cases h
  | some p =>
    rw [hg] at h
    simp only at h
    by_cases hc : p.pc = ProducerPc.reporting ∧ s.closerDone = false ∧ s.counter < s.clusters
    · rw [if_pos hc] at h
      obtain ⟨hpc, hcd, hlt⟩ := hc
      injection h with h
      subst h
      have hp := i3 p (List.get?_mem hg)
      unfold Producer.consistent at hp
      rw [hpc] at hp
      simp only at hp
      have hq : ({ p with pc := ProducerPc.finished, signalled := p.signalled + 1 } :
          Producer).consistent := by
        unfold Producer.consistent
        simp only [hp.1, hp.2, and_self]
      have hsig := sum_map_set (fun x => x.signalled) s.producers i p
        { p with pc := ProducerPc.finished, signalled := p.signalled + 1 } hg
      have hw := sum_map_set Producer.weight s.producers i p
        { p with pc := ProducerPc.finished, signalled := p.signalled + 1 } hg
      have hwp : p.weight = 1 := by
        unfold Producer.weight; rw [hpc]
      have hwq : ({ p with pc := ProducerPc.finished, signalled := p.signalled + 1 } :
          Producer).weight = 0 := rfl
      refine ⟨⟨i1, ?_, consistent_set _ _ _ i3 hq, ?_, i5, ?_⟩, ?_, rfl,
        map_result_set _ _ _ _ hg rfl⟩
      · simp only [FanIn.setProducer, List.length_set]; exact i2
      · simp only [FanIn.signals, FanIn.setProducer] at hsig i4 ⊢
        omega
      · intro hd
        simp only [FanIn.setProducer] at hd
        rw [hcd] at hd
        cases hd
      · simp only [FanIn.measure, FanIn.setProducer]
        omega
    · rw [if_neg hc] at h; cases h

theorem signalled_sum_le (l : List Producer) (hc : ∀ p ∈ l, p.consistent) :
    (l.map fun p => p.signalled).sum ≤ l.length := by
  induction l with
  | nil => simp
  | cons x xs ih =>
    have hx := hc x (List.mem_cons_self _ _)
    have hx1 : x.signalled ≤ 1 := by
      unfold Producer.consistent at hx
      cases hpc : x.pc <;> rw [hpc] at hx <;> simp only at hx <;> omega
    have := ih (fun p hp => hc p (List.mem_cons_of_mem _ hp))
    simp only [List.map_cons, List.sum_cons, List.length_cons]
    omega

theorem Inv_close (s s1 : FanIn) (hinv : s.Inv) (h : s.step Action.close = some s1) :
    (s1.Inv ∧ s1.measure < s.measure ∧ s1.clusters = s.clusters ∧
      s1.producers.map (fun x => x.result) = s.producers.map (fun x => x.result)) ∧
    s.counter = s.clusters ∧ s.closes = 0 ∧ s1.closes = 1 := by
  obtain ⟨i1, i2, i3, i4, i5, i6⟩ := hinv
  simp only [FanIn.step, i1, Bool.false_eq_true, if_false] at h
  by_cases hc : s.closerDone = false ∧ ¬ s.counter < s.clusters
  · rw [if_pos hc] at h
    obtain ⟨hcd, hge⟩ := hc
    injection h with h
    subst h
    have h0 := i5 hcd
    have hle : s.counter ≤ s.clusters := by
      rw [i4, ← i2]
      exact signalled_sum_le s.producers i3
    have heq : s.counter = s.clusters := by omega
    refine ⟨⟨⟨rfl, i2, i3, i4, ?_, ?_⟩, ?_, rfl, rfl⟩, heq, h0, ?_⟩
    · intro hd; cases hd
    · intro _; exact ⟨by simp only [h0], heq⟩
    · simp only [FanIn.measure, hcd, Bool.false_eq_true, if_false, if_true]
      omega
    · simp only [h0]
  · rw [if_neg hc] at h; cases h

theorem Inv_receive (s s1 : FanIn) (hinv : s.Inv) (h : s.step Action.receive = some s1) :
    s1.Inv ∧ s1.measure < s.measure ∧ s1.clusters = s.clusters ∧
      s1.producers.map (fun x => x.result) = s.producers.map (fun x => x.result) := by
  obtain ⟨i1, i2, i3, i4, i5, i6⟩ := hinv
  simp only [FanIn.step, i1, Bool.false_eq_true, if_false] at h
  cases hb : s.buffer with
  | nil => rw [hb] at h; cases h
  | cons x rest =>
    rw [hb] at h
    simp only at h
    injection h with h
    subst h
    refine ⟨⟨rfl, i2, i3, i4, i5, i6⟩, ?_, rfl, rfl⟩
    simp only [FanIn.measure, hb, List.length_cons]
    omega

theorem Inv_step (s s1 : FanIn) (a : Action) (hinv : s.Inv) (h : s.step a = some s1) :
    s1.Inv ∧ s1.measure < s.measure ∧ s1.clusters = s.clusters ∧
      s1.producers.map (fun x => x.result) = s.producers.map (fun x => x.result) := by
  cases a with
  | search i => exact Inv_search s s1 i hinv h
  | forward i => exact Inv_forward s s1 i hinv h
  | handoff i => exact Inv_handoff s s1 i hinv h
  | finish i => exact Inv_finish s s1 i hinv h
  | signal i => exact Inv_signal s s1 i hinv h
  | close => exact (Inv_close s s1 hinv h).1
  | receive => exact Inv_receive s s1 hinv h

theorem Inv_run (s s1 : FanIn) (acts : List Action) (hinv : s.Inv)
    (h : s.run acts = some s1) :
    s1.Inv ∧ acts.length + s1.measure ≤ s.measure ∧ s1.clusters = s.clusters ∧
      s1.producers.map (fun x => x.result) = s.producers.map (fun x => x.result) := by
  induction acts generalizing s with
  | nil =>
    simp only [FanIn.run, Option.some.injEq] at h
    subst h
    exact ⟨hinv, by simp, rfl, rfl⟩
  | cons a rest ih =>
    simp only [FanIn.run] at h
    cases hs : s.step a with
    | none => rw [hs] at h; cases h
    | some s2 =>
      rw [hs] at h
      simp only [Option.some_bind] at h
      obtain ⟨j1, j2, j3, j4⟩ := Inv_step s s2 a hinv hs
      obtain ⟨k1, k2, k3, k4⟩ := ih s2 j1 h
      refine ⟨k1, ?_, k3.trans j3, k4.trans j4⟩
      simp only [List.length_cons]
      omega

theorem get?_of_mem_producers (l : List Producer) (p : Producer) (h : p ∈ l) :
    ∃ i, l.get? i = some p := by
  induction l with
  | nil => cases h
  | cons x xs ih =>
    rcases List.mem_cons.mp h with h1 | h1
    · exact ⟨0, by simp [h1]⟩
    · obtain ⟨i, hi⟩ := ih h1
      exact ⟨i + 1, by simpa using hi⟩

theorem quiescent_spec (s : FanIn) (hinv : s.Inv) (hq : ∀ a, s.step a = none) :
    s.closes = 1 ∧ s.counter = s.clusters ∧ s.buffer = [] ∧
      ∀ p ∈ s.producers, p.signalled = 1 ∧ p.sent = p.result.records := by
  have hinv0 := hinv
  obtain ⟨i1, i2, i3, i4, i5, i6⟩ := hinv
  have hbuf : s.buffer = [] := by
    have h := hq Action.receive
    simp only [FanIn.step, i1, Bool.false_eq_true, if_false] at h
    cases hb : s.buffer with
    | nil => rfl
    | cons x rest => rw [hb] at h; cases h
  have hclose : ¬ (s.closerDone = false ∧ ¬ s.counter < s.clusters) := by
    intro hc
    have h := hq Action.close
    simp only [FanIn.step, i1, Bool.false_eq_true, if_false] at h
    rw [if_pos hc] at h
    cases h
  have hfin : ∀ p ∈ s.producers, p.pc = ProducerPc.finished := by
    intro p hp
    obtain ⟨i, hg⟩ := get?_of_mem_producers _ _ hp
    cases hpc : p.pc with
    | finished => rfl
    | querying =>
      have h := hq (Action.search i)
      simp only [FanIn.step, i1, Bool.false_eq_true, if_false, hg, hpc, if_true] at h
      cases h
    | forwarding l =>
      cases l with
      | nil =>
        have h := hq (Action.finish i)
        simp only [FanIn.step, i1, Bool.false_eq_true, if_false, hg, hpc, if_true] at h
        cases h
      | cons x rest =>
        have h := hq (Action.handoff i)
        simp only [FanIn.step, i1, Bool.false_eq_true, if_false, hg, hpc, hbuf, if_true] at h
        split at h <;> cases h
    | reporting =>
      exfalso
      have h := hq (Action.signal i)
      simp only [FanIn.step, i1, Bool.false_eq_true, if_false, hg, hpc, true_and] at h
      by_cases hc : s.closerDone = false ∧ s.counter < s.clusters
      · rw [if_pos hc] at h; cases h
      · by_cases hd : s.closerDone = false
        · exact hclose ⟨hd, fun hlt => hc ⟨hd, hlt⟩⟩
        · have hd' : s.closerDone = true := by
            cases hcd : s.closerDone with
            | true => rfl
            | false => exact absurd hcd hd
          have hall := all_finished_of_closed s hinv0 (by have := (i6 hd').1; omega) p hp
          rw [hpc] at hall
          cases hall
  have hsig : ∀ p ∈ s.producers, p.signalled = 1 ∧ p.sent = p.result.records := by
    intro p hp
    have hc := i3 p hp
    unfold Producer.consistent at hc
    rw [hfin p hp] at hc
    exact ⟨hc.2, hc.1⟩
  have hsum : s.signals = s.producers.length := by
    simp only [FanIn.signals]
    have : ∀ l : List Producer, (∀ p ∈ l, p.signalled = 1) →
        (l.map fun p => p.signalled).sum = l.length := by
      intro l
      induction l with
      | nil => intro _; rfl
      | cons x xs ih =>
        intro hl
        have hx := hl x (List.mem_cons_self _ _)
        have := ih (fun p hp => hl p (List.mem_cons_of_mem _ hp))
        simp only [List.map_cons, List.sum_cons, List.length_cons]
        omega
    exact this _ (fun p hp => (hsig p hp).1)
  have hcount : s.counter = s.clusters := by rw [i4, hsum, i2]
  have hd : s.closerDone = true := by
    cases hcd : s.closerDone with
    | true => rfl
    | false => exact absurd ⟨hcd, by omega⟩ hclose
  exact ⟨(i6 hd).1, hcount, hbuf, hsig⟩

/-- C6. In the transition system of `Subscribe2Elasticsearch` with one producer
per configured cluster, whatever each search returns (hits, none, an error) and
whatever the interleaving: no producer sends on `c.done` more than once, and one
that has sent has forwarded all its records before; the closer's counter is the
number of signals sent; `close(c.messages)` is executed at most once, is enabled
only when the counter equals the number of clusters, and no send on the closed
channel happens; every run is finite, and a run that cannot be continued ends
with exactly one signal from every producer and the channel closed exactly once. -/
theorem one_signal_per_producer_one_close (capacity : Nat) (results : List QueryResult)
    (acts : List Action) (s : FanIn) (h : (FanIn.init capacity results).run acts = some s) :
    s.panicked = false ∧
    s.producers.map (fun p => p.result) = results ∧
    (∀ p ∈ s.producers, p.signalled ≤ 1 ∧ (p.signalled = 1 → p.sent = p.result.records)) ∧
    s.counter = s.signals ∧
    s.closes ≤ 1 ∧ (s.closes = 1 → s.counter = results.length) ∧
    (∀ s1, s.step Action.close = some s1 →
      s.counter = results.length ∧ s.closes = 0 ∧ s1.closes = 1) ∧
    ((∀ a, s.step a = none) →
      s.closes = 1 ∧ s.counter = results.length ∧ s.buffer = [] ∧
        ∀ p ∈ s.producers, p.signalled = 1 ∧ p.sent = p.result.records) ∧
    acts.length + s.measure ≤ (FanIn.init capacity results).measure := by
  obtain ⟨hinv, hm, hc, hr⟩ := Inv_run _ s acts (FanIn.Inv_init capacity results) h
  have hcl : s.clusters = results.length := by rw [hc]; rfl
  have hres : s.producers.map (fun p => p.result) = results := by
    rw [hr]
    simp only [FanIn.init, List.map_map]
    have hid : ((fun x : Producer => x.result) ∘
        fun r => ({ result := r, pc := ProducerPc.querying, sent := [], signalled := 0 } :
          Producer)) = id := rfl
    rw [hid, List.map_id]
  have hinv0 := hinv
  obtain ⟨i1, i2, i3, i4, i5, i6⟩ := hinv
  refine ⟨i1, hres, ?_, i4, ?_, ?_, ?_, ?_, hm⟩
  · intro p hp
    have hcp := i3 p hp
    unfold Producer.consistent at hcp
    cases hpc : p.pc with
    | querying => rw [hpc] at hcp; simp only at hcp; exact ⟨by omega, fun h1 => by omega⟩
    | forwarding rest => rw [hpc] at hcp; simp only at hcp; exact ⟨by omega, fun h1 => by omega⟩
    | reporting => rw [hpc] at hcp; simp only at hcp; exact ⟨by omega, fun _ => hcp.1⟩
    | finished => rw [hpc] at hcp; simp only at hcp; exact ⟨by omega, fun _ => hcp.1⟩
  · cases hcd : s.closerDone with
    | false => have := i5 hcd; omega
    | true => have := (i6 hcd).1; omega
  · intro h1
    cases hcd : s.closerDone with
    | false => have := i5 hcd; omega
    | true => rw [(i6 hcd).2, hcl]
  · intro s1 hs1
    obtain ⟨_, c1, c2, c3⟩ := Inv_close s s1 hinv0 hs1
    exact ⟨by rw [c1, hcl], c2, c3⟩
  · intro hq
    obtain ⟨q1, q2, q3, q4⟩ := quiescent_spec s hinv0 hq
    exact ⟨q1, by rw [q2, hcl], q3, q4⟩

theorem one_signal_per_producer_one_close_witness :
    ∃ s, (FanIn.init 1 [QueryResult.failed "e", QueryResult.hits 1 [some [1]]]).run
        [Action.search 0, Action.finish 0, Action.search 1, Action.forward 1, Action.signal 0,
          Action.receive, Action.finish 1, Action.signal 1, Action.close] = some s ∧
      s.panicked = false ∧ s.closes ≤ 1 ∧ s.counter = s.signals := by
  have hrun : ((FanIn.init 1 [QueryResult.failed "e", QueryResult.hits 1 [some [1]]]).run
      [Action.search 0, Action.finish 0, Action.search 1, Action.forward 1, Action.signal 0,
        Action.receive, Action.finish 1, Action.signal 1, Action.close]).isSome = true := by
    decide
  obtain ⟨s, hs⟩ := Option.isSome_iff_exists.mp hrun
  have hthm := one_signal_per_producer_one_close 1
    [QueryResult.failed "e", QueryResult.hits 1 [some [1]]] _ s hs
  exact ⟨s, hs, hthm.1, hthm.2.2.2.2.1, hthm.2.2.2.1⟩

/-! ## ExtractString -/

theorem hasPrefix_iff (s sep : Bytes) : hasPrefix s sep = true ↔ ∃ post, s = sep ++ post := by
  induction s generalizing sep with
  | nil =>
    cases sep with
    | nil => simp [hasPrefix]
    | cons b sep => simp [hasPrefix]
  | cons a s ih =>
    cases sep with
    | nil => simp [hasPrefix]
    | cons b sep =>
      simp only [hasPrefix, Bool.and_eq_true, decide_eq_true_eq, ih, List.cons_append,
        List.cons.injEq]
      constructor
      · rintro ⟨h, post, hp⟩
        exact ⟨post, h, hp⟩
      · rintro ⟨post, h, hp⟩
        exact ⟨h, post, hp⟩

theorem bytesIndex_of_not_occurs (s sep : Bytes) (h : ¬ Occurs sep s) : bytesIndex s sep = -1 := by
  induction s with
  | nil =>
    have hs : sep ≠ [] := by
      intro e
      exact h ⟨[], [], by simp [e]⟩
    simp [bytesIndex, hs]
  | cons a s ih =>
    have hp : ¬ hasPrefix (a :: s) sep = true := by
      rw [hasPrefix_iff]
      rintro ⟨post, e⟩
      exact h ⟨[], post, by simpa using e⟩
    have hr : bytesIndex s sep = -1 := by
      apply ih
      rintro ⟨pre, post, e⟩
      exact h ⟨a :: pre, post, by simp [e]⟩
    simp [bytesIndex, hp, hr]

theorem bytesIndex_of_firstAt (sep : Bytes) (pre post b : Bytes) (h : FirstAt sep b pre post) :
    bytesIndex b sep = pre.length := by
  induction pre generalizing b with
  | nil =>
    obtain ⟨e, _⟩ := h
    cases b with
    | nil =>
      have hs : sep = [] := by
        cases sep with
        | nil => rfl
        | cons x xs => simp at e
      simp [bytesIndex, hs]
    | cons a s =>
      have hp : hasPrefix (a :: s) sep = true := by
        rw [hasPrefix_iff]
        exact ⟨post, by simpa using e⟩
      simp [bytesIndex, hp]
  | cons a pre ih =>
    obtain ⟨e, hfirst⟩ := h
    subst e
    have hp : ¬ hasPrefix (a :: pre ++ sep ++ post) sep = true := by
      rw [hasPrefix_iff]
      rintro ⟨q, e⟩
      have := hfirst [] q (by simpa using e)
      simp at this
    have hr : bytesIndex (pre ++ sep ++ post) sep = pre.length := by
      apply ih
      refine ⟨rfl, ?_⟩
      intro p q e
      have := hfirst (a :: p) q (by simp [e])
      simpa using this
    have hne : ¬ ((pre.length : Int) = -1) := by omega
    have hstep : bytesIndex (a :: (pre ++ sep ++ post)) sep
        = if bytesIndex (pre ++ sep ++ post) sep = -1 then -1
          else bytesIndex (pre ++ sep ++ post) sep + 1 := by
      rw [bytesIndex]
      simp only [List.cons_append] at hp
      simp only [hp, if_false, Bool.false_eq_true]
    rw [List.cons_append, List.cons_append, hstep, hr, if_neg hne, List.length_cons]
    push_cast
    rfl

theorem bytesIndex_le_of_occurs (b sep p q : Bytes) (h : b = p ++ sep ++ q) :
    bytesIndex b sep ≤ p.length := by
  induction b generalizing p with
  | nil =>
    simp only [bytesIndex]
    split <;> omega
  | cons a s ih =>
    by_cases hp : hasPrefix (a :: s) sep = true
    · simp only [bytesIndex, hp, if_true]
      omega
    · cases p with
      | nil =>
        exact absurd ((hasPrefix_iff _ _).2 ⟨q, by simpa using h⟩) hp
      | cons x p =>
        have hs : s = p ++ sep ++ q := by
          simp only [List.cons_append, List.cons.injEq] at h
          exact h.2
        have := ih p hs
        simp only [bytesIndex, hp, if_false, List.length_cons, Bool.false_eq_true]
        push_cast
        split <;> omega

theorem indexByte_of_not_mem (post : Bytes) (c : UInt8) (h : c ∉ post) : indexByte post c = -1 := by
  induction post with
  | nil => rfl
  | cons a post ih =>
    have h1 : ¬ a = c := fun e => h (by simp [e])
    have h2 : indexByte post c = -1 := ih fun m => h (List.mem_cons_of_mem _ m)
    simp [indexByte, h1, h2]

theorem indexByte_of_first (val rest : Bytes) (c : UInt8) (h : c ∉ val) :
    indexByte (val ++ c :: rest) c = val.length := by
  induction val with
  | nil => simp [indexByte]
  | cons a val ih =>
    have h1 : ¬ a = c := fun e => h (by simp [e])
    have h2 : indexByte (val ++ c :: rest) c = val.length := ih fun m => h (List.mem_cons_of_mem _ m)
    have hne : ¬ ((val.length : Int) = -1) := by omega
    have hstep : indexByte (a :: (val ++ c :: rest)) c
        = if indexByte (val ++ c :: rest) c = -1 then -1 else indexByte (val ++ c :: rest) c + 1 := by
      rw [indexByte]
      simp only [h1, if_false]
    rw [List.cons_append, hstep, h2, if_neg hne, List.length_cons]
    push_cast
    rfl

theorem goSlice_middle (x y z : Bytes) (lo hi : Int) (hlo : lo = x.length)
    (hhi : hi = x.length + y.length) : goSlice (x ++ y ++ z) lo hi = some y := by
  subst hlo hhi
  have hc : (0 : Int) ≤ x.length ∧ (x.length : Int) ≤ x.length + y.length ∧
      (x.length : Int) + y.length ≤ (x ++ y ++ z).length := by
    simp only [List.length_append]
    push_cast
    omega
  have h1 : ((x.length : Int) + y.length - x.length).toNat = y.length := by omega
  rw [goSlice, if_pos hc, h1, Int.toNat_ofNat, List.append_assoc, List.drop_left, List.take_left]

theorem goSlice_of_lt (b : Bytes) (lo hi : Int) (h : hi < lo) : goSlice b lo hi = none := by
  have hc : ¬ (0 ≤ lo ∧ lo ≤ hi ∧ hi ≤ b.length) := by omega
  simp [goSlice, hc]

/-- A first occurrence of the key pattern that no double quote follows makes
the final slice expression of `ExtractString` run from `ind` to `ind - 1`. -/
theorem ExtractString_of_no_quote (f : String) (b pre post : Bytes)
    (h : FirstAt (keyPattern f) b pre post) (hq : (34 : UInt8) ∉ post) :
    ExtractString f b = none := by
  have hi := bytesIndex_of_firstAt _ _ _ _ h
  obtain ⟨e, _⟩ := h
  have hne : ¬ ((pre.length : Int) = -1) := by omega
  have hs : goSlice b ((pre.length : Int) + (keyPattern f).length) b.length = some post := by
    have := goSlice_middle (pre ++ keyPattern f) post [] ((pre.length : Int) + (keyPattern f).length)
      b.length (by simp) (by rw [e]; simp only [List.length_append]; push_cast; ring)
    simpa [e] using this
  unfold keyPattern at hi hs
  simp only [ExtractString, hi, hne, if_false, hs, Option.some_bind, indexByte_of_not_mem post 34 hq]
  exact goSlice_of_lt _ _ _ (by omega)

/-- C16. For every field name `f` and byte array `b`: when the pattern
`"f":"` does not occur in `b`, `ExtractString f b` returns the empty string; and
when its first occurrence is followed by the bytes `val`, free of double quotes,
and then a double quote, `ExtractString f b` returns exactly `val`, whatever
bytes `rest` come after that double quote. -/
theorem ExtractString_first_occurrence (f : String) (b : Bytes) :
    (¬ Occurs (keyPattern f) b → ExtractString f b = some []) ∧
    ∀ pre val rest, FirstAt (keyPattern f) b pre (val ++ 34 :: rest) → (34 : UInt8) ∉ val →
      ExtractString f b = some val := by
  constructor
  · intro h
    have hi := bytesIndex_of_not_occurs _ _ h
    unfold keyPattern at hi
    simp [ExtractString, hi]
  · intro pre val rest h hq
    have hi := bytesIndex_of_firstAt _ _ _ _ h
    obtain ⟨e, _⟩ := h
    have hne : ¬ ((pre.length : Int) = -1) := by omega
    have hs : goSlice b ((pre.length : Int) + (keyPattern f).length) b.length
        = some (val ++ 34 :: rest) := by
      have := goSlice_middle (pre ++ keyPattern f) (val ++ 34 :: rest) []
        ((pre.length : Int) + (keyPattern f).length) b.length (by simp) (by rw [e]; simp only [List.length_append]; push_cast; ring)
      simpa [e] using this
    have hv : goSlice b ((pre.length : Int) + (keyPattern f).length)
        ((pre.length : Int) + (keyPattern f).length + val.length) = some val := by
      have := goSlice_middle (pre ++ keyPattern f) val (34 :: rest)
        ((pre.length : Int) + (keyPattern f).length)
        ((pre.length : Int) + (keyPattern f).length + val.length) (by simp) (by simp)
      simpa [e] using this
    unfold keyPattern at hi hs hv
    simp only [ExtractString, hi, hne, if_false, hs, Option.some_bind,
      indexByte_of_first val rest 34 hq, hv]

theorem ExtractString_first_occurrence_witness :
    ¬ Occurs (keyPattern "app") (utf8 "abc") ∧
    FirstAt (keyPattern "app") (utf8 "\x7b\"app\":\"svc\",\"x\":\"y\"\x7d") (utf8 "\x7b")
      (utf8 "svc" ++ 34 :: utf8 ",\"x\":\"y\"\x7d") ∧
    ExtractString "app" (utf8 "abc") = some [] ∧
    ExtractString "app" (utf8 "\x7b\"app\":\"svc\",\"x\":\"y\"\x7d") = some (utf8 "svc") := by
  have h1 : ¬ Occurs (keyPattern "app") (utf8 "abc") := by
    rintro ⟨pre, post, e⟩
    have hl := congrArg List.length e
    have h3 : (utf8 "abc").length = 3 := by decide
    have h7 : (keyPattern "app").length = 7 := by decide
    simp only [List.length_append, h3, h7] at hl
    omega
  have h2 : FirstAt (keyPattern "app") (utf8 "\x7b\"app\":\"svc\",\"x\":\"y\"\x7d") (utf8 "\x7b")
      (utf8 "svc" ++ 34 :: utf8 ",\"x\":\"y\"\x7d") := by
    refine ⟨by decide, ?_⟩
    intro p q e
    have h := bytesIndex_le_of_occurs _ _ p q e
    have hv : bytesIndex (utf8 "\x7b\"app\":\"svc\",\"x\":\"y\"\x7d") (keyPattern "app") = 1 := by
      decide
    have hl : (utf8 "\x7b").length = 1 := by decide
    rw [hv] at h
    rw [hl]
    exact_mod_cast h
  exact ⟨h1, h2, (ExtractString_first_occurrence "app" _).1 h1,
    (ExtractString_first_occurrence "app" _).2 _ _ _ h2 (by decide)⟩

/-- C17 (failing input). On the truncated record `{"app":"svc`, whose key
pattern is followed by no double quote, `bytes.IndexByte` returns -1 and the
slice `byteArr[ind:ind-1]` is out of range: `ExtractString` returns no string,
and the loop of `StartConsuming` ends by this panic on its first record. The
result of `bytes.Index` two lines earlier is compared with -1. -/
theorem ExtractString_truncated_record :
    FirstAt (keyPattern "app") (utf8 "\x7b\"app\":\"svc") (utf8 "\x7b") (utf8 "svc") ∧
    (34 : UInt8) ∉ utf8 "svc" ∧
    ExtractString "app" (utf8 "\x7b\"app\":\"svc") = none ∧
    consumeAll ServerState.init [utf8 "\x7b\"app\":\"svc"] = (ServerState.init, true) ∧
    ExtractString "app" (utf8 "\x7b\"ap") = some [] := by
  refine ⟨⟨by decide, ?_⟩, by decide, by decide, by decide, by decide⟩
  intro p q e
  have h := bytesIndex_le_of_occurs _ _ p q e
  have hv : bytesIndex (utf8 "\x7b\"app\":\"svc") (keyPattern "app") = 1 := by decide
  have hl : (utf8 "\x7b").length = 1 := by decide
  rw [hv] at h
  rw [hl]
  exact_mod_cast h
/-! ## Filters pushed down in historical mode -/

theorem goLen_pos_decide (s : String) : decide (goLen s > 0) = decide (s ≠ "") := by
  by_cases h : s = ""
  · subst h
    rfl
  · have := (goLen_pos_iff s).2 h
    simp [h, this]

theorem filterEvent_of_unset (c : ctailclient) (m : JObj) (h1 : c.podsfilter = [])
    (h2 : c.clustersfilter = []) (h3 : c.env = "") (h4 : c.rev = "") (h5 : c.podid = "") :
    filterEvent c m = some true := by
  simp [filterEvent, filterBlock, h1, h2, h3, h4, h5, goLen_pos_decide]

theorem historyClient_esfilters (service pods clusters podid env rev elasticClusters indices
    timeOffset : String) (maxMessages : Int) :
    (historyClient service pods clusters podid env rev elasticClusters indices maxMessages
        timeOffset).esfilters
      = (if podid = "" then [] else [("kubernetes.pod_id.keyword", EsTerm.one podid)]) ++
        (if rev = "" then [] else [("kubernetes.labels.version.keyword", EsTerm.one rev)]) ++
        (if env = "" then [] else [("kubernetes.labels.environment.keyword", EsTerm.one env)]) ++
        (if clusters = "" then []
          else [("kubernetes.labels.kubeCluster.keyword", EsTerm.many (splitCommas clusters))]) ++
        (if pods = "" then []
          else [("kubernetes.pod_name.keyword", EsTerm.many (splitCommas pods))]) := by
  have g1 : ∀ s : String, ¬ s = "" → 0 < goLen s := fun s h => (goLen_pos_iff s).2 h
  have g2 : goLen "" = 0 := rfl
  by_cases h1 : pods = "" <;> by_cases h2 : clusters = "" <;> by_cases h3 : env = "" <;>
      by_cases h4 : rev = "" <;> by_cases h5 : podid = "" <;>
      simp [historyClient, SetHistoryParams, SetFilters, NewCtailClient, esSet, h1, h2, h3, h4, h5,
        g1, g2]

theorem liveClient_fields (service pods clusters podid env rev : String) :
    (liveClient service pods clusters podid env rev).esfilters = [] ∧
    (liveClient service pods clusters podid env rev).podsfilter
      = (if pods = "" then [] else splitCommas pods) ∧
    (liveClient service pods clusters podid env rev).clustersfilter
      = (if clusters = "" then [] else splitCommas clusters) ∧
    (liveClient service pods clusters podid env rev).env = env ∧
    (liveClient service pods clusters podid env rev).rev = rev ∧
    (liveClient service pods clusters podid env rev).podid = podid := by
  by_cases h1 : pods = "" <;> by_cases h2 : clusters = "" <;>
    simp [liveClient, SetFilters, NewCtailClient, h1, h2]

theorem intercalate_cons_cons {α : Type} (sep x y : List α) (l : List (List α)) :
    List.intercalate sep (x :: y :: l) = x ++ sep ++ List.intercalate sep (y :: l) := by
  simp [List.intercalate, List.intersperse]

theorem splitAux_ne_nil (cs cur : List Char) : splitAux cs cur ≠ [] := by
  induction cs generalizing cur with
  | nil => simp [splitAux]
  | cons c cs ih =>
    unfold splitAux
    split
    · simp
    · exact ih _

theorem splitAux_spec (cs cur : List Char) (hcur : ',' ∉ cur) :
    (∀ p ∈ splitAux cs cur, ',' ∉ p.data) ∧
    (splitAux cs cur).length = cs.count ',' + 1 ∧
    List.intercalate [','] ((splitAux cs cur).map String.data) = cur.reverse ++ cs := by
  induction cs generalizing cur with
  | nil =>
    refine ⟨?_, by simp [splitAux], by simp [splitAux, List.intercalate]⟩
    intro p hp
    simp only [splitAux, List.mem_singleton] at hp
    subst hp
    simpa using hcur
  | cons c cs ih =>
    by_cases hc : c = ','
    · subst hc
      obtain ⟨i1, i2, i3⟩ := ih [] (by simp)
      have hs : splitAux (',' :: cs) cur = String.mk cur.reverse :: splitAux cs [] := by
        simp [splitAux]
      rw [hs]
      refine ⟨?_, ?_, ?_⟩
      · intro p hp
        rcases List.mem_cons.1 hp with h | h
        · subst h
          simpa using hcur
        · exact i1 p h
      · simp [i2]
      · cases hrest : splitAux cs [] with
        | nil => exact absurd hrest (splitAux_ne_nil cs [])
        | cons y l =>
          rw [hrest] at i3
          simp only [List.map_cons] at i3 ⊢
          rw [intercalate_cons_cons, i3]
          simp
    · have hs : splitAux (c :: cs) cur = splitAux cs (c :: cur) := by
        simp [splitAux, hc]
      have hcur2 : ',' ∉ c :: cur := by
        simp only [List.mem_cons, not_or]
        exact ⟨fun h => hc h.symm, hcur⟩
      obtain ⟨i1, i2, i3⟩ := ih (c :: cur) hcur2
      rw [hs]
      refine ⟨i1, ?_, ?_⟩
      · rw [i2]
        simp [List.count_cons, hc]
      · rw [i3]
        simp

theorem data_intercalate (sep : String) (l : List String) :
    (sep.intercalate l).data = List.intercalate sep.data (l.map String.data) := by
  cases l with
  | nil => rfl
  | cons a as =>
    have key : ∀ (acc : String) (xs : List String),
        (String.intercalate.go acc sep xs).data =
          acc.data ++ (xs.flatMap fun x => sep.data ++ x.data) := by
      intro acc xs
      induction xs generalizing acc with
      | nil => simp [String.intercalate.go]
      | cons x xs ih =>
        simp only [String.intercalate.go, ih, String.data_append, List.flatMap_cons,
          List.append_assoc]
    have h2 : ∀ (x : List Char) (xs : List (List Char)),
        List.intercalate sep.data (x :: xs) = x ++ (xs.flatMap fun y => sep.data ++ y) := by
      intro x xs
      induction xs generalizing x with
      | nil => simp [List.intercalate]
      | cons y ys ih =>
        rw [intercalate_cons_cons, ih]
        simp
    simp only [String.intercalate, key, List.map_cons, h2, List.flatMap_map]

theorem splitCommas_spec (s : String) :
    (∀ p ∈ splitCommas s, ',' ∉ p.data) ∧
    (splitCommas s).length = s.data.count ',' + 1 ∧
    ",".intercalate (splitCommas s) = s := by
  obtain ⟨h1, h2, h3⟩ := splitAux_spec s.data [] (by simp)
  refine ⟨h1, h2, ?_⟩
  apply String.ext
  rw [data_intercalate]
  simpa using h3

/-- C12. For every argument tuple: the client configured for historical mode
has in `esfilters` an entry for exactly the non-empty arguments (pods and
clusters split on commas; env, rev and podid as they are) under the five
keyword keys and no other key, its five client-side predicates are unset, and
its `filterEvent` accepts every record; the client configured for live mode has
an empty `esfilters` and carries the predicates itself.  Splitting on commas is
pinned down: the pieces of `s` contain no comma, there is one more piece than
there are commas in `s`, and joining the pieces with commas gives `s` back. -/
theorem history_pushes_filters_down (service pods clusters podid env rev elasticClusters indices
    timeOffset : String) (maxMessages : Int) :
    (historyClient service pods clusters podid env rev elasticClusters indices maxMessages
        timeOffset).esfilters.lookup "kubernetes.pod_name.keyword"
      = esEntry pods (EsTerm.many (splitCommas pods)) ∧
    (historyClient service pods clusters podid env rev elasticClusters indices maxMessages
        timeOffset).esfilters.lookup "kubernetes.labels.kubeCluster.keyword"
      = esEntry clusters (EsTerm.many (splitCommas clusters)) ∧
    (historyClient service pods clusters podid env rev elasticClusters indices maxMessages
        timeOffset).esfilters.lookup "kubernetes.labels.environment.keyword"
      = esEntry env (EsTerm.one env) ∧
    (historyClient service pods clusters podid env rev elasticClusters indices maxMessages
        timeOffset).esfilters.lookup "kubernetes.labels.version.keyword"
      = esEntry rev (EsTerm.one rev) ∧
    (historyClient service pods clusters podid env rev elasticClusters indices maxMessages
        timeOffset).esfilters.lookup "kubernetes.pod_id.keyword"
      = esEntry podid (EsTerm.one podid) ∧
    (∀ k, k ∈ (historyClient service pods clusters podid env rev elasticClusters indices
        maxMessages timeOffset).esfilters.map Prod.fst →
      k ∈ ["kubernetes.pod_name.keyword", "kubernetes.labels.kubeCluster.keyword",
        "kubernetes.labels.environment.keyword", "kubernetes.labels.version.keyword",
        "kubernetes.pod_id.keyword"]) ∧
    (historyClient service pods clusters podid env rev elasticClusters indices maxMessages
        timeOffset).podsfilter = [] ∧
    (historyClient service pods clusters podid env rev elasticClusters indices maxMessages
        timeOffset).clustersfilter = [] ∧
    (historyClient service pods clusters podid env rev elasticClusters indices maxMessages
        timeOffset).env = "" ∧
    (historyClient service pods clusters podid env rev elasticClusters indices maxMessages
        timeOffset).rev = "" ∧
    (historyClient service pods clusters podid env rev elasticClusters indices maxMessages
        timeOffset).podid = "" ∧
    (∀ m, filterEvent (historyClient service pods clusters podid env rev elasticClusters indices
        maxMessages timeOffset) m = some true) ∧
    (∀ s : String, (∀ p ∈ splitCommas s, ',' ∉ p.data) ∧
      (splitCommas s).length = s.data.count ',' + 1 ∧ ",".intercalate (splitCommas s) = s) ∧
    (liveClient service pods clusters podid env rev).esfilters = [] ∧
    (liveClient service pods clusters podid env rev).podsfilter
      = (if pods = "" then [] else splitCommas pods) ∧
    (liveClient service pods clusters podid env rev).clustersfilter
      = (if clusters = "" then [] else splitCommas clusters) ∧
    (liveClient service pods clusters podid env rev).env = env ∧
    (liveClient service pods clusters podid env rev).rev = rev ∧
    (liveClient service pods clusters podid env rev).podid = podid := by
  have g1 : ∀ s : String, ¬ s = "" → 0 < goLen s := fun s h => (goLen_pos_iff s).2 h
  have g2 : goLen "" = 0 := rfl
  have hu : (historyClient service pods clusters podid env rev elasticClusters indices maxMessages
        timeOffset).podsfilter = [] ∧
    (historyClient service pods clusters podid env rev elasticClusters indices maxMessages
        timeOffset).clustersfilter = [] ∧
    (historyClient service pods clusters podid env rev elasticClusters indices maxMessages
        timeOffset).env = "" ∧
    (historyClient service pods clusters podid env rev elasticClusters indices maxMessages
        timeOffset).rev = "" ∧
    (historyClient service pods clusters podid env rev elasticClusters indices maxMessages
        timeOffset).podid = "" := by
    by_cases h1 : pods = "" <;> by_cases h2 : clusters = "" <;> by_cases h3 : env = "" <;>
      by_cases h4 : rev = "" <;> by_cases h5 : podid = "" <;>
      simp [historyClient, SetHistoryParams, SetFilters, NewCtailClient, h1, h2, h3, h4, h5, g1, g2]
  refine ⟨?_, ?_, ?_, ?_, ?_, ?_, hu.1, hu.2.1, hu.2.2.1, hu.2.2.2.1, hu.2.2.2.2,
    fun m => filterEvent_of_unset _ m hu.1 hu.2.1 hu.2.2.1 hu.2.2.2.1 hu.2.2.2.2,
    splitCommas_spec, liveClient_fields service pods clusters podid env rev⟩
  all_goals
    rw [historyClient_esfilters]
    by_cases h1 : pods = "" <;> by_cases h2 : clusters = "" <;> by_cases h3 : env = "" <;>
      by_cases h4 : rev = "" <;> by_cases h5 : podid = "" <;>
      simp [esEntry, List.lookup, h1, h2, h3, h4, h5]
/-! ## IsEvent and the filter of the consume loop -/

theorem strInterfaceIncluded_strings (xs : List String) (v : String) :
    strInterfaceIncluded (xs.map JVal.str) v = some (decide (v ∈ xs)) := by
  induction xs with
  | nil => simp [strInterfaceIncluded]
  | cons x xs ih =>
    by_cases h : x = v
    · simp [strInterfaceIncluded, JVal.assertStr, h]
    · have h2 : ¬ v = x := fun e => h e.symm
      simp [strInterfaceIncluded, JVal.assertStr, h, h2, ih]

theorem IsEvent_of_shape (m : JObj) (h : TagsShape m) :
    ∃ ev, IsEvent m = some ev ∧ (ev = true ↔ HasEventTag m) := by
  cases hl : m.lookup "tags" with
  | none =>
    refine ⟨false, by simp [IsEvent, hl], ?_⟩
    constructor
    · intro e
      cases e
    · rintro ⟨xs, e, _⟩
      rw [hl] at e
      cases e
  | some v =>
    obtain ⟨xs, rfl⟩ := h v hl
    refine ⟨decide ("EVENT" ∈ xs), ?_, ?_⟩
    · simp only [IsEvent, hl, JVal.assertArr, Option.some_bind, strInterfaceIncluded_strings]
    · rw [decide_eq_true_eq]
      constructor
      · intro hm
        exact ⟨_, hl, List.mem_map_of_mem _ hm⟩
      · rintro ⟨ys, e, hm⟩
        rw [hl] at e
        cases e
        obtain ⟨s, hs, e⟩ := List.mem_map.1 hm
        cases e
        exact hs

theorem retained_some_true_iff (c : ctailclient) (isEvents : Bool) (m : JObj) :
    retained c isEvents (some m) = some true ↔
      filterEvent c m = some true ∧ (c.history = true ∨ IsEvent m = some isEvents) := by
  cases hh : c.history with
  | true =>
    cases hf : filterEvent c m with
    | none => simp [retained, hh, hf]
    | some b => simp [retained, hh, hf]
  | false =>
    cases he : IsEvent m with
    | none => simp [retained, hh, he]
    | some ev =>
      cases hf : filterEvent c m with
      | none => cases ev <;> cases isEvents <;> simp [retained, hh, he, hf]
      | some b => cases ev <;> cases isEvents <;> simp [retained, hh, he, hf]

/-- C13. For every record whose `tags` value, when present, is a list of
strings: `IsEvent` returns a boolean, true exactly when the record has a `tags`
list containing `"EVENT"`; and the filter of the consume loop lets a record
through to the printing steps exactly when it parsed to a non-nil object,
`filterEvent` accepts it, and the client is in historical mode or `IsEvent`
equals the `isEvents` flag. In live mode a record of the other type is dropped;
in historical mode the outcome is that of `filterEvent` alone. -/
theorem retained_iff_type_and_filter (c : ctailclient) (isEvents : Bool) (m : JObj)
    (h : TagsShape m) :
    (∃ ev, IsEvent m = some ev ∧ (ev = true ↔ HasEventTag m)) ∧
    retained c isEvents none = some false ∧
    (retained c isEvents (some m) = some true ↔
      filterEvent c m = some true ∧ (c.history = true ∨ IsEvent m = some isEvents)) ∧
    (c.history = false → IsEvent m ≠ some isEvents → retained c isEvents (some m) = some false) ∧
    (c.history = true → retained c isEvents (some m) = filterEvent c m) := by
  refine ⟨IsEvent_of_shape m h, rfl, retained_some_true_iff c isEvents m, ?_, ?_⟩
  · intro hh hne
    obtain ⟨ev, he, _⟩ := IsEvent_of_shape m h
    rw [he] at hne
    cases ev <;> cases isEvents <;> simp_all [retained]
  · intro hh
    cases hf : filterEvent c m <;> simp [retained, hh, hf]

theorem retained_iff_type_and_filter_witness :
    TagsShape [("tags", JVal.arr [JVal.str "x", JVal.str "EVENT"])] ∧
    retained { podsfilter := [] } true (some [("tags", JVal.arr [JVal.str "x", JVal.str "EVENT"])])
      = some true ∧
    retained { podsfilter := [] } false (some [("tags", JVal.arr [JVal.str "x", JVal.str "EVENT"])])
      = some false := by
  have hs : TagsShape [("tags", JVal.arr [JVal.str "x", JVal.str "EVENT"])] := by
    intro v hv
    refine ⟨["x", "EVENT"], ?_⟩
    simpa [List.lookup] using hv.symm
  have ht := retained_iff_type_and_filter { podsfilter := [] } true
    [("tags", JVal.arr [JVal.str "x", JVal.str "EVENT"])] hs
  have hf := retained_iff_type_and_filter { podsfilter := [] } false
    [("tags", JVal.arr [JVal.str "x", JVal.str "EVENT"])] hs
  exact ⟨hs, ht.2.2.1.2 ⟨by decide, Or.inr (by decide)⟩, hf.2.2.2.1 rfl (by decide)⟩
/-! ## The filter step on malformed records -/

theorem strInterfaceIncluded_isSome_iff (xs : List JVal) (v : String) :
    (∃ b, strInterfaceIncluded xs v = some b) ↔ StringsUpTo v xs := by
  induction xs with
  | nil =>
    refine ⟨fun _ => ?_, fun _ => ⟨false, rfl⟩⟩
    intro pre x post e
    cases pre <;> cases e
  | cons a xs ih =>
    by_cases hs : ∃ s, a = JVal.str s
    · obtain ⟨s, rfl⟩ := hs
      by_cases hv : s = v
      · subst hv
        refine ⟨fun _ => ?_, fun _ => ⟨true, by simp [strInterfaceIncluded, JVal.assertStr]⟩⟩
        intro pre x post e hpre
        cases pre with
        | nil =>
          simp only [List.nil_append, List.cons.injEq] at e
          exact ⟨s, e.1.symm⟩
        | cons p pre2 =>
          simp only [List.cons_append, List.cons.injEq] at e
          exact absurd e.1.symm (hpre p (List.mem_cons_self _ _))
      · have hrec : strInterfaceIncluded (JVal.str s :: xs) v = strInterfaceIncluded xs v := by
          simp [strInterfaceIncluded, JVal.assertStr, hv]
        rw [hrec, ih]
        constructor
        · intro h pre x post e hpre
          cases pre with
          | nil =>
            simp only [List.nil_append, List.cons.injEq] at e
            exact ⟨s, e.1.symm⟩
          | cons p pre2 =>
            simp only [List.cons_append, List.cons.injEq] at e
            exact h pre2 x post e.2 fun y hy => hpre y (List.mem_cons_of_mem _ hy)
        · intro h pre x post e hpre
          refine h (JVal.str s :: pre) x post (by rw [e]; rfl) ?_
          intro y hy
          rcases List.mem_cons.1 hy with h1 | h1
          · rw [h1]
            intro e2
            exact hv (JVal.str.inj e2)
          · exact hpre y h1
    · have hnone : strInterfaceIncluded (a :: xs) v = none := by
        cases a <;> first | rfl | exact absurd ⟨_, rfl⟩ hs
      rw [hnone]
      constructor
      · rintro ⟨b, hb⟩
        cases hb
      · intro h
        exact absurd (h [] a xs rfl (fun y hy => by cases hy)) hs

/-- `IsEvent` returns a boolean exactly on the records whose `tags` value, when
present, is a list in which every element that no `"EVENT"` precedes is a
string. -/
theorem IsEvent_isSome_iff (m : JObj) : (∃ ev, IsEvent m = some ev) ↔ TagsOk m := by
  unfold IsEvent TagsOk
  cases hl : m.lookup "tags" with
  | none =>
    refine ⟨fun _ v hv => (by cases hv), fun _ => ⟨false, rfl⟩⟩
  | some t =>
    by_cases ha : ∃ xs, t = JVal.arr xs
    · obtain ⟨xs, rfl⟩ := ha
      simp only [JVal.assertArr, Option.some_bind]
      rw [strInterfaceIncluded_isSome_iff]
      constructor
      · intro h v hv
        cases hv
        exact ⟨xs, rfl, h⟩
      · intro h
        obtain ⟨ys, e, hy⟩ := h _ rfl
        cases e
        exact hy
    · have hnone : t.assertArr = none := by
        cases t <;> first | rfl | exact absurd ⟨_, rfl⟩ ha
      simp only [hnone, Option.none_bind]
      constructor
      · rintro ⟨b, hb⟩
        cases hb
      · intro h
        obtain ⟨xs, e, _⟩ := h t rfl
        exact absurd ⟨xs, e⟩ ha

theorem TagsOk_of_TagsShape (m : JObj) (h : TagsShape m) : TagsOk m := by
  intro v hv
  obtain ⟨xs, rfl⟩ := h v hv
  refine ⟨_, rfl, ?_⟩
  intro pre x post e _
  have hx : x ∈ xs.map JVal.str := by
    rw [e]
    simp
  obtain ⟨s, _, hs⟩ := List.mem_map.1 hx
  exact ⟨s, hs.symm⟩

theorem filterBlock_eq_none_iff (a : Bool) (mt r : Option Bool) :
    filterBlock a mt r = none ↔
      (a = true ∧ mt = none) ∨ ((a = false ∨ mt = some true) ∧ r = none) := by
  cases a <;> cases mt with
  | none => simp [filterBlock]
  | some b => cases b <;> simp [filterBlock]

theorem matched_of_no_kubernetes (c : ctailclient) (m : JObj)
    (hk : m.lookup "kubernetes" = none) :
    podNameMatched c m = some false ∧ podIdMatched c m = some false ∧
      ∀ label test, labelMatched label test m = some false := by
  refine ⟨?_, ?_, fun label test => ?_⟩ <;>
    simp [podNameMatched, podIdMatched, labelMatched, JObj.has, hk]

theorem matched_of_not_object (c : ctailclient) (m : JObj) (v : JVal)
    (hk : m.lookup "kubernetes" = some v) (hv : ∀ kube, v ≠ JVal.obj kube) :
    podNameMatched c m = none ∧ podIdMatched c m = none ∧
      ∀ label test, labelMatched label test m = none := by
  have ha : v.assertObj = none := by
    cases v <;> first | rfl | exact absurd rfl (hv _)
  refine ⟨?_, ?_, fun label test => ?_⟩ <;>
    simp [podNameMatched, podIdMatched, labelMatched, JObj.has, JObj.index, hk, ha]

theorem podIdMatched_of_object (c : ctailclient) (m kube : JObj)
    (hk : m.lookup "kubernetes" = some (JVal.obj kube)) :
    ∃ b, podIdMatched c m = some b ∧
      (b = true ↔ kubeField m "pod_id" = some (JVal.str c.podid)) := by
  refine ⟨((kube.lookup "pod_id").getD JVal.null).commaStr.2 &&
    decide (c.podid = ((kube.lookup "pod_id").getD JVal.null).commaStr.1), ?_, ?_⟩
  · simp [podIdMatched, JObj.has, JObj.index, hk, JVal.assertObj]
  · rw [kubeField_of_lookup m kube "pod_id" hk,
      commaStr_iff (kube.lookup "pod_id") (fun s => decide (c.podid = s))]
    constructor
    · rintro ⟨s, h1, h2⟩
      have : c.podid = s := by simpa using h2
      rw [this]; exact h1
    · intro h; exact ⟨c.podid, h, by simp⟩

theorem labelMatched_of_bad_labels (label : String) (test : String → Bool) (m kube : JObj)
    (w : JVal) (hk : m.lookup "kubernetes" = some (JVal.obj kube))
    (hl : kube.lookup "labels" = some w) (hw : ∀ labels, w ≠ JVal.obj labels) :
    labelMatched label test m = none := by
  have ha : w.assertObj = none := by
    cases w <;> first | rfl | exact absurd rfl (hw _)
  simp [labelMatched, JObj.has, JObj.index, hk, JVal.assertObj, hl, ha]

theorem labelMatched_of_good_labels (label : String) (test : String → Bool) (m kube : JObj)
    (hk : m.lookup "kubernetes" = some (JVal.obj kube))
    (hl : ∀ w, kube.lookup "labels" = some w → ∃ labels, w = JVal.obj labels) :
    ∃ b, labelMatched label test m = some b := by
  have hs : ObjShape m := by
    intro v hv
    rw [hk] at hv
    cases hv
    exact ⟨kube, rfl, hl⟩
  obtain ⟨b, hb, _⟩ := labelMatched_of_shape label test m hs
  exact ⟨b, hb⟩

theorem podNameMatched_of_object (c : ctailclient) (m kube : JObj)
    (hk : m.lookup "kubernetes" = some (JVal.obj kube)) (hp : PodNameStr m) :
    ∃ b, podNameMatched c m = some b ∧
      (b = true ↔ ∃ s, kubeField m "pod_name" = some (JVal.str s) ∧ s ∈ c.podsfilter) := by
  have hs : PodShape m := by
    intro v hv
    rw [hk] at hv
    cases hv
    exact ⟨kube, rfl, fun p hq => hp kube p hk hq⟩
  exact podNameMatched_of_str c m hs

theorem active_iff (c : ctailclient) :
    (decide (c.podsfilter.length > 0) = true ↔ c.podsfilter ≠ []) ∧
    (decide (goLen c.env > 0) = true ↔ c.env ≠ "") ∧
    (decide (goLen c.rev > 0) = true ↔ c.rev ≠ "") ∧
    (decide (goLen c.podid > 0) = true ↔ c.podid ≠ "") ∧
    (decide (c.clustersfilter.length > 0) = true ↔ c.clustersfilter ≠ []) := by
  refine ⟨by simp [List.length_pos], ?_, ?_, ?_, by simp [List.length_pos]⟩ <;>
    (simp only [decide_eq_true_eq]; exact goLen_pos_iff _)

/-- `filterEvent` fails exactly on the records of `FilterFails`, the
`pod_name` being a string in case the pod-name set is configured. -/
theorem filterEvent_eq_none_iff (c : ctailclient) (m : JObj)
    (hp : c.podsfilter ≠ [] → PodNameStr m) : filterEvent c m = none ↔ FilterFails c m := by
  obtain ⟨i1, i2, i3, i4, i5⟩ := active_iff c
  unfold filterEvent FilterFails AnySet PodPass PodIdPass
  rw [← i1, ← i2, ← i3, ← i4, ← i5]
  generalize decide (c.podsfilter.length > 0) = a1 at *
  generalize decide (goLen c.env > 0) = a2 at *
  generalize decide (goLen c.rev > 0) = a3 at *
  generalize decide (goLen c.podid > 0) = a4 at *
  generalize decide (c.clustersfilter.length > 0) = a5 at *
  cases hk : m.lookup "kubernetes" with
  | none =>
    obtain ⟨m1, m4, ml⟩ := matched_of_no_kubernetes c m hk
    have nk : ¬ KubeNotObject m := by
      rintro ⟨v, hv, _⟩
      rw [hk] at hv
      cases hv
    have nl : ¬ LabelsNotObject m := by
      rintro ⟨kube, w, hv, _⟩
      rw [hk] at hv
      cases hv
    rw [m1, m4, ml, ml, ml]
    simp only [nk, nl, and_false, false_and, or_false, iff_false]
    cases a1 <;> cases a2 <;> cases a3 <;> cases a4 <;> cases a5 <;> simp [filterBlock]
  | some v =>
    by_cases hobj : ∃ kube, v = JVal.obj kube
    · obtain ⟨kube, rfl⟩ := hobj
      have nk : ¬ KubeNotObject m := by
        rintro ⟨v, hv, hn⟩
        rw [hk] at hv
        cases hv
        exact hn kube rfl
      obtain ⟨b4, m4, e4⟩ := podIdMatched_of_object c m kube hk
      rw [m4, ← e4]
      have hpod : a1 = true → ∃ b1, podNameMatched c m = some b1 ∧
          (b1 = true ↔ ∃ s, kubeField m "pod_name" = some (JVal.str s) ∧ s ∈ c.podsfilter) :=
        fun h => podNameMatched_of_object c m kube hk (hp (i1.1 h))
      by_cases hbad : ∃ w, kube.lookup "labels" = some w ∧ ∀ labels, w ≠ JVal.obj labels
      · obtain ⟨w, hl, hw⟩ := hbad
        have yl : LabelsNotObject m := ⟨kube, w, hk, hl, hw⟩
        have ml := labelMatched_of_bad_labels
        rw [ml _ _ m kube w hk hl hw, ml _ _ m kube w hk hl hw, ml _ _ m kube w hk hl hw]
        simp only [nk, yl, and_false, false_or, true_and]
        cases a1 with
        | false =>
          rw [filterBlock_inactive]
          cases a2 <;> cases a3 <;> cases a4 <;> cases a5 <;> cases b4 <;> simp [filterBlock]
        | true =>
          obtain ⟨b1, m1, e1⟩ := hpod rfl
          rw [m1, ← e1]
          cases a2 <;> cases a3 <;> cases a4 <;> cases a5 <;> cases b4 <;> cases b1 <;>
            simp [filterBlock]
      · have hgood : ∀ w, kube.lookup "labels" = some w → ∃ labels, w = JVal.obj labels := by
          intro w hw
          by_contra hne
          exact hbad ⟨w, hw, fun labels e => hne ⟨labels, e⟩⟩
        have nl : ¬ LabelsNotObject m := by
          rintro ⟨kube2, w, hv, hl, hw⟩
          rw [hk] at hv
          cases hv
          obtain ⟨labels, e⟩ := hgood w hl
          exact hw labels e
        obtain ⟨b2, m2⟩ := labelMatched_of_good_labels "environment"
          (fun val => decide (c.env = val)) m kube hk hgood
        obtain ⟨b3, m3⟩ := labelMatched_of_good_labels "version"
          (fun val => decide (c.rev = val)) m kube hk hgood
        obtain ⟨b5, m5⟩ := labelMatched_of_good_labels "kubeCluster"
          (fun val => includes c.clustersfilter val) m kube hk hgood
        rw [m2, m3, m5]
        simp only [nk, nl, and_false, false_and, or_false, iff_false]
        cases a1 with
        | false =>
          rw [filterBlock_inactive]
          cases a2 <;> cases a3 <;> cases a4 <;> cases a5 <;> cases b2 <;> cases b3 <;>
            cases b4 <;> cases b5 <;> simp [filterBlock]
        | true =>
          obtain ⟨b1, m1, _⟩ := hpod rfl
          rw [m1]
          cases a2 <;> cases a3 <;> cases a4 <;> cases a5 <;> cases b1 <;> cases b2 <;>
            cases b3 <;> cases b4 <;> cases b5 <;> simp [filterBlock]
    · have hv : ∀ kube, v ≠ JVal.obj kube := fun kube e => hobj ⟨kube, e⟩
      obtain ⟨m1, m4, ml⟩ := matched_of_not_object c m v hk hv
      have yk : KubeNotObject m := ⟨v, hk, hv⟩
      have nl : ¬ LabelsNotObject m := by
        rintro ⟨kube, w, hv2, _⟩
        rw [hk] at hv2
        cases hv2
        exact hv kube rfl
      rw [m1, m4, ml, ml, ml]
      simp only [yk, nl, and_true, false_and, or_false]
      cases a1 <;> cases a2 <;> cases a3 <;> cases a4 <;> cases a5 <;> simp [filterBlock]

theorem retained_eq_none_iff (c : ctailclient) (isEvents : Bool) (m : JObj)
    (hp : c.podsfilter ≠ [] → PodNameStr m) :
    retained c isEvents (some m) = none ↔
      (c.history = false ∧ ¬ TagsOk m) ∨
        ((c.history = true ∨ IsEvent m = some isEvents) ∧ FilterFails c m) := by
  rw [← filterEvent_eq_none_iff c m hp, ← IsEvent_isSome_iff]
  cases hh : c.history with
  | true =>
    cases hf : filterEvent c m <;> simp [retained, hh, hf]
  | false =>
    cases he : IsEvent m with
    | none => simp [retained, hh, he]
    | some ev =>
      cases hf : filterEvent c m <;> cases ev <;> cases isEvents <;>
        simp [retained, hh, he, hf]

theorem not_FilterFails_of_ObjShape (c : ctailclient) (m : JObj) (h : ObjShape m) :
    ¬ FilterFails c m := by
  rintro (⟨_, v, hv, hn⟩ | ⟨⟨kube, w, hk, hl, hw⟩, _⟩)
  · obtain ⟨kube, e, _⟩ := h v hv
    exact hn kube e
  · obtain ⟨kube2, e, hl2⟩ := h _ hk
    cases e
    obtain ⟨labels, e2⟩ := hl2 w hl
    exact hw labels e2

/-- C14 (counterexample). The container assertions of the filter step are made
in the single-value form: with an environment filter set, `filterEvent` returns
no boolean on a record whose `kubernetes` value is a string, nor on one whose
`kubernetes.labels` value is a string; `IsEvent` returns no boolean on a record
whose `tags` value is a string, nor on one whose `tags` list holds a number; and
the filter of the consume loop returns no boolean on the first of them. -/
theorem filter_step_fails_on_malformed_container :
    filterEvent { env := "prod" } [("kubernetes", JVal.str "x")] = none ∧
    filterEvent { env := "prod" } [("kubernetes", JVal.obj [("labels", JVal.str "x")])] = none ∧
    IsEvent [("tags", JVal.str "EVENT")] = none ∧
    IsEvent [("tags", JVal.arr [JVal.num 1, JVal.str "EVENT"])] = none ∧
    retained { env := "prod" } false (some [("kubernetes", JVal.str "x")]) = none := by
  refine ⟨by decide, by decide, by decide, by decide, by decide⟩

/-- C14 (amended). For every filter configuration and every parsed JSON object
whose `kubernetes.pod_name`, when `kubernetes` is an object that has one, is a
string in case the pod-name set is configured.  `IsEvent` returns a boolean
exactly when the `tags` value, if present, is a list in which every element
that no `"EVENT"` precedes is a string.  `filterEvent` returns a boolean exactly
when the record is not one of `FilterFails`: a predicate is set and
`kubernetes` is present but not an object; or `kubernetes.labels` is present but
not an object, the pod-name predicate does not reject the record, and the
environment or revision predicate is set, or the cluster predicate is set and
the pod-id predicate does not reject the record.  The filter of the consume
loop returns a boolean exactly when neither the client is in live mode with
`IsEvent` failing, nor the type test is passed or skipped with `filterEvent`
failing.  In particular a list of strings under `tags`, object values under
`kubernetes` and `kubernetes.labels`, an absent `kubernetes`, and a
configuration without predicates are safe. -/
theorem filter_step_fails_exactly (c : ctailclient) (isEvents : Bool) (m : JObj)
    (hp : c.podsfilter ≠ [] → PodNameStr m) :
    ((∃ ev, IsEvent m = some ev) ↔ TagsOk m) ∧
    ((∃ b, filterEvent c m = some b) ↔ ¬ FilterFails c m) ∧
    ((∃ r, retained c isEvents (some m) = some r) ↔
      ¬ ((c.history = false ∧ ¬ TagsOk m) ∨
        ((c.history = true ∨ IsEvent m = some isEvents) ∧ FilterFails c m))) ∧
    (TagsShape m → TagsOk m) ∧
    (ObjShape m → ¬ FilterFails c m) ∧
    (m.lookup "kubernetes" = none → ¬ FilterFails c m) ∧
    (¬ AnySet c → filterEvent c m = some true) ∧
    (m.lookup "tags" = none → IsEvent m = some false) := by
  refine ⟨IsEvent_isSome_iff m, ?_, ?_, TagsOk_of_TagsShape m, not_FilterFails_of_ObjShape c m,
    ?_, ?_, ?_⟩
  · rw [← filterEvent_eq_none_iff c m hp, ← Option.ne_none_iff_exists']
  · rw [← retained_eq_none_iff c isEvents m hp, ← Option.ne_none_iff_exists']
  · intro hk
    apply not_FilterFails_of_ObjShape
    intro v hv
    rw [hk] at hv
    cases hv
  · intro hn
    unfold AnySet at hn
    simp only [not_or, not_not] at hn
    exact filterEvent_of_unset c m hn.1 hn.2.2.2.2 hn.2.1 hn.2.2.1 hn.2.2.2.1
  · intro hw
    simp [IsEvent, hw]

theorem filter_step_fails_exactly_witness :
    (∃ ev, IsEvent [("tags", JVal.arr [JVal.str "EVENT", JVal.num 1])] = some ev) ∧
    ¬ ∃ b, filterEvent { env := "prod" }
      [("kubernetes", JVal.obj [("labels", JVal.str "x")])] = some b := by
  have ht : TagsOk [("tags", JVal.arr [JVal.str "EVENT", JVal.num 1])] := by
    intro v hv
    have e : v = JVal.arr [JVal.str "EVENT", JVal.num 1] := by
      simpa [List.lookup] using hv.symm
    subst e
    refine ⟨_, rfl, ?_⟩
    intro pre x post e hpre
    cases pre with
    | nil =>
      simp only [List.nil_append, List.cons.injEq] at e
      exact ⟨"EVENT", e.1.symm⟩
    | cons p pre2 =>
      simp only [List.cons_append, List.cons.injEq] at e
      exact absurd e.1.symm (hpre p (List.mem_cons_self _ _))
  have hf : FilterFails { env := "prod" }
      [("kubernetes", JVal.obj [("labels", JVal.str "x")])] := by
    refine Or.inr ⟨⟨[("labels", JVal.str "x")], JVal.str "x", rfl, rfl, fun labels e => ?_⟩,
      fun h => absurd rfl h, Or.inl (by decide)⟩
    cases e
  exact ⟨(filter_step_fails_exactly { env := "prod" } true _ (fun h => absurd rfl h)).1.2 ht,
    fun hb => ((filter_step_fails_exactly { env := "prod" } true _
      (fun h => absurd rfl h)).2.1.1 hb) hf⟩
/-! ## FromJsonBlob on records without host or time -/

theorem index_assertStr_of_lookup (m : JObj) (k s : String) (h : m.lookup k = some (JVal.str s)) :
    (m.index k).assertStr = some s := by
  simp [JObj.index, h, JVal.assertStr]

theorem index_assertTime_of_lookup (m : JObj) (k : String) (t : Time)
    (h : m.lookup k = some (JVal.time t)) : (m.index k).assertTime = some t := by
  simp [JObj.index, h, JVal.assertTime]

theorem lookup_set_self (m : JObj) (k : String) (v : JVal) : (JObj.set m k v).lookup k = some v := by
  simp [JObj.set, List.lookup]

theorem lookup_filter_ne (m : JObj) (k j : String) (h : j ≠ k) :
    (m.filter fun p => p.1 ≠ k).lookup j = m.lookup j := by
  induction m with
  | nil => rfl
  | cons p m ih =>
    obtain ⟨a, v⟩ := p
    have ih2 : List.lookup j (List.filter (fun p => !decide (p.1 = k)) m) = List.lookup j m := by
      simpa using ih
    have hjk : (j == k) = false := by simpa using h
    by_cases ha : a = k
    · simp [List.filter, ha, List.lookup, hjk, ih2]
    · by_cases hj : j = a
      · simp [List.filter, ha, List.lookup, hj]
      · have hj2 : (j == a) = false := by simpa using hj
        simp [List.filter, ha, List.lookup, hj2, ih2]

theorem lookup_set_ne (m : JObj) (k j : String) (v : JVal) (h : j ≠ k) :
    (JObj.set m k v).lookup j = m.lookup j := by
  have hj : (j == k) = false := by simpa using h
  simp only [JObj.set, List.lookup, hj]
  exact lookup_filter_ne m k j h

theorem lookup_default (m : JObj) (k j : String) (v : JVal) (h : j ≠ k) :
    (if m.has k then m else JObj.set m k v).lookup j = m.lookup j := by
  split
  · rfl
  · exact lookup_set_ne m k j v h

/-- C15 (counterexample). `FromJsonBlob` asserts `jsonMsg["host"].(string)` and,
when the instant is zero, `jsonMsg["@timestamp"].(time.Time)` in the
single-value form: it returns neither an event nor an error on a record with no
`host`, on one whose `host` is a number, on one with a string `host`, no instant
and no `@timestamp`, and on one whose `@timestamp` is a text that was not
parsed. -/
theorem FromJsonBlob_fails_without_host_or_time :
    FromJsonBlob Location.utc [("@timestamp", JVal.time ⟨1700000000, 0, 0, "UTC"⟩)] = none ∧
    FromJsonBlob Location.utc
      [("host", JVal.num 5), ("@timestamp", JVal.time ⟨1700000000, 0, 0, "UTC"⟩)] = none ∧
    FromJsonBlob Location.utc [("host", JVal.str "h")] = none ∧
    FromJsonBlob Location.utc [("host", JVal.str "h"), ("@timestamp", JVal.str "yesterday")]
      = none := by
  refine ⟨rfl, rfl, rfl, rfl⟩

theorem assertStr_index_eq_none_iff (m : JObj) (k : String) :
    (m.index k).assertStr = none ↔ ∀ s, m.lookup k ≠ some (JVal.str s) := by
  unfold JObj.index
  cases hv : m.lookup k with
  | none => simp [JVal.assertStr]
  | some v => cases v <;> simp [JVal.assertStr]

theorem assertTime_index_eq_none_iff (m : JObj) (k : String) :
    (m.index k).assertTime = none ↔ ∀ t, m.lookup k ≠ some (JVal.time t) := by
  unfold JObj.index
  cases hv : m.lookup k with
  | none => simp [JVal.assertTime]
  | some v => cases v <;> simp [JVal.assertTime]

theorem FromJsonBlob_eq_none_iff (loc : Location) (m : JObj) :
    FromJsonBlob loc m = none ↔
      marshalOkFields m = true ∧
        ((∀ s, m.lookup "host" ≠ some (JVal.str s)) ∨
          ((decodeEvent m).Instant.EpochSecond = 0 ∧
            ∀ t, m.lookup "@timestamp" ≠ some (JVal.time t))) := by
  rw [← assertStr_index_eq_none_iff, ← assertTime_index_eq_none_iff]
  unfold FromJsonBlob
  cases hm : marshalOkFields m with
  | false => simp
  | true =>
    simp only [Bool.not_true, Bool.false_eq_true, if_false, true_and]
    cases hh : (m.index "host").assertStr with
    | none => simp
    | some host =>
      simp only [Option.some_bind]
      by_cases hz : (decodeEvent m).Instant.EpochSecond = 0
      · cases ht : (m.index "@timestamp").assertTime with
        | none => simp [hz]
        | some t => simp [hz]
      · simp [hz]

theorem FromJsonBlob_total (loc : Location) (m : JObj) (host : String)
    (hh : m.lookup "host" = some (JVal.str host))
    (ht : (decodeEvent m).Instant.EpochSecond ≠ 0 ∨
      ∃ t, m.lookup "@timestamp" = some (JVal.time t)) :
    (marshalOkFields m = true → ∃ e, FromJsonBlob loc m = some (Except.ok e) ∧ e.Host = host) ∧
    (marshalOkFields m = false → ∃ msg, FromJsonBlob loc m = some (Except.error msg)) := by
  have hs := index_assertStr_of_lookup m "host" host hh
  constructor
  · intro hm
    by_cases hz : (decodeEvent m).Instant.EpochSecond = 0
    · rcases ht with ht | ⟨t, ht⟩
      · exact absurd hz ht
      · obtain ⟨e, he, _, _, h⟩ :=
          FromJsonBlob_of_time loc m host t hm hs hz (index_assertTime_of_lookup m _ t ht)
        exact ⟨e, he, h⟩
    · obtain ⟨e, he, _, _, h⟩ := FromJsonBlob_of_instant loc m host hm hs hz
      exact ⟨e, he, h⟩
  · intro hm
    refine ⟨"json: error calling MarshalJSON for type time.Time", ?_⟩
    simp [FromJsonBlob, hm]

/-- The instant decoded from a record whose only key matching `instant` is
`instant`, holding an object whose only key matching `EpochSecond` is
`epochSecond`, holding an integer within `int64`. -/
theorem decoded_EpochSecond (m o : JObj) (n : Int)
    (hi : m.lookup "instant" = some (JVal.obj o))
    (hui : ∀ p ∈ m, keyMatches "instant" p.1 = true → p.1 = "instant")
    (he : o.lookup "epochSecond" = some (JVal.num n))
    (hue : ∀ p ∈ o, keyMatches "EpochSecond" p.1 = true → p.1 = "epochSecond")
    (h0 : -(2 ^ 63 : Int) ≤ n) (h1 : n < (2 ^ 63 : Int)) :
    (decodeEvent m).Instant.EpochSecond = n := by
  have hc : -(2 ^ (64 - 1) : Int) ≤ n ∧ n < (2 ^ (64 - 1) : Int) := ⟨h0, h1⟩
  have hobj : objField (JObj.members m) "instant" = JObj.members o := by
    unfold objField
    rw [fieldValues_of_unique m "instant" "instant" _ (by decide) hi hui]
    simp
  show intField 64 (objField (JObj.members m) "instant") "EpochSecond" = n
  rw [hobj]
  unfold intField
  rw [fieldValues_of_unique o "EpochSecond" "epochSecond" _ (by decide) he hue]
  simp only [List.foldl_cons, List.foldl_nil, storeInt, if_pos hc]

theorem messagePrintDefaults_of_no_host (w : JObj) (h1 : w.lookup "host" = none)
    (h2 : w.lookup "kubernetes" = none) :
    ∃ w1, messagePrintDefaults w = some w1 ∧ w1.lookup "host" = some (JVal.str "UNKNOWN") ∧
      ∀ k, k ≠ "level" → k ≠ "message" → k ≠ "host" → w1.lookup k = w.lookup k := by
  have key : ∀ m2 : JObj, m2.lookup "host" = none → m2.lookup "kubernetes" = none →
      (if m2.has "host" then some m2
        else if !m2.has "kubernetes" then some (JObj.set m2 "host" (JVal.str "UNKNOWN"))
        else
          (m2.index "kubernetes").assertObj.bind fun (kube : JObj) =>
            if !kube.has "pod_name" then some (JObj.set m2 "host" (JVal.str "UNKNOWN_POD_NAME"))
            else (kube.index "pod_name").assertStr.bind fun (pod : String) =>
              some (JObj.set m2 "host" (JVal.str pod)))
        = some (JObj.set m2 "host" (JVal.str "UNKNOWN")) := by
    intro m2 a b
    simp [JObj.has, a, b]
  have n1 : ("host" : String) ≠ "level" := by decide
  have n2 : ("kubernetes" : String) ≠ "level" := by decide
  have n3 : ("host" : String) ≠ "message" := by decide
  have n4 : ("kubernetes" : String) ≠ "message" := by decide
  refine ⟨JObj.set
    (if (if w.has "level" then w else JObj.set w "level" (JVal.str "NONE")).has "message" then
        (if w.has "level" then w else JObj.set w "level" (JVal.str "NONE"))
      else JObj.set (if w.has "level" then w else JObj.set w "level" (JVal.str "NONE")) "message"
        (JVal.str "Missing message field - msg-only requires the message field to work"))
    "host" (JVal.str "UNKNOWN"), ?_, lookup_set_self _ _ _, ?_⟩
  · exact key _ (by rw [lookup_default _ _ _ _ n3, lookup_default _ _ _ _ n1]; exact h1)
      (by rw [lookup_default _ _ _ _ n4, lookup_default _ _ _ _ n2]; exact h2)
  · intro k k1 k2 k3
    rw [lookup_set_ne _ _ _ _ k3, lookup_default _ _ _ _ k2, lookup_default _ _ _ _ k1]

/-- The nanoseconds decoded from a record of the same kind. -/
theorem decoded_NanoOfSecond (m o : JObj) (n : Int)
    (hi : m.lookup "instant" = some (JVal.obj o))
    (hui : ∀ p ∈ m, keyMatches "instant" p.1 = true → p.1 = "instant")
    (he : o.lookup "nanoOfSecond" = some (JVal.num n))
    (hue : ∀ p ∈ o, keyMatches "NanoOfSecond" p.1 = true → p.1 = "nanoOfSecond")
    (h0 : -(2 ^ 63 : Int) ≤ n) (h1 : n < (2 ^ 63 : Int)) :
    (decodeEvent m).Instant.NanoOfSecond = n := by
  have hc : -(2 ^ (64 - 1) : Int) ≤ n ∧ n < (2 ^ (64 - 1) : Int) := ⟨h0, h1⟩
  have hobj : objField (JObj.members m) "instant" = JObj.members o := by
    unfold objField
    rw [fieldValues_of_unique m "instant" "instant" _ (by decide) hi hui]
    simp
  show intField 64 (objField (JObj.members m) "instant") "NanoOfSecond" = n
  rw [hobj]
  unfold intField
  rw [fieldValues_of_unique o "NanoOfSecond" "nanoOfSecond" _ (by decide) he hue]
  simp only [List.foldl_cons, List.foldl_nil, storeInt, if_pos hc]

/-- C15 (amended). `FromJsonBlob` fails at run time exactly on the records that
`json.Marshal` accepts and that have no string under `host`, or that decode to
an instant with `EpochSecond` = 0 and have no time value under `@timestamp`.
On a record that `json.Marshal` rejects it returns the error; on every other
record it returns an event whose host is the string under `host`, an empty host
rendering as `"UNKNOWN"`.  The decoded `EpochSecond` is the integer under
`instant.epochSecond` when no other key matches either name in another letter
case.  A record with no `host` and no `kubernetes` key is given the host
`"UNKNOWN"` by `messagePrint` before the call, its other fields apart from
`level` and `message` being left as they are, so that with a time value under
`@timestamp` the call returns an event whose Host renders as `"UNKNOWN"`, or an
error. -/
theorem FromJsonBlob_fails_exactly_without_host_or_time (loc : Location) (m : JObj) :
    (FromJsonBlob loc m = none ↔
      marshalOkFields m = true ∧
        ((∀ s, m.lookup "host" ≠ some (JVal.str s)) ∨
          ((decodeEvent m).Instant.EpochSecond = 0 ∧
            ∀ t, m.lookup "@timestamp" ≠ some (JVal.time t)))) ∧
    (marshalOkFields m = false → ∃ msg, FromJsonBlob loc m = some (Except.error msg)) ∧
    (∀ host, marshalOkFields m = true → m.lookup "host" = some (JVal.str host) →
      ((decodeEvent m).Instant.EpochSecond ≠ 0 ∨
        ∃ t, m.lookup "@timestamp" = some (JVal.time t)) →
      ∃ e, FromJsonBlob loc m = some (Except.ok e) ∧ e.Host = host ∧
        Host_String e.Host = (if host = "" then "UNKNOWN" else host)) ∧
    (∀ (o : JObj) (n : Int), m.lookup "instant" = some (JVal.obj o) →
      (∀ p ∈ m, keyMatches "instant" p.1 = true → p.1 = "instant") →
      o.lookup "epochSecond" = some (JVal.num n) →
      (∀ p ∈ o, keyMatches "EpochSecond" p.1 = true → p.1 = "epochSecond") →
      -(2 ^ 63 : Int) ≤ n → n < (2 ^ 63 : Int) → (decodeEvent m).Instant.EpochSecond = n) ∧
    (∀ w : JObj, w.lookup "host" = none → w.lookup "kubernetes" = none →
      ∃ w1, messagePrintDefaults w = some w1 ∧ w1.lookup "host" = some (JVal.str "UNKNOWN") ∧
        (∀ k, k ≠ "level" → k ≠ "message" → k ≠ "host" → w1.lookup k = w.lookup k) ∧
        ((∃ t, w.lookup "@timestamp" = some (JVal.time t)) →
          (∃ e, FromJsonBlob loc w1 = some (Except.ok e) ∧ Host_String e.Host = "UNKNOWN") ∨
          ∃ msg, FromJsonBlob loc w1 = some (Except.error msg))) := by
  refine ⟨FromJsonBlob_eq_none_iff loc m, ?_, ?_,
    fun o n hi hui he hue h0 h1 => decoded_EpochSecond m o n hi hui he hue h0 h1, ?_⟩
  · intro hm
    refine ⟨"json: error calling MarshalJSON for type time.Time", ?_⟩
    simp [FromJsonBlob, hm]
  · intro host hm hh ht
    obtain ⟨e, he, h⟩ := (FromJsonBlob_total loc m host hh ht).1 hm
    refine ⟨e, he, h, ?_⟩
    rw [h]
    rfl
  · intro w h1 h2
    obtain ⟨w1, hd, hhost, hk⟩ := messagePrintDefaults_of_no_host w h1 h2
    refine ⟨w1, hd, hhost, hk, ?_⟩
    rintro ⟨t, htime⟩
    have ht1 : w1.lookup "@timestamp" = some (JVal.time t) := by
      rw [hk _ (by decide) (by decide) (by decide)]
      exact htime
    obtain ⟨a1, b1⟩ := FromJsonBlob_total loc w1 "UNKNOWN" hhost (Or.inr ⟨t, ht1⟩)
    cases hm : marshalOkFields w1 with
    | true =>
      obtain ⟨e, he, h⟩ := a1 hm
      exact Or.inl ⟨e, he, by rw [h]; rfl⟩
    | false => exact Or.inr (b1 hm)

theorem FromJsonBlob_fails_exactly_without_host_or_time_witness :
    (∃ e, FromJsonBlob Location.utc
        [("host", JVal.str ""), ("@timestamp", JVal.time ⟨1700000000, 0, 0, "UTC"⟩)]
      = some (Except.ok e) ∧ e.Host = "" ∧ Host_String e.Host = "UNKNOWN") ∧
    FromJsonBlob Location.utc
      [("host", JVal.str "h"),
        ("instant", JVal.obj [("epochSecond", JVal.num 5), ("epochsecond", JVal.num 0)])]
      = none :=
  ⟨(FromJsonBlob_fails_exactly_without_host_or_time Location.utc
      [("host", JVal.str ""), ("@timestamp", JVal.time ⟨1700000000, 0, 0, "UTC"⟩)]).2.2.1 ""
      rfl rfl (Or.inr ⟨_, rfl⟩),
    (FromJsonBlob_fails_exactly_without_host_or_time Location.utc
      [("host", JVal.str "h"),
        ("instant", JVal.obj [("epochSecond", JVal.num 5), ("epochsecond", JVal.num 0)])]).1.2
      ⟨rfl, Or.inr ⟨rfl, fun t h => by cases h⟩⟩⟩
/-! ## The three-way rule of the Timestamp -/

theorem Time_String_ne_sentinel (t : Time) : Time_String t ≠ "missing-timestamp" := by
  intro h
  have hmem : ' ' ∈ (Time_String t).data := by
    simp [Time_String]
  rw [h] at hmem
  exact absurd hmem (by decide)

theorem Timestamp_String_sentinel_iff (L : Location) (ts : Timestamp) :
    Timestamp_String L ts = "missing-timestamp" ↔ ts.Time.Unix ≤ 0 := by
  unfold Timestamp_String
  split
  · next h => exact ⟨fun _ => h, fun _ => rfl⟩
  · next h => exact ⟨fun e => absurd e (Time_String_ne_sentinel _), fun e => absurd e h⟩

theorem decoded_Timestamp (w : JObj) :
    (decodeEvent w).Timestamp =
      (((fieldValues (JObj.members w) "@timestamp").getLast?).map
        fun v => Timestamp_UnmarshalJSON v.encode).getD ⟨Time.zero⟩ := by
  show timestampField (JObj.members w) = _
  unfold timestampField
  rw [foldl_overwrite (fun (v : JVal) => Timestamp_UnmarshalJSON v.encode)]

theorem FromJsonBlob_timestamp (loc : Location) (m : JObj) (e : Event)
    (h : FromJsonBlob loc m = some (Except.ok e)) :
    ((decodeEvent m).Instant.EpochSecond ≠ 0 →
      e.Timestamp = ⟨timeUnix loc (decodeEvent m).Instant.EpochSecond
        (decodeEvent m).Instant.NanoOfSecond⟩) ∧
    ((decodeEvent m).Instant.EpochSecond = 0 →
      ∃ t, m.lookup "@timestamp" = some (JVal.time t) ∧
        e.Timestamp = (decodeEvent m).Timestamp ∧
        ((∀ p ∈ m, keyMatches "@timestamp" p.1 = true → p.1 = "@timestamp") →
          e.Timestamp = Timestamp_UnmarshalJSON ("\"" ++ t.formatRFC3339Nano ++ "\""))) := by
  unfold FromJsonBlob at h
  split at h
  · cases h
  · cases hh : (m.index "host").assertStr with
    | none => rw [hh] at h; cases h
    | some host =>
      rw [hh] at h
      simp only [Option.some_bind] at h
      split at h
      · next hne =>
        injection h with h; injection h with h; subst h
        exact ⟨fun _ => rfl, fun hz => absurd hz hne⟩
      · next hz =>
        cases ht : (m.index "@timestamp").assertTime with
        | none => rw [ht] at h; cases h
        | some t =>
          rw [ht] at h
          simp only [Option.some_bind] at h
          injection h with h; injection h with h; subst h
          refine ⟨fun hne => absurd hne hz, fun _ => ?_⟩
          have hl : m.lookup "@timestamp" = some (JVal.time t) := by
            unfold JObj.index at ht
            cases hv : m.lookup "@timestamp" with
            | none => rw [hv] at ht; cases ht
            | some v =>
              rw [hv] at ht
              cases v <;> cases ht
              rfl
          refine ⟨t, hl, rfl, ?_⟩
          intro hu
          show timestampField (JObj.members m) = _
          unfold timestampField
          rw [fieldValues_of_unique m "@timestamp" "@timestamp" _ (by decide) hl hu,
            List.foldl_cons, List.foldl_nil, encode_time]

/-- C11 (counterexample). The record with the instant `{-5, 0}` is in the first
case (epochSecond ≠ 0) and normalises to the time 5 seconds before the Unix
epoch, which is `1969-12-31 23:59:55 +0000 UTC`, yet its Timestamp renders as
`"missing-timestamp"`; so does the Timestamp parsed from the valid RFC 3339
text `1969-12-31T23:59:55Z`. -/
theorem Timestamp_sentinel_before_epoch :
    (∃ e, FromJsonBlob Location.utc (instantRecord "h" (-5) 0) = some (Except.ok e) ∧
      e.Timestamp = ⟨timeUnix Location.utc (-5) 0⟩ ∧
      Timestamp_String Location.utc e.Timestamp = "missing-timestamp") ∧
    Time_String ((timeUnix Location.utc (-5) 0).In Location.utc)
      = "1969-12-31 23:59:55 +0000 UTC" ∧
    parseRFC3339 "1969-12-31T23:59:55Z" = some ⟨-5, 0, 0, "UTC"⟩ ∧
    Timestamp_String Location.utc (Timestamp_UnmarshalJSON "\"1969-12-31T23:59:55Z\"")
      = "missing-timestamp" := by
  refine ⟨?_, by decide, by decide, by decide⟩
  obtain ⟨e, h1, h2, _⟩ := FromJsonBlob_instantRecord Location.utc "h" (-5) 0 (by decide)
    (by norm_num) (by norm_num) (by norm_num) (by norm_num)
  refine ⟨e, h1, h2, ?_⟩
  rw [h2]
  decide

/-- C11 (amended). For every record that `FromJsonBlob` normalises to an
event: when the decoded instant has `EpochSecond` ≠ 0 the Timestamp is
`time.Unix(EpochSecond, NanoOfSecond)`, whose second is an `int64` that wraps
around; otherwise `@timestamp` holds a time and the Timestamp is the decoded
one, which is what `Timestamp.UnmarshalJSON` reads from the quoted RFC 3339
text of that time when no other key matches `@timestamp` in another letter
case.  The decoded instant is the pair of integers under `instant.epochSecond`
and `instant.nanoOfSecond` when no other key matches these names; the decoded
Timestamp is what `UnmarshalJSON` stores for the last member, in key order,
whose key matches `@timestamp`, and the zero time when there is none.
`UnmarshalJSON` stores the parsed time for a quoted text that `time.Parse`
accepts and the zero time for an input shorter than 10 bytes or not accepted.
A Timestamp renders as `"missing-timestamp"` exactly when its Unix second is
≤ 0, which covers the zero time but also every instant and every parsed time
at or before the Unix epoch; otherwise it renders as that time in the display
location. -/
theorem Timestamp_three_way_rule (loc : Location) (m : JObj) (e : Event)
    (h : FromJsonBlob loc m = some (Except.ok e)) :
    ((decodeEvent m).Instant.EpochSecond ≠ 0 →
      e.Timestamp = ⟨timeUnix loc (decodeEvent m).Instant.EpochSecond
        (decodeEvent m).Instant.NanoOfSecond⟩) ∧
    ((decodeEvent m).Instant.EpochSecond = 0 →
      ∃ t, m.lookup "@timestamp" = some (JVal.time t) ∧
        e.Timestamp = (decodeEvent m).Timestamp ∧
        ((∀ p ∈ m, keyMatches "@timestamp" p.1 = true → p.1 = "@timestamp") →
          e.Timestamp = Timestamp_UnmarshalJSON ("\"" ++ t.formatRFC3339Nano ++ "\""))) ∧
    (∀ (o : JObj) (s n : Int), m.lookup "instant" = some (JVal.obj o) →
      (∀ p ∈ m, keyMatches "instant" p.1 = true → p.1 = "instant") →
      o.lookup "epochSecond" = some (JVal.num s) →
      (∀ p ∈ o, keyMatches "EpochSecond" p.1 = true → p.1 = "epochSecond") →
      o.lookup "nanoOfSecond" = some (JVal.num n) →
      (∀ p ∈ o, keyMatches "NanoOfSecond" p.1 = true → p.1 = "nanoOfSecond") →
      -(2 ^ 63 : Int) ≤ s → s < (2 ^ 63 : Int) → -(2 ^ 63 : Int) ≤ n → n < (2 ^ 63 : Int) →
      (decodeEvent m).Instant = ⟨s, n⟩) ∧
    (∀ w : JObj, (decodeEvent w).Timestamp =
      (((fieldValues (JObj.members w) "@timestamp").getLast?).map
        fun v => Timestamp_UnmarshalJSON v.encode).getD ⟨Time.zero⟩) ∧
    (∀ w : JObj, (∀ p ∈ w, keyMatches "@timestamp" p.1 = false) →
      (decodeEvent w).Timestamp = ⟨Time.zero⟩) ∧
    (∀ text t, parseRFC3339 text = some t →
      Timestamp_UnmarshalJSON ("\"" ++ text ++ "\"") = ⟨t⟩) ∧
    (∀ b, goLen b < 10 ∨ parseRFC3339 (sliceFromTo b 1 (goLen b - 1)) = none →
      Timestamp_UnmarshalJSON b = ⟨Time.zero⟩) ∧
    (∀ L, Timestamp_String L ⟨Time.zero⟩ = "missing-timestamp") ∧
    (∀ L ts, Timestamp_String L ts = "missing-timestamp" ↔ ts.Time.Unix ≤ 0) ∧
    (∀ L, 0 < e.Timestamp.Time.Unix →
      Timestamp_String L e.Timestamp = Time_String (e.Timestamp.Time.In L)) := by
  obtain ⟨a, b⟩ := FromJsonBlob_timestamp loc m e h
  refine ⟨a, b, ?_, decoded_Timestamp, ?_, Timestamp_UnmarshalJSON_quoted, ?_, fun _ => rfl,
    Timestamp_String_sentinel_iff, ?_⟩
  · intro o s n hi hui hs hus hn hun s0 s1 n0 n1
    have e1 := decoded_EpochSecond m o s hi hui hs hus s0 s1
    have e2 := decoded_NanoOfSecond m o n hi hui hn hun n0 n1
    cases hI : (decodeEvent m).Instant with
    | mk x y =>
      rw [hI] at e1 e2
      simp only at e1 e2
      rw [e1, e2]
  · intro w hw
    show timestampField (JObj.members w) = _
    unfold timestampField
    rw [fieldValues_of_no_match w "@timestamp" hw]
    rfl
  · intro b hb
    unfold Timestamp_UnmarshalJSON
    rcases hb with hb | hb
    · rw [if_pos hb]
    · split
      · rfl
      · rw [hb]
  · intro L hpos
    have : ¬ e.Timestamp.Time.Unix ≤ 0 := by omega
    simp only [Timestamp_String, this, if_false]

theorem Timestamp_three_way_rule_witness :
    ∃ e, FromJsonBlob Location.utc (instantRecord "h" 1700000000 0) = some (Except.ok e) ∧
      e.Timestamp = ⟨timeUnix Location.utc 1700000000 0⟩ ∧
      Timestamp_String Location.utc e.Timestamp = "2023-11-14 22:13:20 +0000 UTC" := by
  obtain ⟨e, h1, h2, _⟩ := FromJsonBlob_instantRecord Location.utc "h" 1700000000 0 (by decide)
    (by norm_num) (by norm_num) (by norm_num) (by norm_num)
  have hr := Timestamp_three_way_rule Location.utc (instantRecord "h" 1700000000 0) e h1
  refine ⟨e, h1, h2, ?_⟩
  rw [hr.2.2.2.2.2.2.2.2.2 Location.utc (by rw [h2]; decide), h2]
  decide
end Tail
